import Mathlib

/-!
# RCEngine: a character-grid console engine

Shallow embedding of `src/RCEngine.hpp`: the cell (`CellTexture`), the grid buffer of
`RCEngine` with `blendColor`, `draw`, `drawLine`, `write`, `fill`, `clear` and the read
accessors, and the per-channel input edge detection of `gameLoop`.

Conventions of the embedding.

* `int` is `Int`.  Coordinates are compared against `cellCols`/`cellRows` before they enter
  any arithmetic, so for every grid that fits in memory that arithmetic stays far inside
  32 bits and is modelled without wrap-around.  The exception is `fill`, which adds
  `dest.y + dest.h` and `dest.x + dest.w` before any comparison: these two sums are reduced to
  32 bits with `wrapInt32`, the two's-complement result that the compiled code computes (C++
  itself leaves signed overflow undefined).
* `Uint8` is `Fin 256`.
* `double` is modelled by its value, a rational, and every arithmetic operation rounds its
  exact result to binary64 with `fl` (round to nearest, ties to even, 53 significant bits),
  one rounding per operation as the source writes them (no fused multiply-add).
  The exponent range is not bounded in the model: the values `blendColor` handles are `0` or
  lie between `2^(-9)` and `2^9`, where binary64 neither overflows nor underflows.
* `buffer` is a list of rows.  An access `buffer[i][j]` outside the vectors has no defined
  behaviour in C++; the embedding makes every operation return `Option` and yields `none`
  there.  The SDL renderer, window and texture handles are not part of the state.
-/

/-! ## Definitions -/

/-- An 8-bit unsigned value (`Uint8` of SDL). -/
abbrev Uint8 := Fin 256

/-- The colour record of SDL: red, green, blue, alpha. -/
structure SDL_Color where
  r : Uint8
  g : Uint8
  b : Uint8
  a : Uint8
deriving DecidableEq, Repr

/-- The rectangle record of SDL. -/
structure SDL_Rect where
  x : Int
  y : Int
  w : Int
  h : Int
deriving DecidableEq, Repr

/-- Round a rational to the nearest integer, ties to the even neighbour. -/
def roundHalfEven (m : ℚ) : ℤ :=
  if m - ⌊m⌋ < 1 / 2 then ⌊m⌋
  else if 1 / 2 < m - ⌊m⌋ then ⌊m⌋ + 1
  else if ⌊m⌋ % 2 = 0 then ⌊m⌋ else ⌊m⌋ + 1

/-- The binary64 value nearest to `q` (ties to even): with `e = ⌊log₂ |q|⌋` the significand
`q / 2^(e-52)` lies in `[2^52, 2^53)` and is rounded to an integer. -/
def fl (q : ℚ) : ℚ :=
  if q = 0 then 0
  else (roundHalfEven (q * (2 : ℚ) ^ (52 - Int.log 2 |q|)) : ℚ) * (2 : ℚ) ^ (Int.log 2 |q| - 52)

/-- Product of two doubles. -/
def Double.mul (a b : ℚ) : ℚ := fl (a * b)

/-- Quotient of two doubles. -/
def Double.div (a b : ℚ) : ℚ := fl (a / b)

/-- Sum of two doubles. -/
def Double.add (a b : ℚ) : ℚ := fl (a + b)

/-- Difference of two doubles. -/
def Double.sub (a b : ℚ) : ℚ := fl (a - b)

/-- The C library `round`: nearest integer, halfway cases away from zero. -/
def Double.round (q : ℚ) : ℚ :=
  if 0 ≤ q then (⌊q + 1 / 2⌋ : ℤ) else -(⌊-q + 1 / 2⌋ : ℤ)

/-- The conversion `static_cast<Uint8>(double)`: the fraction is dropped (toward zero) and the
integer is narrowed to 8 bits.  (C++ defines the result only when the integer is in 0..255.) -/
def Double.toUint8 (q : ℚ) : Uint8 :=
  Fin.ofNat (((if 0 ≤ q then ⌊q⌋ else ⌈q⌉) % 256).toNat)

/-- The method `RCEngine::blendColor` (it reads no member of the engine).  The store
`alpha = 0.0`, which nothing reads, is left out. -/
def blendColor (color1 color2 : SDL_Color) : SDL_Color :=
  let red : ℚ := (color1.r.val : ℚ)
  let green : ℚ := (color1.g.val : ℚ)
  let blue : ℚ := (color1.b.val : ℚ)
  let alpha : ℚ := (color1.a.val : ℚ)
  let red := Double.mul red (Double.div alpha 255)
  let green := Double.mul green (Double.div alpha 255)
  let blue := Double.mul blue (Double.div alpha 255)
  let newRed : ℚ := (color2.r.val : ℚ)
  let newGreen : ℚ := (color2.g.val : ℚ)
  let newBlue : ℚ := (color2.b.val : ℚ)
  let newAlpha : ℚ := (color2.a.val : ℚ)
  let red := Double.add (Double.mul newRed (Double.div newAlpha 255))
    (Double.mul red (Double.sub 1 (Double.div newAlpha 255)))
  let green := Double.add (Double.mul newGreen (Double.div newAlpha 255))
    (Double.mul green (Double.sub 1 (Double.div newAlpha 255)))
  let blue := Double.add (Double.mul newBlue (Double.div newAlpha 255))
    (Double.mul blue (Double.sub 1 (Double.div newAlpha 255)))
  let alpha : ℚ := 255
  { r := Double.toUint8 (Double.round red)
    g := Double.toUint8 (Double.round green)
    b := Double.toUint8 (Double.round blue)
    a := Double.toUint8 (Double.round alpha) }

/-- The class `CellTexture` without its texture handle. -/
structure CellTexture where
  ch : Uint8
  numSrcRows : Int
  numSrcCols : Int
  srcRect : SDL_Rect
  destRect : SDL_Rect
  foreColor : SDL_Color
  backColor : SDL_Color
deriving DecidableEq, Repr

/-- The constructor of `CellTexture`. -/
def CellTexture.new (numSrcRows numSrcCols srcCellWidth srcCellHeight
    destCellWidth destCellHeight : Int) : CellTexture :=
  { ch := 0
    numSrcRows := numSrcRows
    numSrcCols := numSrcCols
    srcRect := ⟨0, 0, srcCellWidth, srcCellHeight⟩
    destRect := ⟨0, 0, destCellWidth, destCellHeight⟩
    foreColor := ⟨255, 255, 255, 255⟩
    backColor := ⟨0, 0, 0, 255⟩ }

/-- The setter `CellTexture::setCh`: stores the glyph and moves the source rectangle to the
glyph's tile (`%` and `/` of C++ truncate toward zero). -/
def CellTexture.setCh (c : CellTexture) (ch : Uint8) : CellTexture :=
  { c with
    ch := ch
    srcRect :=
      { c.srcRect with
        x := (Int.tmod (ch.val : Int) c.numSrcCols) * c.srcRect.w
        y := (Int.tdiv (ch.val : Int) c.numSrcCols) * c.srcRect.h } }

/-- The setter `CellTexture::setDestPosition`. -/
def CellTexture.setDestPosition (c : CellTexture) (x y : Int) : CellTexture :=
  { c with destRect := { c.destRect with x := x, y := y } }

/-- The setter `CellTexture::setForeColor`. -/
def CellTexture.setForeColor (c : CellTexture) (color : SDL_Color) : CellTexture :=
  { c with foreColor := color }

/-- The setter `CellTexture::setBackColor`. -/
def CellTexture.setBackColor (c : CellTexture) (color : SDL_Color) : CellTexture :=
  { c with backColor := color }

/-- The getter `CellTexture::getCh`. -/
def CellTexture.getCh (c : CellTexture) : Uint8 := c.ch

/-- The getter `CellTexture::getForeColor`. -/
def CellTexture.getForeColor (c : CellTexture) : SDL_Color := c.foreColor

/-- The getter `CellTexture::getBackColor`. -/
def CellTexture.getBackColor (c : CellTexture) : SDL_Color := c.backColor

/-- The three statements that `draw`, `write` and `fill` each run on one cell `buffer[i][j]`:
`setCh(ch)`, then `setForeColor(blendColor(getForeColor(), foreColor))`, then
`setBackColor(blendColor(getBackColor(), backColor))`. -/
def CellTexture.paint (c : CellTexture) (ch : Uint8) (foreColor backColor : SDL_Color) :
    CellTexture :=
  let c1 := c.setCh ch
  let c2 := c1.setForeColor (blendColor c1.getForeColor foreColor)
  c2.setBackColor (blendColor c2.getBackColor backColor)

/-- The grid part of the class `RCEngine`. -/
structure RCEngine where
  cellRows : Int
  cellCols : Int
  cellWidth : Int
  cellHeight : Int
  screenWidth : Int
  screenHeight : Int
  buffer : List (List CellTexture)
deriving DecidableEq, Repr

/-- The class invariant that `createConsole` establishes: `buffer` has `cellRows` rows of
`cellCols` cells. -/
def RCEngine.wf (e : RCEngine) : Prop :=
  e.buffer.length = e.cellRows.toNat ∧ ∀ row ∈ e.buffer, row.length = e.cellCols.toNat

instance (e : RCEngine) : Decidable e.wf := by
  unfold RCEngine.wf
  infer_instance

/-- The values `lo, lo+1, ..., hi-1` that the counter of
`for (int k = lo; k < hi; k ++)` takes. -/
def loopRange (lo hi : Int) : List Int :=
  (List.range (hi - lo).toNat).map (fun (k : Nat) => lo + (k : Int))

/-- The read `buffer[i][j]`; `none` when an index is outside its vector. -/
def RCEngine.cellAt (e : RCEngine) (i j : Int) : Option CellTexture :=
  if 0 ≤ i ∧ 0 ≤ j then (e.buffer[i.toNat]?).bind (fun row => row[j.toNat]?) else none

/-- An update of the cell `buffer[i][j]` in place; `none` when an index is outside its
vector. -/
def RCEngine.modifyCell (e : RCEngine) (i j : Int) (f : CellTexture → CellTexture) :
    Option RCEngine :=
  (e.cellAt i j).map (fun c =>
    { e with buffer := e.buffer.set i.toNat ((e.buffer.getD i.toNat []).set j.toNat (f c)) })

/-- The buffer construction at the end of `createConsole` (the SDL set-up before it is taken
to have succeeded; `tileWidth`, `tileHeight` are the tile sizes read from the loaded tileset).
A negative vector size makes the `std::vector` constructor throw: `none`. -/
def RCEngine.createConsole (rows cols fontWidth fontHeight tileWidth tileHeight : Int) :
    Option RCEngine :=
  if rows < 0 ∨ (0 < rows ∧ cols < 0) then none
  else some
    { cellRows := rows
      cellCols := cols
      cellWidth := fontWidth
      cellHeight := fontHeight
      screenWidth := cols * fontWidth
      screenHeight := rows * fontHeight
      buffer := (loopRange 0 rows).map (fun i => (loopRange 0 cols).map (fun j =>
        (CellTexture.new 16 16 tileWidth tileHeight fontWidth fontHeight).setDestPosition
          (j * fontWidth) (i * fontHeight))) }

/-- The method `RCEngine::draw`. -/
def RCEngine.draw (e : RCEngine) (x y : Int) (ch : Uint8) (foreColor backColor : SDL_Color) :
    Option RCEngine :=
  if 0 ≤ x ∧ x < e.cellCols ∧ 0 ≤ y ∧ y < e.cellRows then
    e.modifyCell y x (fun c => c.paint ch foreColor backColor)
  else some e

/-- The method `RCEngine::getCh`. -/
def RCEngine.getCh (e : RCEngine) (x y : Int) : Option Uint8 :=
  if 0 ≤ x ∧ x < e.cellCols ∧ 0 ≤ y ∧ y < e.cellRows then
    (e.cellAt y x).map CellTexture.getCh
  else some 0

/-- The method `RCEngine::getForeColor`. -/
def RCEngine.getForeColor (e : RCEngine) (x y : Int) : Option SDL_Color :=
  if 0 ≤ x ∧ x < e.cellCols ∧ 0 ≤ y ∧ y < e.cellRows then
    (e.cellAt y x).map CellTexture.getForeColor
  else some ⟨0, 0, 0, 0⟩

/-- The method `RCEngine::getBackColor`. -/
def RCEngine.getBackColor (e : RCEngine) (x y : Int) : Option SDL_Color :=
  if 0 ≤ x ∧ x < e.cellCols ∧ 0 ≤ y ∧ y < e.cellRows then
    (e.cellAt y x).map CellTexture.getBackColor
  else some ⟨0, 0, 0, 0⟩

/-- The double that `blendColor` computes for one colour channel before `round`: `c1`, `a1`
are the channel and alpha of `color1`, `c2`, `a2` those of `color2`. -/
def blendChannel (c1 a1 c2 a2 : Uint8) : ℚ :=
  Double.add (Double.mul (c2.val : ℚ) (Double.div (a2.val : ℚ) 255))
    (Double.mul (Double.mul (c1.val : ℚ) (Double.div (a1.val : ℚ) 255))
      (Double.sub 1 (Double.div (a2.val : ℚ) 255)))

/-- The exact value of the formula that `blendColor` evaluates in doubles: the incoming
channel weighted by its alpha over the existing channel, which is first scaled by the
existing alpha. -/
def overChannel (c1 a1 c2 a2 : Uint8) : ℚ :=
  (c2.val : ℚ) * ((a2.val : ℚ) / 255) +
    ((c1.val : ℚ) * ((a1.val : ℚ) / 255)) * (1 - (a2.val : ℚ) / 255)

/-- The blend rule as the specification words it: `C2.channel * a + C1.channel * (1 - a)` with
`a = C2.alpha / 255`. -/
def specBlendChannel (c1 c2 a2 : Uint8) : ℚ :=
  (c2.val : ℚ) * ((a2.val : ℚ) / 255) + (c1.val : ℚ) * (1 - (a2.val : ℚ) / 255)

/-- Rounding to the nearest integer (halves upward). -/
def roundNearest (x : ℚ) : ℤ := ⌊x + 1 / 2⌋

/-- The method `RCEngine::clear` (the call that clears the SDL renderer is not modelled). -/
def RCEngine.clear (e : RCEngine) : Option RCEngine :=
  (loopRange 0 e.cellRows).foldlM (fun s i =>
    (loopRange 0 e.cellCols).foldlM (fun s j =>
      s.modifyCell i j (fun c =>
        ((c.setCh 32).setForeColor ⟨255, 255, 255, 255⟩).setBackColor ⟨0, 0, 0, 255⟩)) s) e

/-- The method `RCEngine::write`; `content` is the string as its bytes.  The loop runs while
`i < len && x + i < cellCols`, that is for `i` from 0 below `min len (cellCols - x)`; a space
(32) takes the `continue`. -/
def RCEngine.write (e : RCEngine) (x y : Int) (content : List Uint8)
    (foreColor backColor : SDL_Color) : Option RCEngine :=
  if 0 ≤ x ∧ x < e.cellCols ∧ 0 ≤ y ∧ y < e.cellRows then
    (loopRange 0 (min (content.length : Int) (e.cellCols - x))).foldlM (fun s i =>
      if content.getD i.toNat 0 = 32 then some s
      else s.modifyCell y (x + i) (fun c =>
        c.paint (content.getD i.toNat 0) foreColor backColor)) e
  else some e

/-- The value of a sum of two `int`s as a 32-bit two's-complement `int`: the representative of
`z` modulo `2^32` in `-2^31 .. 2^31 - 1`. -/
def wrapInt32 (z : Int) : Int := (z + 2147483648) % 4294967296 - 2147483648

/-- The method `RCEngine::fill`.  The outer loop runs while `i < dest.y + dest.h && i < cellCols`
and the inner one while `j < dest.x + dest.w && j < cellRows`, as the source has them; the
two sums are 32-bit additions, made before any comparison. -/
def RCEngine.fill (e : RCEngine) (dest : SDL_Rect) (ch : Uint8)
    (foreColor backColor : SDL_Color) : Option RCEngine :=
  if 0 ≤ dest.x ∧ dest.x < e.cellCols ∧ 0 ≤ dest.y ∧ dest.y < e.cellRows then
    (loopRange dest.y (min (wrapInt32 (dest.y + dest.h)) e.cellCols)).foldlM (fun s i =>
      (loopRange dest.x (min (wrapInt32 (dest.x + dest.w)) e.cellRows)).foldlM (fun s j =>
        s.modifyCell i j (fun c => c.paint ch foreColor backColor)) s) e
  else some e

/-- The pairs `(i, j)` of the accesses `buffer[i][j]` that the loops of `fill` make, in order
(when the guard of `fill` holds). -/
def RCEngine.fillAccesses (e : RCEngine) (dest : SDL_Rect) : List (Int × Int) :=
  if 0 ≤ dest.x ∧ dest.x < e.cellCols ∧ 0 ≤ dest.y ∧ dest.y < e.cellRows then
    (loopRange dest.y (min (wrapInt32 (dest.y + dest.h)) e.cellCols)).flatMap (fun i =>
      (loopRange dest.x (min (wrapInt32 (dest.x + dest.w)) e.cellRows)).map (fun j => (i, j)))
  else []

/-- The `while (1)` loop of `drawLine`, run for at most `fuel` iterations (`none` when they do
not suffice): draw the current cell, stop at the end cell, else step by the doubled error. -/
def RCEngine.bresenham (ch : Uint8) (foreColor backColor : SDL_Color)
    (x2 y2 dx dy sx sy : Int) : Nat → RCEngine → Int → Int → Int → Option RCEngine
  | 0, _, _, _, _ => none
  | fuel + 1, e, x1, y1, error =>
    (e.draw x1 y1 ch foreColor backColor).bind (fun s =>
      if x1 = x2 ∧ y1 = y2 then some s
      else
        let error2 := 2 * error
        let ex := if error2 ≥ dy then (error + dy, x1 + sx) else (error, x1)
        let ey := if error2 ≤ dx then (ex.1 + dx, y1 + sy) else (ex.1, y1)
        RCEngine.bresenham ch foreColor backColor x2 y2 dx dy sx sy fuel s ex.2 ey.2 ey.1)

/-- The method `RCEngine::drawLine`; `fuel` bounds the iterations of its `while (1)` loop.
In the two straight branches `lo` and `hi` are the endpoints' coordinates after the
`std::swap` that orders them. -/
def RCEngine.drawLine (fuel : Nat) (e : RCEngine) (x1 y1 x2 y2 : Int) (ch : Uint8)
    (foreColor backColor : SDL_Color) : Option RCEngine :=
  if 0 ≤ x1 ∧ x1 < e.cellCols ∧ 0 ≤ y1 ∧ y1 < e.cellRows
      ∧ 0 ≤ x2 ∧ x2 < e.cellCols ∧ 0 ≤ y2 ∧ y2 < e.cellRows then
    let dx := |x2 - x1|
    let dy := -|y2 - y1|
    if dx = 0 then
      let lo := if y1 > y2 then y2 else y1
      let hi := if y1 > y2 then y1 else y2
      (loopRange lo (hi + 1)).foldlM (fun s y => s.draw x1 y ch foreColor backColor) e
    else if dy = 0 then
      let lo := if x1 > x2 then x2 else x1
      let hi := if x1 > x2 then x1 else x2
      (loopRange lo (hi + 1)).foldlM (fun s x => s.draw x y1 ch foreColor backColor) e
    else
      let sx : Int := if x1 < x2 then 1 else -1
      let sy : Int := if y1 < y2 then 1 else -1
      let error := dx + dy
      RCEngine.bresenham ch foreColor backColor x2 y2 dx dy sx sy fuel e x1 y1 error
  else some e

/-- The cells that the `while (1)` loop of `drawLine` passes to `draw`, in order. -/
def bresenhamPlots (x2 y2 dx dy sx sy : Int) : Nat → Int → Int → Int → Option (List (Int × Int))
  | 0, _, _, _ => none
  | fuel + 1, x1, y1, error =>
    if x1 = x2 ∧ y1 = y2 then some [(x1, y1)]
    else
      let error2 := 2 * error
      let ex := if error2 ≥ dy then (error + dy, x1 + sx) else (error, x1)
      let ey := if error2 ≤ dx then (ex.1 + dx, y1 + sy) else (ex.1, y1)
      (bresenhamPlots x2 y2 dx dy sx sy fuel ex.2 ey.2 ey.1).map (fun l => (x1, y1) :: l)

/-- The cells `(x, y)` that `drawLine` passes to `draw`, in order, when both endpoints pass its
range check. -/
def drawLinePlots (fuel : Nat) (x1 y1 x2 y2 : Int) : Option (List (Int × Int)) :=
  let dx := |x2 - x1|
  let dy := -|y2 - y1|
  if dx = 0 then
    let lo := if y1 > y2 then y2 else y1
    let hi := if y1 > y2 then y1 else y2
    some ((loopRange lo (hi + 1)).map (fun y => (x1, y)))
  else if dy = 0 then
    let lo := if x1 > x2 then x2 else x1
    let hi := if x1 > x2 then x1 else x2
    some ((loopRange lo (hi + 1)).map (fun x => (x, y1)))
  else
    let sx : Int := if x1 < x2 then 1 else -1
    let sy : Int := if y1 < y2 then 1 else -1
    bresenhamPlots x2 y2 dx dy sx sy fuel x1 y1 (dx + dy)

/-- The buffer states that `createConsole` followed by any sequence of `clear`, `draw`,
`write`, `fill` and `drawLine` calls can produce. -/
inductive RCEngine.Reachable : RCEngine → Prop
  | create (rows cols fontWidth fontHeight tileWidth tileHeight : Int) (e : RCEngine) :
      RCEngine.createConsole rows cols fontWidth fontHeight tileWidth tileHeight = some e →
      RCEngine.Reachable e
  | clear (e s : RCEngine) : RCEngine.Reachable e → e.clear = some s → RCEngine.Reachable s
  | draw (e s : RCEngine) (x y : Int) (ch : Uint8) (fg bg : SDL_Color) :
      RCEngine.Reachable e → e.draw x y ch fg bg = some s → RCEngine.Reachable s
  | write (e s : RCEngine) (x y : Int) (content : List Uint8) (fg bg : SDL_Color) :
      RCEngine.Reachable e → e.write x y content fg bg = some s → RCEngine.Reachable s
  | fill (e s : RCEngine) (dest : SDL_Rect) (ch : Uint8) (fg bg : SDL_Color) :
      RCEngine.Reachable e → e.fill dest ch fg bg = some s → RCEngine.Reachable s
  | drawLine (fuel : Nat) (e s : RCEngine) (x1 y1 x2 y2 : Int) (ch : Uint8)
      (fg bg : SDL_Color) :
      RCEngine.Reachable e → RCEngine.drawLine fuel e x1 y1 x2 y2 ch fg bg = some s →
      RCEngine.Reachable s

/-- Every cell of the buffer has an opaque foreground and an opaque background colour. -/
def RCEngine.opaque (e : RCEngine) : Prop :=
  ∀ i j c, e.cellAt i j = some c → c.foreColor.a = 255 ∧ c.backColor.a = 255

/-- The cells `(cx, cy)` of the rectangle `dest` that lie in the grid: `x ≤ cx < x + w`,
`y ≤ cy < y + h`, `0 ≤ cx < cellCols`, `0 ≤ cy < cellRows`, row by row. -/
def RCEngine.clippedCells (e : RCEngine) (dest : SDL_Rect) : List (Int × Int) :=
  (loopRange (max dest.y 0) (min (dest.y + dest.h) e.cellRows)).flatMap (fun cy =>
    (loopRange (max dest.x 0) (min (dest.x + dest.w) e.cellCols)).map (fun cx => (cx, cy)))

/-- The effect the specification gives to `fill`: `draw` applied once to every cell of the
rectangle clipped to the grid. -/
def RCEngine.fillSpec (e : RCEngine) (dest : SDL_Rect) (ch : Uint8)
    (foreColor backColor : SDL_Color) : Option RCEngine :=
  (e.clippedCells dest).foldlM (fun s p => s.draw p.1 p.2 ch foreColor backColor) e

/-- The record `RCEngine::KeyState`. -/
structure KeyState where
  pressed : Bool
  released : Bool
  hold : Bool
deriving DecidableEq, Repr

/-- One key of the engine: the entries `keyInput[i]`, `prevKeyInput[i]` and `keyState[i]` of
one index `i`. -/
structure KeyChannel where
  keyInput : Bool
  prevKeyInput : Bool
  keyState : KeyState
deriving DecidableEq, Repr

/-- The state the constructor `RCEngine()` gives every key: all `false`. -/
def KeyChannel.init : KeyChannel :=
  { keyInput := false, prevKeyInput := false, keyState := ⟨false, false, false⟩ }

/-- The body of the key loop of `gameLoop` for one index `i`. -/
def KeyChannel.update (c : KeyChannel) : KeyChannel :=
  let st : KeyState := { c.keyState with pressed := false, released := false }
  let st : KeyState :=
    if c.keyInput ≠ c.prevKeyInput then
      if c.keyInput then { st with pressed := !st.hold, hold := true }
      else { st with released := true, hold := false }
    else st
  { c with keyState := st, prevKeyInput := c.keyInput }

/-- One cycle of `gameLoop` seen from one key: the event poll leaves the raw sample `down` in
`keyInput[i]` (`SDL_KEYDOWN` stores `true`, `SDL_KEYUP` stores `false`), then the key loop
runs. -/
def KeyChannel.cycle (c : KeyChannel) (down : Bool) : KeyChannel :=
  KeyChannel.update { c with keyInput := down }

/-- The `keyState[i]` that the user's `update` hook sees in each cycle, for the raw samples
of the successive cycles. -/
def KeyChannel.run (c : KeyChannel) : List Bool → List KeyState
  | [] => []
  | down :: rest => (c.cycle down).keyState :: KeyChannel.run (c.cycle down) rest

/-- The raw sample of the cycle before cycle `k` (up before the first cycle). -/
def prevSample (samples : List Bool) (k : Nat) : Bool :=
  if k = 0 then false else samples.getD (k - 1) false

/-- The program points of `gameLoop` between which the hooks are called: the test of the
outer `while (loop)`, the test of the inner `while (loop)`, the call `destroy()` after the
inner loop, and the return of `gameLoop`. -/
inductive DriverPc where
  | outerTest
  | innerTest
  | destroyCall
  | returned
deriving DecidableEq, Repr

/-- What the environment answers in one step of the frame driver: whether the event poll of
the frame delivers `SDL_QUIT`, what `update` returns, what `destroy` returns.  A step reads
only the answers of the calls it makes. -/
structure HookResults where
  quit : Bool
  update : Bool
  destroy : Bool
deriving DecidableEq, Repr

/-- The control state of `gameLoop`: the program point, the member `loop`, the number of calls
of `update` and of `destroy` made so far, and whether the SDL resources were released. -/
structure FrameDriver where
  pc : DriverPc
  loop : Bool
  updateCalls : Nat
  destroyCalls : Nat
  released : Bool
deriving DecidableEq, Repr

/-- The entry of `gameLoop` from `init`: `loop = true`, then `if (!start()) loop = false`. -/
def FrameDriver.enter (start : Bool) : FrameDriver :=
  { pc := DriverPc.outerTest, loop := if !start then false else true,
    updateCalls := 0, destroyCalls := 0, released := false }

/-- One step of `gameLoop`.  At a loop test the flag `loop` decides where control goes; a
passed inner test runs one frame (a quit event stores `loop = false`, `update` is called and
its `false` stores `loop = false`); at the call of `destroy`, `true` releases the resources and
`false` stores `loop = true`; both continue at the outer test. -/
def FrameDriver.step (s : FrameDriver) (h : HookResults) : FrameDriver :=
  match s.pc with
  | DriverPc.outerTest =>
    if s.loop then { s with pc := DriverPc.innerTest } else { s with pc := DriverPc.returned }
  | DriverPc.innerTest =>
    if s.loop then
      let loop1 := if h.quit then false else s.loop
      let loop2 := if !h.update then false else loop1
      { s with loop := loop2, updateCalls := s.updateCalls + 1 }
    else { s with pc := DriverPc.destroyCall }
  | DriverPc.destroyCall =>
    if h.destroy then
      { s with pc := DriverPc.outerTest, destroyCalls := s.destroyCalls + 1, released := true }
    else
      { s with pc := DriverPc.outerTest, destroyCalls := s.destroyCalls + 1, loop := true }
  | DriverPc.returned => s

/-- The steps of `gameLoop` for a sequence of answers. -/
def FrameDriver.run (s : FrameDriver) (hs : List HookResults) : FrameDriver :=
  hs.foldl FrameDriver.step s

/-- The body of the pointer-button loop of `gameLoop` for one index `i`, on the entries
`cursorInput[i]`, `prevCursorInput[i]` and `cursorState[i]`, which have the types of the key
entries: it differs from the key loop in `pressed = true`. -/
def KeyChannel.cursorUpdate (c : KeyChannel) : KeyChannel :=
  let st : KeyState := { c.keyState with pressed := false, released := false }
  let st : KeyState :=
    if c.keyInput ≠ c.prevKeyInput then
      if c.keyInput then { st with pressed := true, hold := true }
      else { st with released := true, hold := false }
    else st
  { c with keyState := st, prevKeyInput := c.keyInput }

/-- One cycle of `gameLoop` seen from one pointer button: the event poll leaves the raw sample
in `cursorInput[i]`, then the pointer-button loop runs. -/
def KeyChannel.cursorCycle (c : KeyChannel) (down : Bool) : KeyChannel :=
  KeyChannel.cursorUpdate { c with keyInput := down }

/-- The `cursorState[i]` of each cycle, for the raw samples of the successive cycles. -/
def KeyChannel.cursorRun (c : KeyChannel) : List Bool → List KeyState
  | [] => []
  | down :: rest =>
    (c.cursorCycle down).keyState :: KeyChannel.cursorRun (c.cursorCycle down) rest

/-- The state of a key after the cycles of the given raw samples. -/
def KeyChannel.after (c : KeyChannel) (samples : List Bool) : KeyChannel :=
  samples.foldl KeyChannel.cycle c

/-- A console of 2 rows and 3 columns, as `createConsole` builds it, for concrete checks. -/
def console23 : RCEngine :=
  (RCEngine.createConsole 2 3 20 20 8 8).getD ⟨0, 0, 0, 0, 0, 0, []⟩

/-- A console of 3 rows and 2 columns, as `createConsole` builds it. -/
def console32 : RCEngine :=
  (RCEngine.createConsole 3 2 20 20 8 8).getD ⟨0, 0, 0, 0, 0, 0, []⟩

/-- The default console of `createConsole`: 30 rows, 40 columns, cells of 20 x 20. -/
def console3040 : RCEngine :=
  (RCEngine.createConsole 30 40 20 20 8 8).getD ⟨0, 0, 0, 0, 0, 0, []⟩

/-- A console of 3 rows and 3 columns, as `createConsole` builds it. -/
def console33 : RCEngine :=
  (RCEngine.createConsole 3 3 20 20 8 8).getD ⟨0, 0, 0, 0, 0, 0, []⟩

/-- A console of 3 rows and 3 columns on which glyph 88 was drawn at cell `(1,1)` in opaque
red on opaque blue. -/
def console33drawn : RCEngine :=
  ((RCEngine.createConsole 3 3 20 20 8 8).bind
    (fun e => e.draw 1 1 88 ⟨255, 0, 0, 255⟩ ⟨0, 0, 255, 255⟩)).getD ⟨0, 0, 0, 0, 0, 0, []⟩

/-! ## Lemmas and theorems -/

/-! ### Exact cases of the double arithmetic -/

theorem roundHalfEven_intCast (z : ℤ) : roundHalfEven (z : ℚ) = z := by
  simp [roundHalfEven]

theorem fl_zero : fl 0 = 0 := by
  simp [fl]

/-- A natural number below `2^53` is a binary64 value. -/
theorem fl_natCast (n : ℕ) (hn : n < 2 ^ 53) : fl (n : ℚ) = n := by
  unfold fl
  split_ifs with h0
  · exact h0.symm
  · have hlog : Int.log 2 |(n : ℚ)| = (Nat.log 2 n : ℤ) := by
      rw [abs_of_nonneg (Nat.cast_nonneg n)]
      exact Int.log_natCast 2 n
    have hle : Nat.log 2 n ≤ 52 := by
      have := Nat.log_lt_of_lt_pow (b := 2) (by simpa using h0) hn
      omega
    rw [hlog]
    obtain ⟨k, hk⟩ : ∃ k : ℕ, (52 : ℤ) - (Nat.log 2 n : ℤ) = k := ⟨52 - Nat.log 2 n, by omega⟩
    have hk2 : ((Nat.log 2 n : ℤ) - 52) = -(k : ℤ) := by omega
    rw [hk, hk2, zpow_natCast, zpow_neg, zpow_natCast]
    have : ((n : ℚ) * 2 ^ k) = (((n * 2 ^ k : ℕ) : ℤ) : ℚ) := by push_cast; ring
    rw [this, roundHalfEven_intCast]
    push_cast
    field_simp

theorem fl_one : fl 1 = 1 := by
  have := fl_natCast 1 (by norm_num)
  simpa using this

theorem fl_uint8 (c : Uint8) : fl (c.val : ℚ) = c.val :=
  fl_natCast c.val (lt_of_lt_of_le c.isLt (by norm_num))

theorem Double.round_natCast (n : ℕ) : Double.round (n : ℚ) = n := by
  unfold Double.round
  rw [if_pos (Nat.cast_nonneg n)]
  have h : ⌊(n : ℚ) + 1 / 2⌋ = (n : ℤ) := by
    rw [Int.floor_eq_iff]
    constructor <;> push_cast <;> linarith
  rw [h]
  simp

theorem Double.toUint8_natCast (c : Uint8) : Double.toUint8 (c.val : ℚ) = c := by
  unfold Double.toUint8
  rw [if_pos (Nat.cast_nonneg _)]
  have h : ⌊((c.val : ℕ) : ℚ)⌋ = (c.val : ℤ) := by
    rw [Int.floor_eq_iff]
    constructor <;> push_cast <;> linarith
  rw [h]
  have hlt : c.val < 256 := c.isLt
  have h2 : ((c.val : ℤ) % 256).toNat = c.val := by omega
  rw [h2]
  apply Fin.ext
  simp [Fin.ofNat, Nat.mod_eq_of_lt hlt]

theorem Double.toUint8_round_uint8 (c : Uint8) :
    Double.toUint8 (Double.round (c.val : ℚ)) = c := by
  rw [Double.round_natCast, Double.toUint8_natCast]

theorem Double.toUint8_round_255 : Double.toUint8 (Double.round 255) = 255 := by
  have := Double.toUint8_round_uint8 255
  simpa using this

/-- The blended colour is always fully opaque. -/
theorem blendColor_a (c1 c2 : SDL_Color) : (blendColor c1 c2).a = 255 := by
  simp only [blendColor]
  exact Double.toUint8_round_255

/-- An incoming colour of alpha 255 replaces the existing colour, whatever it was. -/
theorem blendColor_opaque (c1 c2 : SDL_Color) (h : c2.a = 255) : blendColor c1 c2 = c2 := by
  obtain ⟨r2, g2, b2, a2⟩ := c2
  simp only at h
  subst h
  have hd : Double.div (((255 : Uint8).val : ℕ) : ℚ) 255 = 1 := by
    have h255 : (((255 : Uint8).val : ℕ) : ℚ) = 255 := by rfl
    rw [h255]
    simp [Double.div, fl_one]
  have hs : Double.sub 1 1 = 0 := by simp [Double.sub, fl_zero]
  have hm0 : ∀ q : ℚ, Double.mul q 0 = 0 := by intro q; simp [Double.mul, fl_zero]
  have hm1 : ∀ c : Uint8, Double.mul (c.val : ℚ) 1 = c.val := by
    intro c; simp [Double.mul, fl_uint8]
  have ha0 : ∀ c : Uint8, Double.add (c.val : ℚ) 0 = c.val := by
    intro c; simp [Double.add, fl_uint8]
  simp only [blendColor, hd, hs, hm0, hm1, ha0, Double.toUint8_round_uint8,
    Double.toUint8_round_255]

/-- An incoming colour of alpha 0 leaves an existing opaque colour as it is. -/
theorem blendColor_transparent (c1 c2 : SDL_Color) (h1 : c1.a = 255) (h2 : c2.a = 0) :
    blendColor c1 c2 = c1 := by
  obtain ⟨r1, g1, b1, a1⟩ := c1
  obtain ⟨r2, g2, b2, a2⟩ := c2
  simp only at h1 h2
  subst h1 h2
  have hd : Double.div (((255 : Uint8).val : ℕ) : ℚ) 255 = 1 := by
    have h255 : (((255 : Uint8).val : ℕ) : ℚ) = 255 := by rfl
    rw [h255]
    simp [Double.div, fl_one]
  have hd0 : Double.div (((0 : Uint8).val : ℕ) : ℚ) 255 = 0 := by
    simp [Double.div, fl_zero]
  have hs : Double.sub 1 0 = 1 := by simp [Double.sub, fl_one]
  have hm0 : ∀ q : ℚ, Double.mul q 0 = 0 := by intro q; simp [Double.mul, fl_zero]
  have hm1 : ∀ c : Uint8, Double.mul (c.val : ℚ) 1 = c.val := by
    intro c; simp [Double.mul, fl_uint8]
  have ha0 : ∀ c : Uint8, Double.add 0 (c.val : ℚ) = c.val := by
    intro c; simp [Double.add, fl_uint8]
  simp only [blendColor, hd, hd0, hs, hm0, hm1, ha0, Double.toUint8_round_uint8,
    Double.toUint8_round_255]

/-! ### The buffer -/

theorem RCEngine.cellAt_eq_some_iff (e : RCEngine) (i j : Int) (c : CellTexture) :
    e.cellAt i j = some c ↔
      0 ≤ i ∧ 0 ≤ j ∧ ∃ row, e.buffer[i.toNat]? = some row ∧ row[j.toNat]? = some c := by
  unfold RCEngine.cellAt
  by_cases h : 0 ≤ i ∧ 0 ≤ j
  · rw [if_pos h]
    cases hrow : e.buffer[i.toNat]? with
    | none => simp
    | some row => simp [h.1, h.2]
  · rw [if_neg h]
    constructor
    · intro h'
      cases h'
    · rintro ⟨h1, h2, -⟩
      exact absurd ⟨h1, h2⟩ h

/-- In a well-formed engine every in-range coordinate addresses a cell. -/
theorem RCEngine.cellAt_of_wf (e : RCEngine) (hwf : e.wf) (x y : Int)
    (hx : 0 ≤ x ∧ x < e.cellCols) (hy : 0 ≤ y ∧ y < e.cellRows) :
    ∃ c, e.cellAt y x = some c := by
  obtain ⟨hlen, hrows⟩ := hwf
  have hi : y.toNat < e.buffer.length := by omega
  have hrow : (e.buffer[y.toNat]) ∈ e.buffer := List.getElem_mem hi
  have hj : x.toNat < (e.buffer[y.toNat]).length := by
    rw [hrows _ hrow]
    omega
  refine ⟨(e.buffer[y.toNat])[x.toNat], ?_⟩
  rw [RCEngine.cellAt_eq_some_iff]
  exact ⟨hy.1, hx.1, _, List.getElem?_eq_getElem hi, List.getElem?_eq_getElem hj⟩

theorem RCEngine.modifyCell_eq_some_iff (e e' : RCEngine) (i j : Int)
    (f : CellTexture → CellTexture) :
    e.modifyCell i j f = some e' ↔
      ∃ c, e.cellAt i j = some c ∧
        e' = { e with buffer :=
          e.buffer.set i.toNat ((e.buffer.getD i.toNat []).set j.toNat (f c)) } := by
  unfold RCEngine.modifyCell
  cases h : e.cellAt i j with
  | none => simp
  | some c =>
    simp only [Option.map_some', Option.some.injEq, exists_eq_left']
    exact eq_comm

theorem RCEngine.modifyCell_fields (e e' : RCEngine) (i j : Int)
    (f : CellTexture → CellTexture) (h : e.modifyCell i j f = some e') :
    e'.cellRows = e.cellRows ∧ e'.cellCols = e.cellCols ∧ e'.cellWidth = e.cellWidth ∧
      e'.cellHeight = e.cellHeight ∧ e'.screenWidth = e.screenWidth ∧
      e'.screenHeight = e.screenHeight := by
  rw [RCEngine.modifyCell_eq_some_iff] at h
  obtain ⟨c, -, rfl⟩ := h
  exact ⟨rfl, rfl, rfl, rfl, rfl, rfl⟩

/-- After an update of `buffer[i][j]` by `f`, that cell holds `f` of its old value and every
other read gives what it gave before. -/
theorem RCEngine.cellAt_modifyCell (e e' : RCEngine) (i j : Int)
    (f : CellTexture → CellTexture) (h : e.modifyCell i j f = some e') (i' j' : Int) :
    e'.cellAt i' j' = if i' = i ∧ j' = j then (e.cellAt i j).map f else e.cellAt i' j' := by
  rw [RCEngine.modifyCell_eq_some_iff] at h
  obtain ⟨c, hc, rfl⟩ := h
  rw [RCEngine.cellAt_eq_some_iff] at hc
  obtain ⟨hi, hj, row, hrow, hcell⟩ := hc
  have hgetD : e.buffer.getD i.toNat [] = row := by
    simp [List.getD, hrow]
  have hilt : i.toNat < e.buffer.length := by
    rcases List.getElem?_eq_some_iff.mp hrow with ⟨h, -⟩
    exact h
  have hjlt : j.toNat < row.length := by
    rcases List.getElem?_eq_some_iff.mp hcell with ⟨h, -⟩
    exact h
  have hcell0 : e.cellAt i j = some c := by
    rw [RCEngine.cellAt_eq_some_iff]
    exact ⟨hi, hj, row, hrow, hcell⟩
  rw [hgetD]
  by_cases hpos : 0 ≤ i' ∧ 0 ≤ j'
  · by_cases hii : i' = i
    · subst hii
      by_cases hjj : j' = j
      · subst hjj
        rw [if_pos ⟨rfl, rfl⟩, hcell0]
        simp [RCEngine.cellAt, hpos, List.getElem?_set, hilt, hjlt]
      · have hne : j.toNat ≠ j'.toNat := by omega
        rw [if_neg (fun hh => hjj hh.2)]
        simp [RCEngine.cellAt, hpos, List.getElem?_set, hilt, hne, hrow]
    · have hne : i.toNat ≠ i'.toNat := by omega
      rw [if_neg (fun hh => hii hh.1)]
      simp [RCEngine.cellAt, hpos, List.getElem?_set, hne]
  · have hne : ¬ (i' = i ∧ j' = j) := by
      rintro ⟨rfl, rfl⟩
      exact hpos ⟨hi, hj⟩
    rw [if_neg hne]
    simp [RCEngine.cellAt, hpos]

theorem RCEngine.modifyCell_wf (e e' : RCEngine) (i j : Int)
    (f : CellTexture → CellTexture) (h : e.modifyCell i j f = some e') (hwf : e.wf) : e'.wf := by
  rw [RCEngine.modifyCell_eq_some_iff] at h
  obtain ⟨c, hc, rfl⟩ := h
  rw [RCEngine.cellAt_eq_some_iff] at hc
  obtain ⟨-, -, row0, hrow0, -⟩ := hc
  obtain ⟨hlen, hrows⟩ := hwf
  have hi : i.toNat < e.buffer.length := by
    rcases List.getElem?_eq_some_iff.mp hrow0 with ⟨h, -⟩
    exact h
  refine ⟨by simpa using hlen, ?_⟩
  intro row hrow
  simp only at hrow
  rcases List.mem_or_eq_of_mem_set hrow with hmem | heq
  · exact hrows row hmem
  · subst heq
    rw [List.length_set]
    have : e.buffer.getD i.toNat [] = e.buffer[i.toNat] := by
      simp [List.getD, List.getElem?_eq_getElem hi]
    rw [this]
    exact hrows _ (List.getElem_mem hi)

/-! ### draw and the read accessors -/

/-- What `draw` does at an in-range coordinate of a well-formed engine: the addressed cell is
painted, every other cell and the grid dimensions stay. -/
theorem RCEngine.draw_inRange (e : RCEngine) (hwf : e.wf) (x y : Int)
    (hx : 0 ≤ x ∧ x < e.cellCols) (hy : 0 ≤ y ∧ y < e.cellRows)
    (ch : Uint8) (fg bg : SDL_Color) :
    ∃ c e', e.cellAt y x = some c ∧ e.draw x y ch fg bg = some e' ∧ e'.wf ∧
      e'.cellRows = e.cellRows ∧ e'.cellCols = e.cellCols ∧
      ∀ i j, e'.cellAt i j = if i = y ∧ j = x then some (c.paint ch fg bg) else e.cellAt i j := by
  obtain ⟨c, hc⟩ := e.cellAt_of_wf hwf x y hx hy
  have hd : e.draw x y ch fg bg = e.modifyCell y x (fun c => c.paint ch fg bg) := by
    unfold RCEngine.draw
    rw [if_pos ⟨hx.1, hx.2, hy.1, hy.2⟩]
  have hm : e.modifyCell y x (fun c => c.paint ch fg bg) =
      some { e with buffer :=
        e.buffer.set y.toNat ((e.buffer.getD y.toNat []).set x.toNat (c.paint ch fg bg)) } := by
    rw [RCEngine.modifyCell_eq_some_iff]
    exact ⟨c, hc, rfl⟩
  refine ⟨c, _, hc, hd.trans hm, e.modifyCell_wf _ y x _ hm hwf, rfl, rfl, ?_⟩
  intro i j
  rw [e.cellAt_modifyCell _ y x _ hm i j, hc]
  rfl

theorem RCEngine.getCh_inRange (e : RCEngine) (x y : Int)
    (hx : 0 ≤ x ∧ x < e.cellCols) (hy : 0 ≤ y ∧ y < e.cellRows) :
    e.getCh x y = (e.cellAt y x).map CellTexture.getCh := by
  unfold RCEngine.getCh
  rw [if_pos ⟨hx.1, hx.2, hy.1, hy.2⟩]

theorem RCEngine.getForeColor_inRange (e : RCEngine) (x y : Int)
    (hx : 0 ≤ x ∧ x < e.cellCols) (hy : 0 ≤ y ∧ y < e.cellRows) :
    e.getForeColor x y = (e.cellAt y x).map CellTexture.getForeColor := by
  unfold RCEngine.getForeColor
  rw [if_pos ⟨hx.1, hx.2, hy.1, hy.2⟩]

theorem RCEngine.getBackColor_inRange (e : RCEngine) (x y : Int)
    (hx : 0 ≤ x ∧ x < e.cellCols) (hy : 0 ≤ y ∧ y < e.cellRows) :
    e.getBackColor x y = (e.cellAt y x).map CellTexture.getBackColor := by
  unfold RCEngine.getBackColor
  rw [if_pos ⟨hx.1, hx.2, hy.1, hy.2⟩]

theorem CellTexture.paint_ch (c : CellTexture) (ch : Uint8) (fg bg : SDL_Color) :
    (c.paint ch fg bg).getCh = ch := rfl

theorem CellTexture.paint_foreColor (c : CellTexture) (ch : Uint8) (fg bg : SDL_Color) :
    (c.paint ch fg bg).getForeColor = blendColor c.foreColor fg := rfl

theorem CellTexture.paint_backColor (c : CellTexture) (ch : Uint8) (fg bg : SDL_Color) :
    (c.paint ch fg bg).getBackColor = blendColor c.backColor bg := rfl

/-- One call of `draw` with two opaque colours, read back through the accessors. -/
theorem RCEngine.draw_opaque_read (e : RCEngine) (hwf : e.wf) (x y : Int)
    (hx : 0 ≤ x ∧ x < e.cellCols) (hy : 0 ≤ y ∧ y < e.cellRows)
    (ch : Uint8) (fg bg : SDL_Color) (hfg : fg.a = 255) (hbg : bg.a = 255) :
    ∃ e', e.draw x y ch fg bg = some e' ∧ e'.wf ∧ e'.cellRows = e.cellRows ∧
      e'.cellCols = e.cellCols ∧ e'.getCh x y = some ch ∧
      e'.getForeColor x y = some fg ∧ e'.getBackColor x y = some bg := by
  obtain ⟨c, e', -, hd, hwf', hr, hc, hcell⟩ := e.draw_inRange hwf x y hx hy ch fg bg
  have hx' : 0 ≤ x ∧ x < e'.cellCols := by rw [hc]; exact hx
  have hy' : 0 ≤ y ∧ y < e'.cellRows := by rw [hr]; exact hy
  have hat : e'.cellAt y x = some (c.paint ch fg bg) := by
    rw [hcell y x, if_pos ⟨rfl, rfl⟩]
  refine ⟨e', hd, hwf', hr, hc, ?_, ?_, ?_⟩
  · rw [e'.getCh_inRange x y hx' hy', hat]
    rfl
  · rw [e'.getForeColor_inRange x y hx' hy', hat, Option.map_some',
      CellTexture.paint_foreColor, blendColor_opaque _ _ hfg]
  · rw [e'.getBackColor_inRange x y hx' hy', hat, Option.map_some',
      CellTexture.paint_backColor, blendColor_opaque _ _ hbg]

/-! ### Drawing opaque colours -/

/-- C1. In a well-formed grid, whatever the buffer holds, `draw(x,y,ch,fg,bg)` at an in-range
`(x,y)` with `fg.a = bg.a = 255` succeeds and afterwards `getCh(x,y) = ch`,
`getForeColor(x,y) = fg`, `getBackColor(x,y) = bg`; a second such `draw` at the same cell
leaves exactly the second glyph and colours. -/
theorem draw_opaque_overwrites (e : RCEngine) (hwf : e.wf) (x y : Int)
    (hx : 0 ≤ x ∧ x < e.cellCols) (hy : 0 ≤ y ∧ y < e.cellRows)
    (ch : Uint8) (fg bg : SDL_Color) (hfg : fg.a = 255) (hbg : bg.a = 255) :
    ∃ e', e.draw x y ch fg bg = some e' ∧ e'.getCh x y = some ch ∧
      e'.getForeColor x y = some fg ∧ e'.getBackColor x y = some bg ∧
      ∀ (ch2 : Uint8) (fg2 bg2 : SDL_Color), fg2.a = 255 → bg2.a = 255 →
        ∃ e'', e'.draw x y ch2 fg2 bg2 = some e'' ∧ e''.getCh x y = some ch2 ∧
          e''.getForeColor x y = some fg2 ∧ e''.getBackColor x y = some bg2 := by
  obtain ⟨e', hd, hwf', hr, hc, h1, h2, h3⟩ :=
    e.draw_opaque_read hwf x y hx hy ch fg bg hfg hbg
  refine ⟨e', hd, h1, h2, h3, ?_⟩
  intro ch2 fg2 bg2 hfg2 hbg2
  obtain ⟨e'', hd', -, -, -, h1', h2', h3'⟩ :=
    e'.draw_opaque_read hwf' x y (by rw [hc]; exact hx) (by rw [hr]; exact hy)
      ch2 fg2 bg2 hfg2 hbg2
  exact ⟨e'', hd', h1', h2', h3'⟩

/-- C1 at the cell `(2,1)` of the 2 x 3 console, drawing glyph 65 in opaque colours. -/
theorem draw_opaque_overwrites_witness :
    ∃ e', console23.draw 2 1 65 ⟨10, 20, 30, 255⟩ ⟨40, 50, 60, 255⟩ = some e' ∧
      e'.getCh 2 1 = some 65 ∧
      e'.getForeColor 2 1 = some ⟨10, 20, 30, 255⟩ ∧
      e'.getBackColor 2 1 = some ⟨40, 50, 60, 255⟩ ∧
      ∀ (ch2 : Uint8) (fg2 bg2 : SDL_Color), fg2.a = 255 → bg2.a = 255 →
        ∃ e'', e'.draw 2 1 ch2 fg2 bg2 = some e'' ∧ e''.getCh 2 1 = some ch2 ∧
          e''.getForeColor 2 1 = some fg2 ∧ e''.getBackColor 2 1 = some bg2 :=
  draw_opaque_overwrites console23 (by decide) 2 1 (by decide) (by decide) 65
    ⟨10, 20, 30, 255⟩ ⟨40, 50, 60, 255⟩ rfl rfl

/-! ### The rounding error of blendColor -/

theorem roundHalfEven_err (m : ℚ) : |(roundHalfEven m : ℚ) - m| ≤ 1 / 2 := by
  have h1 := Int.floor_le m
  have h2 := Int.lt_floor_add_one m
  unfold roundHalfEven
  rw [abs_le]
  split_ifs <;> constructor <;> push_cast <;> linarith

/-- The relative error of one binary64 rounding is at most `2^(-53)`. -/
theorem fl_err (q : ℚ) : |fl q - q| ≤ |q| / 2 ^ 53 := by
  unfold fl
  split_ifs with h0
  · simp [h0]
  · have hpos : 0 < |q| := abs_pos.mpr h0
    have hle : ((2 : ℕ) : ℚ) ^ Int.log 2 |q| ≤ |q| :=
      Int.zpow_log_le_self (by norm_num) hpos
    rw [Nat.cast_ofNat] at hle
    generalize Int.log 2 |q| = e at hle
    have h2 : (2 : ℚ) ≠ 0 := two_ne_zero
    have hq : q = (q * 2 ^ (52 - e)) * 2 ^ (e - 52) := by
      rw [mul_assoc, ← zpow_add₀ h2]
      simp
    have hsplit : (2 : ℚ) ^ (e - 52) = 2 ^ e / 2 ^ 52 := by
      rw [zpow_sub₀ h2]
      norm_cast
    have hpe : (0 : ℚ) < 2 ^ (e - 52) := zpow_pos (by norm_num) _
    have key : (roundHalfEven (q * 2 ^ (52 - e)) : ℚ) * 2 ^ (e - 52) - q =
        ((roundHalfEven (q * 2 ^ (52 - e)) : ℚ) - q * 2 ^ (52 - e)) * 2 ^ (e - 52) := by
      rw [sub_mul, ← hq]
    rw [key, abs_mul, abs_of_pos hpe]
    calc |(roundHalfEven (q * 2 ^ (52 - e)) : ℚ) - q * 2 ^ (52 - e)| * 2 ^ (e - 52)
        ≤ 1 / 2 * 2 ^ (e - 52) :=
          mul_le_mul_of_nonneg_right (roundHalfEven_err _) hpe.le
      _ = 2 ^ e / 2 ^ 53 := by rw [hsplit]; ring
      _ ≤ |q| / 2 ^ 53 := by
          apply div_le_div_of_nonneg_right hle
          positivity

/-- Rounding a value that is within `δ` of `x`, where `|x| ≤ B`. -/
theorem fl_close (q x B δ : ℚ) (hq : |q - x| ≤ δ) (hB : |x| ≤ B) :
    |fl q - x| ≤ δ + (B + δ) / 2 ^ 53 := by
  have h1 := fl_err q
  have h2 : |q| ≤ B + δ := by
    calc |q| = |x + (q - x)| := by ring_nf
      _ ≤ |x| + |q - x| := abs_add _ _
      _ ≤ B + δ := add_le_add hB hq
  have h3 : |q| / 2 ^ 53 ≤ (B + δ) / 2 ^ 53 := by
    apply div_le_div_of_nonneg_right h2
    positivity
  calc |fl q - x| = |(fl q - q) + (q - x)| := by ring_nf
    _ ≤ |fl q - q| + |q - x| := abs_add _ _
    _ ≤ δ + (B + δ) / 2 ^ 53 := by linarith

/-- The C `round` of a value closer than one half to a non-negative integer is that integer. -/
theorem Double.round_close (s : ℚ) (n : ℤ) (hn : 0 ≤ n) (h : |s - n| < 1 / 2) :
    Double.round s = n := by
  rw [abs_lt] at h
  unfold Double.round
  split_ifs with hs
  · have : ⌊s + 1 / 2⌋ = n := by
      rw [Int.floor_eq_iff]
      constructor <;> linarith
    rw [this]
  · have hn0 : n = 0 := by
      have : (n : ℚ) < 1 := by linarith
      have : n < 1 := by exact_mod_cast this
      omega
    subst hn0
    have : ⌊-s + 1 / 2⌋ = 0 := by
      rw [Int.floor_eq_iff]
      push_cast at h ⊢
      constructor <;> linarith
    rw [this]
    simp

theorem mul_close (x' x y' y δx δy Bx By : ℚ) (hx : |x' - x| ≤ δx) (hy : |y' - y| ≤ δy)
    (hBx : |x| ≤ Bx) (hBy : |y| ≤ By) :
    |x' * y' - x * y| ≤ δx * (By + δy) + Bx * δy := by
  have hy' : |y'| ≤ By + δy := by
    calc |y'| = |y + (y' - y)| := by ring_nf
      _ ≤ |y| + |y' - y| := abs_add _ _
      _ ≤ By + δy := add_le_add hBy hy
  have hδx : 0 ≤ δx := (abs_nonneg _).trans hx
  have hBx0 : 0 ≤ Bx := (abs_nonneg _).trans hBx
  calc |x' * y' - x * y| = |(x' - x) * y' + x * (y' - y)| := by ring_nf
    _ ≤ |(x' - x) * y'| + |x * (y' - y)| := abs_add _ _
    _ = |x' - x| * |y'| + |x| * |y' - y| := by rw [abs_mul, abs_mul]
    _ ≤ δx * (By + δy) + Bx * δy := by
        apply add_le_add
        · exact mul_le_mul hx hy' (abs_nonneg _) hδx
        · exact mul_le_mul hBx hy (abs_nonneg _) hBx0

theorem uint8_cast_bounds (c : Uint8) : (0 : ℚ) ≤ (c.val : ℚ) ∧ (c.val : ℚ) ≤ 255 := by
  have h : c.val ≤ 255 := by have := c.isLt; omega
  exact ⟨Nat.cast_nonneg _, by exact_mod_cast h⟩

/-- The double that `blendColor` computes for a channel is within `10^(-11)` of the exact
value of the blend formula. -/
theorem blendChannel_close (c1 a1 c2 a2 : Uint8) :
    |blendChannel c1 a1 c2 a2 - overChannel c1 a1 c2 a2| ≤ 1 / 10 ^ 11 := by
  obtain ⟨hc1, hc1'⟩ := uint8_cast_bounds c1
  obtain ⟨ha1, ha1'⟩ := uint8_cast_bounds a1
  obtain ⟨hc2, hc2'⟩ := uint8_cast_bounds c2
  obtain ⟨ha2, ha2'⟩ := uint8_cast_bounds a2
  unfold blendChannel overChannel Double.add Double.mul Double.sub Double.div
  generalize (c1.val : ℚ) = C1 at *
  generalize (a1.val : ℚ) = A1 at *
  generalize (c2.val : ℚ) = C2 at *
  generalize (a2.val : ℚ) = A2 at *
  have hP : |A1 / 255| ≤ 1 := by
    rw [abs_le]; constructor <;> [linarith [div_nonneg ha1 (by norm_num : (0:ℚ) ≤ 255)]; (rw [div_le_one (by norm_num)]; exact ha1')]
  have hA : |A2 / 255| ≤ 1 := by
    rw [abs_le]; constructor <;> [linarith [div_nonneg ha2 (by norm_num : (0:ℚ) ≤ 255)]; (rw [div_le_one (by norm_num)]; exact ha2')]
  have hA0 : 0 ≤ A2 / 255 := div_nonneg ha2 (by norm_num)
  have hP0 : 0 ≤ A1 / 255 := div_nonneg ha1 (by norm_num)
  have hA1 : A2 / 255 ≤ 1 := (abs_le.mp hA).2
  have hP1 : A1 / 255 ≤ 1 := (abs_le.mp hP).2
  have hC1 : |C1| ≤ 255 := by rw [abs_le]; constructor <;> linarith
  have hC2 : |C2| ≤ 255 := by rw [abs_le]; constructor <;> linarith
  -- the two quotients
  have e1 : |fl (A1 / 255) - A1 / 255| ≤ 1 / 10 ^ 15 :=
    (fl_close _ _ 1 0 (by simp) hP).trans (by norm_num)
  have e2 : |fl (A2 / 255) - A2 / 255| ≤ 1 / 10 ^ 15 :=
    (fl_close _ _ 1 0 (by simp) hA).trans (by norm_num)
  -- the premultiplied existing channel
  have hR : |C1 * (A1 / 255)| ≤ 255 := by
    rw [abs_le]; constructor <;> nlinarith
  have e3 : |fl (C1 * fl (A1 / 255)) - C1 * (A1 / 255)| ≤ 1 / 10 ^ 12 :=
    (fl_close _ _ 255 _ (mul_close C1 C1 _ _ 0 _ 255 1 (by simp) e1 hC1 hP) hR).trans
      (by norm_num)
  -- the incoming term
  have hT : |C2 * (A2 / 255)| ≤ 255 := by
    rw [abs_le]; constructor <;> nlinarith
  have e4 : |fl (C2 * fl (A2 / 255)) - C2 * (A2 / 255)| ≤ 1 / 10 ^ 12 :=
    (fl_close _ _ 255 _ (mul_close C2 C2 _ _ 0 _ 255 1 (by simp) e2 hC2 hA) hT).trans
      (by norm_num)
  -- the complement of the incoming alpha
  have hB : |1 - A2 / 255| ≤ 1 := by
    rw [abs_le]; constructor <;> linarith
  have e5' : |(1 - fl (A2 / 255)) - (1 - A2 / 255)| ≤ 1 / 10 ^ 15 := by
    have : (1 - fl (A2 / 255)) - (1 - A2 / 255) = -(fl (A2 / 255) - A2 / 255) := by ring
    rw [this, abs_neg]; exact e2
  have e5 : |fl (1 - fl (A2 / 255)) - (1 - A2 / 255)| ≤ 1 / 10 ^ 14 :=
    (fl_close _ _ 1 _ e5' hB).trans (by norm_num)
  -- the existing term
  have hS : |C1 * (A1 / 255) * (1 - A2 / 255)| ≤ 255 := by
    have h1 : 0 ≤ C1 * (A1 / 255) := mul_nonneg hc1 hP0
    have h2 : C1 * (A1 / 255) ≤ 255 := (abs_le.mp hR).2
    have h3 : 0 ≤ 1 - A2 / 255 := by linarith only [hA1]
    have h6 : C1 * (A1 / 255) * (1 - A2 / 255) ≤ 255 * (1 - A2 / 255) :=
      mul_le_mul_of_nonneg_right h2 h3
    have h7 : 0 ≤ C1 * (A1 / 255) * (1 - A2 / 255) := mul_nonneg h1 h3
    rw [abs_le]
    constructor
    · linarith only [h7]
    · linarith only [h6, hA0]
  have e6 : |fl (fl (C1 * fl (A1 / 255)) * fl (1 - fl (A2 / 255))) -
      C1 * (A1 / 255) * (1 - A2 / 255)| ≤ 1 / 10 ^ 11 / 2 :=
    (fl_close _ _ 255 _ (mul_close _ _ _ _ _ _ 255 1 e3 e5 hR hB) hS).trans (by norm_num)
  -- the sum
  have hX : |C2 * (A2 / 255) + C1 * (A1 / 255) * (1 - A2 / 255)| ≤ 255 := by
    have h1 : 0 ≤ C1 * (A1 / 255) := mul_nonneg hc1 hP0
    have h2 : C1 * (A1 / 255) ≤ 255 := (abs_le.mp hR).2
    have h3 : 0 ≤ 1 - A2 / 255 := by linarith only [hA1]
    have h4 : 0 ≤ C2 * (A2 / 255) := mul_nonneg hc2 hA0
    have h5 : C2 * (A2 / 255) ≤ 255 * (A2 / 255) := mul_le_mul_of_nonneg_right hc2' hA0
    have h6 : C1 * (A1 / 255) * (1 - A2 / 255) ≤ 255 * (1 - A2 / 255) :=
      mul_le_mul_of_nonneg_right h2 h3
    have h7 : 0 ≤ C1 * (A1 / 255) * (1 - A2 / 255) := mul_nonneg h1 h3
    rw [abs_le]
    constructor
    · linarith only [h4, h7]
    · linarith only [h5, h6]
  have e7' : |(fl (C2 * fl (A2 / 255)) +
      fl (fl (C1 * fl (A1 / 255)) * fl (1 - fl (A2 / 255)))) -
      (C2 * (A2 / 255) + C1 * (A1 / 255) * (1 - A2 / 255))| ≤ 1 / 10 ^ 12 + 1 / 10 ^ 11 / 2 := by
    have : ∀ a b c d : ℚ, (a + b) - (c + d) = (a - c) + (b - d) := by intros; ring
    rw [this]
    exact (abs_add _ _).trans (add_le_add e4 e6)
  exact (fl_close _ _ 255 _ e7' hX).trans (by norm_num)

/-- The exact blend value is a multiple of `1/65025`, so it stays `1/130050` away from every
half-integer: its nearest integer `n` is unique, and it is at most 255. -/
theorem overChannel_nearest (c1 a1 c2 a2 : Uint8) :
    ∃ n : ℕ, n ≤ 255 ∧ |overChannel c1 a1 c2 a2 - (n : ℚ)| ≤ 1 / 2 - 1 / 130050 := by
  have hc1 : c1.val ≤ 255 := by have := c1.isLt; omega
  have ha1 : a1.val ≤ 255 := by have := a1.isLt; omega
  have hc2 : c2.val ≤ 255 := by have := c2.isLt; omega
  have ha2 : a2.val ≤ 255 := by have := a2.isLt; omega
  unfold overChannel
  generalize c1.val = C1 at *
  generalize a1.val = A1 at *
  generalize c2.val = C2 at *
  generalize a2.val = A2 at *
  obtain ⟨D, hD⟩ : ∃ D : ℕ, A2 + D = 255 := ⟨255 - A2, by omega⟩
  let N : ℕ := C2 * A2 * 255 + C1 * A1 * D
  have hN : N ≤ 255 * 65025 := by
    have h1 : C2 * A2 ≤ 255 * A2 := Nat.mul_le_mul_right _ hc2
    have h2 : C1 * A1 ≤ 255 * 255 := Nat.mul_le_mul hc1 ha1
    have h3 : C1 * A1 * D ≤ 255 * 255 * D := Nat.mul_le_mul_right _ h2
    have h4 : C2 * A2 * 255 ≤ 255 * A2 * 255 := Nat.mul_le_mul_right _ h1
    show C2 * A2 * 255 + C1 * A1 * D ≤ 255 * 65025
    omega
  have hX : (C2 : ℚ) * ((A2 : ℚ) / 255) + (C1 : ℚ) * ((A1 : ℚ) / 255) * (1 - (A2 : ℚ) / 255) =
      (N : ℚ) / 65025 := by
    have hDq : (D : ℚ) = 255 - (A2 : ℚ) := by
      have : ((A2 + D : ℕ) : ℚ) = 255 := by rw [hD]; norm_num
      push_cast at this
      linarith
    show _ = ((C2 * A2 * 255 + C1 * A1 * D : ℕ) : ℚ) / 65025
    push_cast
    rw [hDq]
    field_simp
    ring
  rw [hX]
  refine ⟨(2 * N + 65025) / 130050, by omega, ?_⟩
  have hdm := Nat.div_add_mod (2 * N + 65025) 130050
  have hr1 : 1 ≤ (2 * N + 65025) % 130050 := by omega
  have hr2 : (2 * N + 65025) % 130050 ≤ 130049 := by omega
  generalize (2 * N + 65025) / 130050 = n at hdm
  generalize (2 * N + 65025) % 130050 = r at hdm hr1 hr2
  have hNq : (N : ℚ) = (130050 * (n : ℚ) + (r : ℚ) - 65025) / 2 := by
    have : ((130050 * n + r : ℕ) : ℚ) = ((2 * N + 65025 : ℕ) : ℚ) := by rw [hdm]
    push_cast at this
    linarith
  have hr1q : (1 : ℚ) ≤ (r : ℚ) := by exact_mod_cast hr1
  have hr2q : (r : ℚ) ≤ 130049 := by exact_mod_cast hr2
  rw [hNq, abs_le]
  constructor
  · rw [le_sub_iff_add_le, div_div, le_div_iff₀ (by norm_num)]
    linarith
  · rw [sub_le_iff_le_add, div_div, div_le_iff₀ (by norm_num)]
    linarith

/-- The narrowing of a natural number below 256. -/
theorem Double.toUint8_nat (n : ℕ) (hn : n ≤ 255) : (Double.toUint8 (n : ℚ)).val = n := by
  have h := Double.toUint8_natCast ⟨n, by omega⟩
  simp only at h
  rw [h]

/-- Each channel of `blendColor` is the integer nearest to the exact blend value. -/
theorem blendChannel_round (c1 a1 c2 a2 : Uint8) :
    ∃ n : ℕ, n ≤ 255 ∧ Double.round (blendChannel c1 a1 c2 a2) = (n : ℚ) ∧
      (Double.toUint8 (Double.round (blendChannel c1 a1 c2 a2))).val = n ∧
      |overChannel c1 a1 c2 a2 - (n : ℚ)| ≤ 1 / 2 - 1 / 130050 := by
  obtain ⟨n, hn, hnear⟩ := overChannel_nearest c1 a1 c2 a2
  have hclose := blendChannel_close c1 a1 c2 a2
  have hlt : |blendChannel c1 a1 c2 a2 - ((n : ℤ) : ℚ)| < 1 / 2 := by
    have h1 : blendChannel c1 a1 c2 a2 - ((n : ℤ) : ℚ) =
        (blendChannel c1 a1 c2 a2 - overChannel c1 a1 c2 a2) +
          (overChannel c1 a1 c2 a2 - (n : ℚ)) := by push_cast; ring
    rw [h1]
    refine lt_of_le_of_lt (abs_add _ _) ?_
    refine lt_of_le_of_lt (add_le_add hclose hnear) ?_
    norm_num
  have hround : Double.round (blendChannel c1 a1 c2 a2) = (n : ℚ) := by
    have := Double.round_close _ (n : ℤ) (by omega) hlt
    simpa using this
  refine ⟨n, hn, hround, ?_, hnear⟩
  rw [hround]
  exact Double.toUint8_nat n hn

theorem blendColor_r (c1 c2 : SDL_Color) :
    (blendColor c1 c2).r = Double.toUint8 (Double.round (blendChannel c1.r c1.a c2.r c2.a)) :=
  rfl

theorem blendColor_g (c1 c2 : SDL_Color) :
    (blendColor c1 c2).g = Double.toUint8 (Double.round (blendChannel c1.g c1.a c2.g c2.a)) :=
  rfl

theorem blendColor_b (c1 c2 : SDL_Color) :
    (blendColor c1 c2).b = Double.toUint8 (Double.round (blendChannel c1.b c1.a c2.b c2.a)) :=
  rfl

/-- The 8-bit value that `blendColor` stores for a channel is the rounding to nearest of the
exact blend value, and lies closer than one half to it. -/
theorem blendChannel_nearest (c1 a1 c2 a2 : Uint8) :
    (((Double.toUint8 (Double.round (blendChannel c1 a1 c2 a2))).val : ℕ) : ℤ) =
        roundNearest (overChannel c1 a1 c2 a2) ∧
      |(((Double.toUint8 (Double.round (blendChannel c1 a1 c2 a2))).val : ℕ) : ℚ) -
        overChannel c1 a1 c2 a2| < 1 / 2 := by
  obtain ⟨n, -, -, hval, hnear⟩ := blendChannel_round c1 a1 c2 a2
  rw [hval]
  rw [abs_le] at hnear
  constructor
  · unfold roundNearest
    symm
    rw [Int.floor_eq_iff]
    push_cast
    constructor <;> linarith [hnear.1, hnear.2]
  · rw [abs_sub_comm, abs_lt]
    constructor <;> linarith [hnear.1, hnear.2]

theorem overChannel_opaque (c1 a1 c2 a2 : Uint8) (h : a1 = 255) :
    overChannel c1 a1 c2 a2 = specBlendChannel c1 c2 a2 := by
  subst h
  have h255 : (((255 : Uint8).val : ℕ) : ℚ) = 255 := by rfl
  unfold overChannel specBlendChannel
  rw [h255]
  norm_num

/-- C2 (as amended). For all colours `c1` (existing) and `c2` (incoming), `blendColor c1 c2`
has alpha 255 and each of its r, g, b channels is the rounding to nearest of
`c2.channel * a + (c1.channel * c1.alpha / 255) * (1 - a)` with `a = c2.alpha / 255`, and lies
closer than one half to that value; when `c1.alpha = 255` that value is the formula of the
specification, `c2.channel * a + c1.channel * (1 - a)`. -/
theorem blendColor_over (c1 c2 : SDL_Color) :
    (blendColor c1 c2).a = 255 ∧
    (((blendColor c1 c2).r.val : ℤ) = roundNearest (overChannel c1.r c1.a c2.r c2.a) ∧
      |((blendColor c1 c2).r.val : ℚ) - overChannel c1.r c1.a c2.r c2.a| < 1 / 2) ∧
    (((blendColor c1 c2).g.val : ℤ) = roundNearest (overChannel c1.g c1.a c2.g c2.a) ∧
      |((blendColor c1 c2).g.val : ℚ) - overChannel c1.g c1.a c2.g c2.a| < 1 / 2) ∧
    (((blendColor c1 c2).b.val : ℤ) = roundNearest (overChannel c1.b c1.a c2.b c2.a) ∧
      |((blendColor c1 c2).b.val : ℚ) - overChannel c1.b c1.a c2.b c2.a| < 1 / 2) ∧
    (c1.a = 255 →
      ((blendColor c1 c2).r.val : ℤ) = roundNearest (specBlendChannel c1.r c2.r c2.a) ∧
      ((blendColor c1 c2).g.val : ℤ) = roundNearest (specBlendChannel c1.g c2.g c2.a) ∧
      ((blendColor c1 c2).b.val : ℤ) = roundNearest (specBlendChannel c1.b c2.b c2.a)) := by
  refine ⟨blendColor_a c1 c2, ?_, ?_, ?_, ?_⟩
  · rw [blendColor_r]; exact blendChannel_nearest _ _ _ _
  · rw [blendColor_g]; exact blendChannel_nearest _ _ _ _
  · rw [blendColor_b]; exact blendChannel_nearest _ _ _ _
  · intro h
    rw [← overChannel_opaque c1.r c1.a c2.r c2.a h, ← overChannel_opaque c1.g c1.a c2.g c2.a h,
      ← overChannel_opaque c1.b c1.a c2.b c2.a h, blendColor_r, blendColor_g, blendColor_b]
    exact ⟨(blendChannel_nearest _ _ _ _).1, (blendChannel_nearest _ _ _ _).1,
      (blendChannel_nearest _ _ _ _).1⟩

/-- C2 as stated fails when the existing colour is not opaque: over the existing colour
`(200,0,0,0)` the incoming colour `(0,0,0,0)` gives red 0, while the rounding of
`C2.r * a + C1.r * (1 - a)` is 200. -/
theorem blendColor_spec_formula_counterexample :
    (((blendColor ⟨200, 0, 0, 0⟩ ⟨0, 0, 0, 0⟩).r.val : ℕ) : ℤ) = 0 ∧
      roundNearest (specBlendChannel 200 0 0) = 200 := by
  constructor
  · rw [blendColor_r, (blendChannel_nearest _ _ _ _).1]
    have h0 : (((0 : Uint8).val : ℕ) : ℚ) = 0 := by rfl
    have h200 : (((200 : Uint8).val : ℕ) : ℚ) = 200 := by rfl
    simp only [roundNearest, overChannel, h0, h200]
    norm_num
  · have h0 : (((0 : Uint8).val : ℕ) : ℚ) = 0 := by rfl
    have h200 : (((200 : Uint8).val : ℕ) : ℚ) = 200 := by rfl
    simp only [roundNearest, specBlendChannel, h0, h200]
    rw [Int.floor_eq_iff]
    norm_num

/-! ### Invariants of the buffer operations -/

/-- An invariant of every step of a loop is an invariant of the loop. -/
theorem foldlM_option_inv {α σ : Type} (P : σ → Prop) (f : σ → α → Option σ) (l : List α)
    (hf : ∀ s a s', a ∈ l → P s → f s a = some s' → P s') :
    ∀ s s', P s → l.foldlM f s = some s' → P s' := by
  induction l with
  | nil =>
    intro s s' hs h
    simp only [List.foldlM_nil, Option.pure_def, Option.some.injEq] at h
    exact h ▸ hs
  | cons a l ih =>
    intro s s' hs h
    simp only [List.foldlM_cons, Option.bind_eq_bind, Option.bind_eq_some] at h
    obtain ⟨s1, h1, h2⟩ := h
    exact ih (fun s a s' ha => hf s a s' (List.mem_cons_of_mem _ ha)) s1 s'
      (hf s a s1 (List.mem_cons_self _ _) hs h1) h2

/-- The state invariant: the buffer has the declared shape and every colour in it is opaque. -/
theorem RCEngine.modifyCell_inv (e e' : RCEngine) (i j : Int) (f : CellTexture → CellTexture)
    (hf : ∀ c, (f c).foreColor.a = 255 ∧ (f c).backColor.a = 255)
    (h : e.modifyCell i j f = some e') (hinv : e.wf ∧ e.opaque) : e'.wf ∧ e'.opaque := by
  refine ⟨e.modifyCell_wf e' i j f h hinv.1, ?_⟩
  intro i' j' c hc
  rw [e.cellAt_modifyCell e' i j f h i' j'] at hc
  split_ifs at hc with hij
  · cases hcell : e.cellAt i j with
    | none => rw [hcell] at hc; cases hc
    | some c0 =>
      rw [hcell] at hc
      simp only [Option.map_some', Option.some.injEq] at hc
      subst hc
      exact hf c0
  · exact hinv.2 i' j' c hc

theorem CellTexture.paint_opaque (c : CellTexture) (ch : Uint8) (fg bg : SDL_Color) :
    (c.paint ch fg bg).foreColor.a = 255 ∧ (c.paint ch fg bg).backColor.a = 255 :=
  ⟨blendColor_a _ _, blendColor_a _ _⟩

theorem RCEngine.draw_inv (e e' : RCEngine) (x y : Int) (ch : Uint8) (fg bg : SDL_Color)
    (h : e.draw x y ch fg bg = some e') (hinv : e.wf ∧ e.opaque) : e'.wf ∧ e'.opaque := by
  unfold RCEngine.draw at h
  split_ifs at h
  · exact e.modifyCell_inv e' y x _ (fun c => c.paint_opaque ch fg bg) h hinv
  · cases h
    exact hinv

theorem RCEngine.clear_inv (e e' : RCEngine) (h : e.clear = some e')
    (hinv : e.wf ∧ e.opaque) : e'.wf ∧ e'.opaque := by
  unfold RCEngine.clear at h
  refine foldlM_option_inv (fun s => s.wf ∧ s.opaque) _ _ ?_ e e' hinv h
  intro s i s' _ hs hstep
  refine foldlM_option_inv (fun s => s.wf ∧ s.opaque) _ _ ?_ s s' hs hstep
  intro t j t' _ ht hmod
  exact t.modifyCell_inv t' i j _ (fun c => ⟨rfl, rfl⟩) hmod ht

theorem RCEngine.write_inv (e e' : RCEngine) (x y : Int) (content : List Uint8)
    (fg bg : SDL_Color) (h : e.write x y content fg bg = some e')
    (hinv : e.wf ∧ e.opaque) : e'.wf ∧ e'.opaque := by
  unfold RCEngine.write at h
  split_ifs at h
  · refine foldlM_option_inv (fun s => s.wf ∧ s.opaque) _ _ ?_ e e' hinv h
    intro s i s' _ hs hstep
    split_ifs at hstep
    · cases hstep
      exact hs
    · exact s.modifyCell_inv s' y (x + i) _ (fun c => c.paint_opaque _ fg bg) hstep hs
  · cases h
    exact hinv

theorem RCEngine.fill_inv (e e' : RCEngine) (dest : SDL_Rect) (ch : Uint8)
    (fg bg : SDL_Color) (h : e.fill dest ch fg bg = some e')
    (hinv : e.wf ∧ e.opaque) : e'.wf ∧ e'.opaque := by
  unfold RCEngine.fill at h
  split_ifs at h
  · refine foldlM_option_inv (fun s => s.wf ∧ s.opaque) _ _ ?_ e e' hinv h
    intro s i s' _ hs hstep
    refine foldlM_option_inv (fun s => s.wf ∧ s.opaque) _ _ ?_ s s' hs hstep
    intro t j t' _ ht hmod
    exact t.modifyCell_inv t' i j _ (fun c => c.paint_opaque ch fg bg) hmod ht
  · cases h
    exact hinv

theorem RCEngine.bresenham_inv (ch : Uint8) (fg bg : SDL_Color) (x2 y2 dx dy sx sy : Int)
    (fuel : Nat) : ∀ (e e' : RCEngine) (x1 y1 error : Int),
    RCEngine.bresenham ch fg bg x2 y2 dx dy sx sy fuel e x1 y1 error = some e' →
    e.wf ∧ e.opaque → e'.wf ∧ e'.opaque := by
  induction fuel with
  | zero =>
    intro e e' x1 y1 error h
    simp [RCEngine.bresenham] at h
  | succ fuel ih =>
    intro e e' x1 y1 error h hinv
    simp only [RCEngine.bresenham, Option.bind_eq_some] at h
    obtain ⟨s, hdraw, hrest⟩ := h
    have hs := e.draw_inv s x1 y1 ch fg bg hdraw hinv
    by_cases hend : x1 = x2 ∧ y1 = y2
    · rw [if_pos hend] at hrest
      cases hrest
      exact hs
    · rw [if_neg hend] at hrest
      exact ih _ _ _ _ _ hrest hs

/-- The vertical branch of `drawLine`. -/
theorem RCEngine.drawLine_vertical (fuel : Nat) (e : RCEngine) (x1 y1 x2 y2 : Int) (ch : Uint8)
    (fg bg : SDL_Color)
    (hg : 0 ≤ x1 ∧ x1 < e.cellCols ∧ 0 ≤ y1 ∧ y1 < e.cellRows
      ∧ 0 ≤ x2 ∧ x2 < e.cellCols ∧ 0 ≤ y2 ∧ y2 < e.cellRows) (hx : x1 = x2) :
    RCEngine.drawLine fuel e x1 y1 x2 y2 ch fg bg =
      (loopRange (min y1 y2) (max y1 y2 + 1)).foldlM (fun s y => s.draw x1 y ch fg bg) e := by
  unfold RCEngine.drawLine
  rw [if_pos hg]
  dsimp only
  have hdx : |x2 - x1| = 0 := by rw [hx]; simp
  rw [if_pos hdx]
  by_cases hy : y1 > y2
  · rw [if_pos hy, if_pos hy, min_eq_right (le_of_lt hy), max_eq_left (le_of_lt hy)]
  · rw [if_neg hy, if_neg hy, min_eq_left (not_lt.mp hy), max_eq_right (not_lt.mp hy)]

/-- The horizontal branch of `drawLine`. -/
theorem RCEngine.drawLine_horizontal (fuel : Nat) (e : RCEngine) (x1 y1 x2 y2 : Int)
    (ch : Uint8) (fg bg : SDL_Color)
    (hg : 0 ≤ x1 ∧ x1 < e.cellCols ∧ 0 ≤ y1 ∧ y1 < e.cellRows
      ∧ 0 ≤ x2 ∧ x2 < e.cellCols ∧ 0 ≤ y2 ∧ y2 < e.cellRows) (hx : x1 ≠ x2) (hy : y1 = y2) :
    RCEngine.drawLine fuel e x1 y1 x2 y2 ch fg bg =
      (loopRange (min x1 x2) (max x1 x2 + 1)).foldlM (fun s x => s.draw x y1 ch fg bg) e := by
  unfold RCEngine.drawLine
  rw [if_pos hg]
  dsimp only
  have hdx : ¬ |x2 - x1| = 0 := by
    rw [abs_eq_zero]; omega
  have hdy : -|y2 - y1| = 0 := by rw [hy]; simp
  rw [if_neg hdx, if_pos hdy]
  by_cases hlt : x1 > x2
  · rw [if_pos hlt, if_pos hlt, min_eq_right (le_of_lt hlt), max_eq_left (le_of_lt hlt)]
  · rw [if_neg hlt, if_neg hlt, min_eq_left (not_lt.mp hlt), max_eq_right (not_lt.mp hlt)]

/-- The general branch of `drawLine`. -/
theorem RCEngine.drawLine_general (fuel : Nat) (e : RCEngine) (x1 y1 x2 y2 : Int)
    (ch : Uint8) (fg bg : SDL_Color)
    (hg : 0 ≤ x1 ∧ x1 < e.cellCols ∧ 0 ≤ y1 ∧ y1 < e.cellRows
      ∧ 0 ≤ x2 ∧ x2 < e.cellCols ∧ 0 ≤ y2 ∧ y2 < e.cellRows) (hx : x1 ≠ x2) (hy : y1 ≠ y2) :
    RCEngine.drawLine fuel e x1 y1 x2 y2 ch fg bg =
      RCEngine.bresenham ch fg bg x2 y2 |x2 - x1| (-|y2 - y1|)
        (if x1 < x2 then 1 else -1) (if y1 < y2 then 1 else -1) fuel e x1 y1
        (|x2 - x1| + -|y2 - y1|) := by
  unfold RCEngine.drawLine
  rw [if_pos hg]
  dsimp only
  have hdx : ¬ |x2 - x1| = 0 := by
    rw [abs_eq_zero]; omega
  have hdy : ¬ -|y2 - y1| = 0 := by
    rw [neg_eq_zero, abs_eq_zero]; omega
  rw [if_neg hdx, if_neg hdy]

/-- With an endpoint out of range `drawLine` does nothing. -/
theorem RCEngine.drawLine_outOfRange (fuel : Nat) (e : RCEngine) (x1 y1 x2 y2 : Int)
    (ch : Uint8) (fg bg : SDL_Color)
    (hg : ¬ (0 ≤ x1 ∧ x1 < e.cellCols ∧ 0 ≤ y1 ∧ y1 < e.cellRows
      ∧ 0 ≤ x2 ∧ x2 < e.cellCols ∧ 0 ≤ y2 ∧ y2 < e.cellRows)) :
    RCEngine.drawLine fuel e x1 y1 x2 y2 ch fg bg = some e := by
  unfold RCEngine.drawLine
  rw [if_neg hg]

theorem RCEngine.drawLine_inv (fuel : Nat) (e e' : RCEngine) (x1 y1 x2 y2 : Int) (ch : Uint8)
    (fg bg : SDL_Color) (h : RCEngine.drawLine fuel e x1 y1 x2 y2 ch fg bg = some e')
    (hinv : e.wf ∧ e.opaque) : e'.wf ∧ e'.opaque := by
  by_cases hg : 0 ≤ x1 ∧ x1 < e.cellCols ∧ 0 ≤ y1 ∧ y1 < e.cellRows
      ∧ 0 ≤ x2 ∧ x2 < e.cellCols ∧ 0 ≤ y2 ∧ y2 < e.cellRows
  · by_cases hx : x1 = x2
    · rw [RCEngine.drawLine_vertical fuel e x1 y1 x2 y2 ch fg bg hg hx] at h
      exact foldlM_option_inv (fun s => s.wf ∧ s.opaque) _ _
        (fun s y s' _ hs hstep => s.draw_inv s' _ _ ch fg bg hstep hs) e e' hinv h
    · by_cases hy : y1 = y2
      · rw [RCEngine.drawLine_horizontal fuel e x1 y1 x2 y2 ch fg bg hg hx hy] at h
        exact foldlM_option_inv (fun s => s.wf ∧ s.opaque) _ _
          (fun s y s' _ hs hstep => s.draw_inv s' _ _ ch fg bg hstep hs) e e' hinv h
      · rw [RCEngine.drawLine_general fuel e x1 y1 x2 y2 ch fg bg hg hx hy] at h
        exact RCEngine.bresenham_inv ch fg bg _ _ _ _ _ _ fuel e e' _ _ _ h hinv
  · rw [RCEngine.drawLine_outOfRange fuel e x1 y1 x2 y2 ch fg bg hg] at h
    cases h
    exact hinv

theorem loopRange_length (lo hi : Int) : (loopRange lo hi).length = (hi - lo).toNat := by
  unfold loopRange
  rw [List.length_map, List.length_range]

theorem RCEngine.createConsole_inv (rows cols fw fh tw th : Int) (e : RCEngine)
    (h : RCEngine.createConsole rows cols fw fh tw th = some e) : e.wf ∧ e.opaque := by
  unfold RCEngine.createConsole at h
  split_ifs at h
  simp only [Option.some.injEq] at h
  subst h
  refine ⟨⟨?_, ?_⟩, ?_⟩
  · simp [loopRange_length]
  · intro row hrow
    simp only [List.mem_map] at hrow
    obtain ⟨i, -, rfl⟩ := hrow
    simp [loopRange_length]
  · intro i j c hc
    rw [RCEngine.cellAt_eq_some_iff] at hc
    obtain ⟨-, -, row, hrow, hcell⟩ := hc
    have hrow' := List.getElem?_mem hrow
    have hcell' := List.getElem?_mem hcell
    simp only [List.mem_map] at hrow'
    obtain ⟨i0, -, rfl⟩ := hrow'
    simp only [List.mem_map] at hcell'
    obtain ⟨j0, -, rfl⟩ := hcell'
    exact ⟨rfl, rfl⟩

/-- Every reachable state is well-formed and holds opaque colours only. -/
theorem RCEngine.Reachable.inv (e : RCEngine) (h : RCEngine.Reachable e) :
    e.wf ∧ e.opaque := by
  induction h with
  | create rows cols fw fh tw th e h => exact RCEngine.createConsole_inv _ _ _ _ _ _ e h
  | clear e s _ h ih => exact e.clear_inv s h ih
  | draw e s x y ch fg bg _ h ih => exact e.draw_inv s x y ch fg bg h ih
  | write e s x y content fg bg _ h ih => exact e.write_inv s x y content fg bg h ih
  | fill e s dest ch fg bg _ h ih => exact e.fill_inv s dest ch fg bg h ih
  | drawLine fuel e s x1 y1 x2 y2 ch fg bg _ h ih =>
    exact RCEngine.drawLine_inv fuel e s x1 y1 x2 y2 ch fg bg h ih

/-- C3. In every state reachable from `createConsole` by `clear`, `draw`, `write`, `fill` and
`drawLine` calls, `draw(x,y,ch,fg,bg)` at an in-range `(x,y)` with `fg.a = 0` and `bg.a = 0`
succeeds and leaves the foreground and the background colour of the cell as they were. -/
theorem draw_transparent_keeps_colours (e : RCEngine) (hreach : RCEngine.Reachable e)
    (x y : Int) (hx : 0 ≤ x ∧ x < e.cellCols) (hy : 0 ≤ y ∧ y < e.cellRows)
    (ch : Uint8) (fg bg : SDL_Color) (hfg : fg.a = 0) (hbg : bg.a = 0) :
    ∃ e', e.draw x y ch fg bg = some e' ∧
      e'.getForeColor x y = e.getForeColor x y ∧
      e'.getBackColor x y = e.getBackColor x y := by
  obtain ⟨hwf, hop⟩ := RCEngine.Reachable.inv e hreach
  obtain ⟨c, e', hc, hd, -, hr, hcols, hcell⟩ := e.draw_inRange hwf x y hx hy ch fg bg
  have hx' : 0 ≤ x ∧ x < e'.cellCols := by rw [hcols]; exact hx
  have hy' : 0 ≤ y ∧ y < e'.cellRows := by rw [hr]; exact hy
  have hat : e'.cellAt y x = some (c.paint ch fg bg) := by
    rw [hcell y x, if_pos ⟨rfl, rfl⟩]
  obtain ⟨hfa, hba⟩ := hop y x c hc
  refine ⟨e', hd, ?_, ?_⟩
  · rw [e'.getForeColor_inRange x y hx' hy', e.getForeColor_inRange x y hx hy, hat, hc,
      Option.map_some', Option.map_some', CellTexture.paint_foreColor,
      blendColor_transparent _ _ hfa hfg]
    rfl
  · rw [e'.getBackColor_inRange x y hx' hy', e.getBackColor_inRange x y hx hy, hat, hc,
      Option.map_some', Option.map_some', CellTexture.paint_backColor,
      blendColor_transparent _ _ hba hbg]
    rfl

/-- C3 at the cell `(1,0)` of the freshly created 2 x 3 console. -/
theorem draw_transparent_keeps_colours_witness :
    ∃ e', console23.draw 1 0 65 ⟨9, 8, 7, 0⟩ ⟨6, 5, 4, 0⟩ = some e' ∧
      e'.getForeColor 1 0 = console23.getForeColor 1 0 ∧
      e'.getBackColor 1 0 = console23.getBackColor 1 0 :=
  draw_transparent_keeps_colours console23
    (RCEngine.Reachable.create 2 3 20 20 8 8 console23 (by rfl))
    1 0 (by decide) (by decide) 65 ⟨9, 8, 7, 0⟩ ⟨6, 5, 4, 0⟩ rfl rfl

/-- A `draw` whose foreground colour is opaque sets the foreground of the cell to it, whatever
the background colour passed along. -/
theorem RCEngine.draw_fore_opaque (e : RCEngine) (hwf : e.wf) (x y : Int)
    (hx : 0 ≤ x ∧ x < e.cellCols) (hy : 0 ≤ y ∧ y < e.cellRows)
    (ch : Uint8) (fg bg : SDL_Color) (hfg : fg.a = 255) :
    ∃ e', e.draw x y ch fg bg = some e' ∧ e'.wf ∧ e'.cellRows = e.cellRows ∧
      e'.cellCols = e.cellCols ∧ e'.getForeColor x y = some fg := by
  obtain ⟨c, e', -, hd, hwf', hr, hc, hcell⟩ := e.draw_inRange hwf x y hx hy ch fg bg
  have hx' : 0 ≤ x ∧ x < e'.cellCols := by rw [hc]; exact hx
  have hy' : 0 ≤ y ∧ y < e'.cellRows := by rw [hr]; exact hy
  have hat : e'.cellAt y x = some (c.paint ch fg bg) := by
    rw [hcell y x, if_pos ⟨rfl, rfl⟩]
  refine ⟨e', hd, hwf', hr, hc, ?_⟩
  rw [e'.getForeColor_inRange x y hx' hy', hat, Option.map_some',
    CellTexture.paint_foreColor, blendColor_opaque _ _ hfg]

/-- The two ways of C4 to paint a cell end with the same foreground colour. -/
theorem RCEngine.draw_twice_fore (e : RCEngine) (hwf : e.wf) (x y : Int)
    (hx : 0 ≤ x ∧ x < e.cellCols) (hy : 0 ≤ y ∧ y < e.cellRows)
    (ch1 ch2 : Uint8) (fg1 bg1 fg2 bg2 : SDL_Color) (h2 : fg2.a = 255) :
    ∃ e1 e2 e3, e.draw x y ch1 fg1 bg1 = some e1 ∧ e1.draw x y ch2 fg2 bg2 = some e2 ∧
      e.draw x y ch2 fg2 bg2 = some e3 ∧
      e2.getForeColor x y = some fg2 ∧ e3.getForeColor x y = some fg2 := by
  obtain ⟨c, e1, -, hd1, hwf1, hr1, hc1, -⟩ := e.draw_inRange hwf x y hx hy ch1 fg1 bg1
  obtain ⟨e2, hd2, -, -, -, hf2⟩ :=
    e1.draw_fore_opaque hwf1 x y (by rw [hc1]; exact hx) (by rw [hr1]; exact hy) ch2 fg2 bg2 h2
  obtain ⟨e3, hd3, -, -, -, hf3⟩ := e.draw_fore_opaque hwf x y hx hy ch2 fg2 bg2 h2
  exact ⟨e1, e2, e3, hd1, hd2, hd3, hf2, hf3⟩

/-- C4 as stated fails: on the 2 x 3 console, at cell `(0,0)`, `fg1 = (10,20,30,128)` and
`fg2 = (200,100,50,255)` differ in r, g and b, yet the foreground after `draw fg1; draw fg2`
equals the foreground after `draw fg2` alone. -/
theorem draw_composition_counterexample :
    ∃ e1 e2 e3,
      console23.draw 0 0 65 ⟨10, 20, 30, 128⟩ ⟨0, 0, 0, 255⟩ = some e1 ∧
      e1.draw 0 0 65 ⟨200, 100, 50, 255⟩ ⟨0, 0, 0, 255⟩ = some e2 ∧
      console23.draw 0 0 65 ⟨200, 100, 50, 255⟩ ⟨0, 0, 0, 255⟩ = some e3 ∧
      e2.getForeColor 0 0 = e3.getForeColor 0 0 := by
  obtain ⟨e1, e2, e3, h1, h2, h3, hf2, hf3⟩ :=
    console23.draw_twice_fore (by decide) 0 0 (by decide) (by decide) 65 65
      ⟨10, 20, 30, 128⟩ ⟨0, 0, 0, 255⟩ ⟨200, 100, 50, 255⟩ ⟨0, 0, 0, 255⟩ rfl
  exact ⟨e1, e2, e3, h1, h2, h3, hf2.trans hf3.symm⟩

/-- C4 (as amended). For every in-range cell of a well-formed grid and all colours `fg1` (of
any alpha, 128 included) and `fg2` with alpha 255, equal or not: the foreground colour of the
cell after `draw(.., fg1, ..)` followed by `draw(.., fg2, ..)` and its foreground colour after
`draw(.., fg2, ..)` alone on the same starting state are the same colour, namely `fg2`. -/
theorem draw_translucent_then_opaque (e : RCEngine) (hwf : e.wf) (x y : Int)
    (hx : 0 ≤ x ∧ x < e.cellCols) (hy : 0 ≤ y ∧ y < e.cellRows)
    (ch1 ch2 : Uint8) (fg1 bg1 fg2 bg2 : SDL_Color) (h2 : fg2.a = 255) :
    ∃ e1 e2 e3, e.draw x y ch1 fg1 bg1 = some e1 ∧ e1.draw x y ch2 fg2 bg2 = some e2 ∧
      e.draw x y ch2 fg2 bg2 = some e3 ∧
      e2.getForeColor x y = some fg2 ∧ e3.getForeColor x y = some fg2 :=
  e.draw_twice_fore hwf x y hx hy ch1 ch2 fg1 bg1 fg2 bg2 h2

/-- C4 (as amended) at the cell `(2,1)` of the 2 x 3 console with `fg1` of alpha 128. -/
theorem draw_translucent_then_opaque_witness :
    ∃ e1 e2 e3,
      console23.draw 2 1 65 ⟨10, 20, 30, 128⟩ ⟨0, 0, 0, 255⟩ = some e1 ∧
      e1.draw 2 1 66 ⟨200, 100, 50, 255⟩ ⟨0, 0, 0, 255⟩ = some e2 ∧
      console23.draw 2 1 66 ⟨200, 100, 50, 255⟩ ⟨0, 0, 0, 255⟩ = some e3 ∧
      e2.getForeColor 2 1 = some ⟨200, 100, 50, 255⟩ ∧
      e3.getForeColor 2 1 = some ⟨200, 100, 50, 255⟩ :=
  draw_translucent_then_opaque console23 (by decide) 2 1 (by decide) (by decide) 65 66
    ⟨10, 20, 30, 128⟩ ⟨0, 0, 0, 255⟩ ⟨200, 100, 50, 255⟩ ⟨0, 0, 0, 255⟩ rfl

/-! ### Loops over cells -/

theorem mem_loopRange (lo hi k : Int) : k ∈ loopRange lo hi ↔ lo ≤ k ∧ k < hi := by
  unfold loopRange
  simp only [List.mem_map, List.mem_range]
  constructor
  · rintro ⟨n, hn, rfl⟩
    omega
  · intro h
    exact ⟨(k - lo).toNat, by omega, by omega⟩

theorem loopRange_nodup (lo hi : Int) : (loopRange lo hi).Nodup := by
  unfold loopRange
  refine List.Nodup.map ?_ (List.nodup_range _)
  intro a b hab
  simp only at hab
  omega

/-- Two loop bodies that agree on the states of an invariant give the same loop. -/
theorem foldlM_option_congr {α σ : Type} (P : σ → Prop) (f g : σ → α → Option σ) (l : List α)
    (hfg : ∀ s a, a ∈ l → P s → f s a = g s a)
    (hP : ∀ s a s', a ∈ l → P s → g s a = some s' → P s') :
    ∀ s, P s → l.foldlM f s = l.foldlM g s := by
  induction l with
  | nil => intro s _; rfl
  | cons a l ih =>
    intro s hs
    simp only [List.foldlM_cons, Option.bind_eq_bind]
    rw [hfg s a (List.mem_cons_self _ _) hs]
    cases hg : g s a with
    | none => rfl
    | some s1 =>
      simp only [Option.some_bind]
      exact ih (fun s a ha => hfg s a (List.mem_cons_of_mem _ ha))
        (fun s a s' ha => hP s a s' (List.mem_cons_of_mem _ ha)) s1
        (hP s a s1 (List.mem_cons_self _ _) hs hg)

/-- A loop whose body succeeds on every state of an invariant succeeds. -/
theorem foldlM_option_some {α σ : Type} (P : σ → Prop) (f : σ → α → Option σ) (l : List α)
    (hf : ∀ s a, a ∈ l → P s → ∃ s', f s a = some s' ∧ P s') :
    ∀ s, P s → ∃ s', l.foldlM f s = some s' ∧ P s' := by
  induction l with
  | nil => intro s hs; exact ⟨s, rfl, hs⟩
  | cons a l ih =>
    intro s hs
    obtain ⟨s1, h1, hs1⟩ := hf s a (List.mem_cons_self _ _) hs
    obtain ⟨s2, h2, hs2⟩ := ih (fun s a ha => hf s a (List.mem_cons_of_mem _ ha)) s1 hs1
    refine ⟨s2, ?_, hs2⟩
    simp only [List.foldlM_cons, Option.bind_eq_bind, h1, Option.some_bind]
    exact h2

/-- A nested loop is the loop over the list of its index pairs. -/
theorem foldlM_flatMap_option {α β σ : Type} (f : σ → β → Option σ) (k : α → List β)
    (l : List α) : ∀ s, (l.flatMap k).foldlM f s = l.foldlM (fun s a => (k a).foldlM f s) s := by
  induction l with
  | nil => intro s; rfl
  | cons a l ih =>
    intro s
    rw [List.flatMap_cons, List.foldlM_append, List.foldlM_cons]
    simp only [Option.bind_eq_bind]
    cases h : (k a).foldlM f s with
    | none => rfl
    | some s1 => simp only [Option.some_bind]; exact ih s1

theorem foldlM_map_option {α β σ : Type} (f : σ → β → Option σ) (g : α → β) (l : List α) :
    ∀ s, (l.map g).foldlM f s = l.foldlM (fun s a => f s (g a)) s := by
  induction l with
  | nil => intro s; rfl
  | cons a l ih =>
    intro s
    simp only [List.map_cons, List.foldlM_cons, Option.bind_eq_bind]
    cases h : f s (g a) with
    | none => rfl
    | some s1 => simp only [Option.some_bind]; exact ih s1

/-- In range, `draw` is the painting of the addressed cell. -/
theorem RCEngine.draw_eq_modifyCell (e : RCEngine) (x y : Int) (ch : Uint8) (fg bg : SDL_Color)
    (hx : 0 ≤ x ∧ x < e.cellCols) (hy : 0 ≤ y ∧ y < e.cellRows) :
    e.draw x y ch fg bg = e.modifyCell y x (fun c => c.paint ch fg bg) := by
  unfold RCEngine.draw
  rw [if_pos ⟨hx.1, hx.2, hy.1, hy.2⟩]

/-- Whatever `draw` does, it keeps the dimensions, and it keeps every cell but `(x, y)`. -/
theorem RCEngine.draw_frame (e e' : RCEngine) (x y : Int) (ch : Uint8) (fg bg : SDL_Color)
    (h : e.draw x y ch fg bg = some e') :
    e'.cellRows = e.cellRows ∧ e'.cellCols = e.cellCols ∧
      ∀ i j, ¬ (i = y ∧ j = x) → e'.cellAt i j = e.cellAt i j := by
  unfold RCEngine.draw at h
  split_ifs at h
  · obtain ⟨hr, hc, -⟩ := e.modifyCell_fields e' y x _ h
    refine ⟨hr, hc, ?_⟩
    intro i j hij
    rw [e.cellAt_modifyCell e' y x _ h i j, if_neg hij]
  · cases h
    exact ⟨rfl, rfl, fun _ _ _ => rfl⟩

/-- A sequence of `draw` calls keeps the dimensions and every cell it does not name. -/
theorem RCEngine.draws_frame {α : Type} (cell : α → Int × Int) (glyph : α → Uint8)
    (fg bg : SDL_Color) (l : List α) :
    ∀ (e e' : RCEngine),
      l.foldlM (fun s a => s.draw (cell a).1 (cell a).2 (glyph a) fg bg) e = some e' →
      e'.cellRows = e.cellRows ∧ e'.cellCols = e.cellCols ∧
        ∀ i j, (∀ a ∈ l, cell a ≠ (j, i)) → e'.cellAt i j = e.cellAt i j := by
  induction l with
  | nil =>
    intro e e' h
    simp only [List.foldlM_nil, Option.pure_def, Option.some.injEq] at h
    subst h
    exact ⟨rfl, rfl, fun _ _ _ => rfl⟩
  | cons p l ih =>
    intro e e' h
    simp only [List.foldlM_cons, Option.bind_eq_bind, Option.bind_eq_some] at h
    obtain ⟨s, hs, hrest⟩ := h
    obtain ⟨hr1, hc1, hf1⟩ := e.draw_frame s (cell p).1 (cell p).2 (glyph p) fg bg hs
    obtain ⟨hr2, hc2, hf2⟩ := ih s e' hrest
    refine ⟨hr2.trans hr1, hc2.trans hc1, ?_⟩
    intro i j hij
    rw [hf2 i j (fun a ha => hij a (List.mem_cons_of_mem _ ha))]
    apply hf1
    rintro ⟨rfl, rfl⟩
    exact hij p (List.mem_cons_self _ _) rfl

/-- A sequence of in-range `draw` calls on a well-formed engine succeeds, and the result is
well-formed. -/
theorem RCEngine.draws_some {α : Type} (cell : α → Int × Int) (glyph : α → Uint8)
    (fg bg : SDL_Color) (e : RCEngine) (hwf : e.wf) (l : List α)
    (hl : ∀ a ∈ l, (0 ≤ (cell a).1 ∧ (cell a).1 < e.cellCols) ∧
      (0 ≤ (cell a).2 ∧ (cell a).2 < e.cellRows)) :
    ∃ e', l.foldlM (fun s a => s.draw (cell a).1 (cell a).2 (glyph a) fg bg) e = some e' ∧
      e'.wf := by
  obtain ⟨e', h, hwf', -⟩ := foldlM_option_some
    (fun s : RCEngine => s.wf ∧ s.cellRows = e.cellRows ∧ s.cellCols = e.cellCols)
    (fun s a => s.draw (cell a).1 (cell a).2 (glyph a) fg bg) l
    (by
      intro s p hp ⟨hswf, hsr, hsc⟩
      obtain ⟨hpx, hpy⟩ := hl p hp
      obtain ⟨c, s', -, hd, hwf', hr, hc, -⟩ :=
        s.draw_inRange hswf (cell p).1 (cell p).2 (by rw [hsc]; exact hpx)
          (by rw [hsr]; exact hpy) (glyph p) fg bg
      exact ⟨s', hd, hwf', hr.trans hsr, hc.trans hsc⟩)
    e ⟨hwf, rfl, rfl⟩
  exact ⟨e', h, hwf'⟩

/-! ### fill -/

theorem RCEngine.mem_clippedCells (e : RCEngine) (dest : SDL_Rect) (cx cy : Int) :
    (cx, cy) ∈ e.clippedCells dest ↔
      (dest.x ≤ cx ∧ cx < dest.x + dest.w) ∧ (dest.y ≤ cy ∧ cy < dest.y + dest.h) ∧
      (0 ≤ cx ∧ cx < e.cellCols) ∧ (0 ≤ cy ∧ cy < e.cellRows) := by
  unfold RCEngine.clippedCells
  simp only [List.mem_flatMap, List.mem_map, mem_loopRange, Prod.mk.injEq]
  constructor
  · rintro ⟨cy', h1, cx', h2, rfl, rfl⟩
    omega
  · intro h
    exact ⟨cy, by omega, cx, by omega, rfl, rfl⟩

theorem RCEngine.clippedCells_nodup (e : RCEngine) (dest : SDL_Rect) :
    (e.clippedCells dest).Nodup := by
  unfold RCEngine.clippedCells
  rw [List.nodup_flatMap]
  constructor
  · intro cy _
    refine List.Nodup.map ?_ (loopRange_nodup _ _)
    intro a b hab
    simp only [Prod.mk.injEq] at hab
    exact hab.1
  · refine List.Nodup.pairwise_of_forall_ne (loopRange_nodup _ _) ?_
    intro a _ b _ hab
    simp only [Function.onFun]
    intro p hpa hpb
    simp only [List.mem_map] at hpa hpb
    obtain ⟨_, _, rfl⟩ := hpa
    obtain ⟨_, _, h⟩ := hpb
    simp only [Prod.mk.injEq] at h
    exact hab h.2.symm

/-- A sum that fits in 32 bits is its own 32-bit value. -/
theorem wrapInt32_of_fits (z : Int) (h : -2147483648 ≤ z ∧ z < 2147483648) :
    wrapInt32 z = z := by
  unfold wrapInt32
  omega

/-- Where the two sums of `fill` fit in 32 bits and its swapped loop bounds select the same
rows and columns as the grid bounds, `fill` is `draw` on every cell of the clipped
rectangle. -/
theorem RCEngine.fill_eq_fillSpec (e : RCEngine) (dest : SDL_Rect) (ch : Uint8)
    (fg bg : SDL_Color)
    (hg : 0 ≤ dest.x ∧ dest.x < e.cellCols ∧ 0 ≤ dest.y ∧ dest.y < e.cellRows)
    (hfy : -2147483648 ≤ dest.y + dest.h ∧ dest.y + dest.h < 2147483648)
    (hfx : -2147483648 ≤ dest.x + dest.w ∧ dest.x + dest.w < 2147483648)
    (hb1 : min (dest.y + dest.h) e.cellCols = min (dest.y + dest.h) e.cellRows)
    (hb2 : min (dest.x + dest.w) e.cellRows = min (dest.x + dest.w) e.cellCols) :
    e.fill dest ch fg bg = e.fillSpec dest ch fg bg := by
  unfold RCEngine.fill RCEngine.fillSpec RCEngine.clippedCells
  rw [if_pos hg, wrapInt32_of_fits _ hfy, wrapInt32_of_fits _ hfx, hb1, hb2,
    max_eq_left hg.2.2.1, max_eq_left hg.1, foldlM_flatMap_option]
  simp only [foldlM_map_option]
  have hdraw : ∀ (s s' : RCEngine) (x y : Int),
      (s.cellRows = e.cellRows ∧ s.cellCols = e.cellCols) → s.draw x y ch fg bg = some s' →
      (s'.cellRows = e.cellRows ∧ s'.cellCols = e.cellCols) := by
    intro s s' x y hs h
    obtain ⟨hr, hc, -⟩ := s.draw_frame s' x y ch fg bg h
    exact ⟨hr.trans hs.1, hc.trans hs.2⟩
  refine foldlM_option_congr
    (fun s : RCEngine => s.cellRows = e.cellRows ∧ s.cellCols = e.cellCols) _ _ _ ?_ ?_ e
    ⟨rfl, rfl⟩
  · intro s i hi hs
    refine foldlM_option_congr
      (fun s : RCEngine => s.cellRows = e.cellRows ∧ s.cellCols = e.cellCols) _ _ _ ?_ ?_ s hs
    · intro t j hj ht
      rw [mem_loopRange] at hi hj
      symm
      apply t.draw_eq_modifyCell
      · rw [ht.2]; omega
      · rw [ht.1]; omega
    · intro t j t' _ ht h
      exact hdraw t t' j i ht h
  · intro s i s' _ hs h
    exact foldlM_option_inv
      (fun s : RCEngine => s.cellRows = e.cellRows ∧ s.cellCols = e.cellCols) _ _
      (fun t j t' _ ht h => hdraw t t' j i ht h) s s' hs h

/-- The loops of `fill` update the cells of `fillAccesses`, in that order. -/
theorem RCEngine.fill_eq_accesses (e : RCEngine) (dest : SDL_Rect) (ch : Uint8)
    (fg bg : SDL_Color) :
    e.fill dest ch fg bg = (e.fillAccesses dest).foldlM
      (fun s p => s.modifyCell p.1 p.2 (fun c => c.paint ch fg bg)) e := by
  unfold RCEngine.fill RCEngine.fillAccesses
  by_cases hg : 0 ≤ dest.x ∧ dest.x < e.cellCols ∧ 0 ≤ dest.y ∧ dest.y < e.cellRows
  · rw [if_pos hg, if_pos hg, foldlM_flatMap_option]
    simp only [foldlM_map_option]
  · rw [if_neg hg, if_neg hg]
    rfl

/-- C5 as stated fails at a rectangle whose corner is left of the grid: on the 2 x 3 console
`fill` of the rectangle `(x,y,w,h) = (-1,0,2,1)` changes nothing, while `draw` on the cells of
the rectangle inside the grid puts glyph 88 into cell `(0,0)`, whose glyph was 0. -/
theorem fill_clipping_counterexample :
    console23.fill ⟨-1, 0, 2, 1⟩ 88 ⟨255, 255, 255, 255⟩ ⟨0, 0, 0, 255⟩ = some console23 ∧
      console23.getCh 0 0 = some 0 ∧
      (0, 0) ∈ console23.clippedCells ⟨-1, 0, 2, 1⟩ ∧
      (console23.fillSpec ⟨-1, 0, 2, 1⟩ 88 ⟨255, 255, 255, 255⟩ ⟨0, 0, 0, 255⟩).bind
        (fun s => s.getCh 0 0) = some 88 := by
  decide

/-- When a sum of `fill` does not fit in 32 bits its loops run over what the wrapped sum
leaves: on the 3 x 3 console `fill` of `(1,1,2147483647,2147483647)` draws nothing. -/
theorem fill_wrapped_sum_draws_nothing :
    wrapInt32 (1 + 2147483647) = -2147483648 ∧
      console33.fillAccesses ⟨1, 1, 2147483647, 2147483647⟩ = [] ∧
      console33.fill ⟨1, 1, 2147483647, 2147483647⟩ 65 ⟨255, 255, 255, 255⟩
        ⟨0, 0, 0, 255⟩ = some console33 := by
  decide

/-- C5 (as amended). In a well-formed grid: the list `clippedCells` holds, once each, exactly
the cells `(cx,cy)` with `x ≤ cx < x+w`, `y ≤ cy < y+h`, `0 ≤ cx < cols`, `0 ≤ cy < rows`;
when the corner `(x,y)` of the rectangle is out of range `fill` leaves the buffer unchanged;
when it is in range, the sums `y+h` and `x+w` fit in a 32-bit `int`, and either the grid is
square or the rectangle ends within both dimensions (`x+w` and `y+h` at most
`min rows cols`), `fill` equals `draw` applied once to each of those cells, succeeds, and
leaves every other cell unchanged. -/
theorem fill_clipped (e : RCEngine) (hwf : e.wf) (dest : SDL_Rect) (ch : Uint8)
    (fg bg : SDL_Color) :
    ((e.clippedCells dest).Nodup ∧ ∀ cx cy, (cx, cy) ∈ e.clippedCells dest ↔
      (dest.x ≤ cx ∧ cx < dest.x + dest.w) ∧ (dest.y ≤ cy ∧ cy < dest.y + dest.h) ∧
      (0 ≤ cx ∧ cx < e.cellCols) ∧ (0 ≤ cy ∧ cy < e.cellRows)) ∧
    (¬ (0 ≤ dest.x ∧ dest.x < e.cellCols ∧ 0 ≤ dest.y ∧ dest.y < e.cellRows) →
      e.fill dest ch fg bg = some e) ∧
    ((0 ≤ dest.x ∧ dest.x < e.cellCols ∧ 0 ≤ dest.y ∧ dest.y < e.cellRows) →
      (-2147483648 ≤ dest.y + dest.h ∧ dest.y + dest.h < 2147483648) →
      (-2147483648 ≤ dest.x + dest.w ∧ dest.x + dest.w < 2147483648) →
      (e.cellRows = e.cellCols ∨
        (dest.x + dest.w ≤ min e.cellRows e.cellCols ∧
          dest.y + dest.h ≤ min e.cellRows e.cellCols)) →
      e.fill dest ch fg bg =
        (e.clippedCells dest).foldlM (fun s p => s.draw p.1 p.2 ch fg bg) e ∧
      ∃ e', e.fill dest ch fg bg = some e' ∧
        ∀ cx cy, (cx, cy) ∉ e.clippedCells dest → e'.cellAt cy cx = e.cellAt cy cx) := by
  refine ⟨⟨e.clippedCells_nodup dest, e.mem_clippedCells dest⟩, ?_, ?_⟩
  · intro hg
    unfold RCEngine.fill
    rw [if_neg hg]
  · intro hg hfy hfx hshape
    have heq := e.fill_eq_fillSpec dest ch fg bg hg hfy hfx (by omega) (by omega)
    refine ⟨heq, ?_⟩
    obtain ⟨e', he', -⟩ := RCEngine.draws_some (fun p : Int × Int => p) (fun _ => ch) fg bg
      e hwf (e.clippedCells dest) (by
        rintro ⟨cx, cy⟩ hp
        rw [e.mem_clippedCells] at hp
        exact ⟨hp.2.2.1, hp.2.2.2⟩)
    refine ⟨e', heq.trans he', ?_⟩
    intro cx cy hnot
    refine (RCEngine.draws_frame (fun p : Int × Int => p) (fun _ => ch) fg bg _ e e' he').2.2
      cy cx ?_
    intro a ha hcell
    exact hnot (hcell ▸ ha)

/-- C5 (as amended) on the 3 x 3 console for the rectangle `(1,1,5,5)`, which reaches past
the right and the lower edge and is clipped to the four cells `(1,1),(2,1),(1,2),(2,2)`; and
on the 2 x 3 console for the rectangle `(1,0,1,2)`, which lies inside the grid in both
dimensions. -/
theorem fill_clipped_witness :
    console33.clippedCells ⟨1, 1, 5, 5⟩ = [(1, 1), (2, 1), (1, 2), (2, 2)] ∧
    (console33.fill ⟨1, 1, 5, 5⟩ 65 ⟨255, 255, 255, 255⟩ ⟨0, 0, 0, 128⟩ =
        (console33.clippedCells ⟨1, 1, 5, 5⟩).foldlM
          (fun s p => s.draw p.1 p.2 65 ⟨255, 255, 255, 255⟩ ⟨0, 0, 0, 128⟩) console33 ∧
      ∃ e', console33.fill ⟨1, 1, 5, 5⟩ 65 ⟨255, 255, 255, 255⟩ ⟨0, 0, 0, 128⟩ = some e' ∧
        ∀ cx cy, (cx, cy) ∉ console33.clippedCells ⟨1, 1, 5, 5⟩ →
          e'.cellAt cy cx = console33.cellAt cy cx) ∧
    (console33.fill ⟨1, 1, 5, 5⟩ 65 ⟨255, 255, 255, 255⟩ ⟨0, 0, 0, 128⟩).bind
      (fun s => s.getCh 2 2) = some 65 ∧
    (console33.fill ⟨1, 1, 5, 5⟩ 65 ⟨255, 255, 255, 255⟩ ⟨0, 0, 0, 128⟩).bind
      (fun s => s.getCh 0 2) = some 0 ∧
    (console23.fill ⟨1, 0, 1, 2⟩ 88 ⟨255, 255, 255, 255⟩ ⟨0, 0, 0, 128⟩ =
        (console23.clippedCells ⟨1, 0, 1, 2⟩).foldlM
          (fun s p => s.draw p.1 p.2 88 ⟨255, 255, 255, 255⟩ ⟨0, 0, 0, 128⟩) console23 ∧
      ∃ e', console23.fill ⟨1, 0, 1, 2⟩ 88 ⟨255, 255, 255, 255⟩ ⟨0, 0, 0, 128⟩ = some e' ∧
        ∀ cx cy, (cx, cy) ∉ console23.clippedCells ⟨1, 0, 1, 2⟩ →
          e'.cellAt cy cx = console23.cellAt cy cx) :=
  ⟨by decide,
    (fill_clipped console33 (by decide) ⟨1, 1, 5, 5⟩ 65 ⟨255, 255, 255, 255⟩
      ⟨0, 0, 0, 128⟩).2.2 (by decide) (by decide) (by decide) (by decide),
    by decide, by decide,
    (fill_clipped console23 (by decide) ⟨1, 0, 1, 2⟩ 88 ⟨255, 255, 255, 255⟩
      ⟨0, 0, 0, 128⟩).2.2 (by decide) (by decide) (by decide) (by decide)⟩

/-- C6 fails on the code: on the default 30 x 40 console, `fill` of the rectangle
`(x,y,w,h) = (0,29,1,2)` passes its range check and then accesses `buffer[30][0]`, a row
index that is not below `cellRows = 30`; the access is outside the buffer. -/
theorem fill_reads_outside_buffer :
    console3040.cellRows = 30 ∧ console3040.cellCols = 40 ∧ console3040.wf ∧
      (30, 0) ∈ console3040.fillAccesses ⟨0, 29, 1, 2⟩ ∧
      console3040.cellAt 30 0 = none ∧
      console3040.fill ⟨0, 29, 1, 2⟩ 88 ⟨255, 255, 255, 255⟩ ⟨0, 0, 0, 255⟩ = none := by
  decide

/-! ### write -/

/-- After a sequence of in-range `draw` calls on pairwise different cells, each of them holds
the painting of what it held before. -/
theorem RCEngine.draws_at {α : Type} (cell : α → Int × Int) (glyph : α → Uint8)
    (fg bg : SDL_Color) (l : List α) :
    ∀ (e e' : RCEngine), (l.map cell).Nodup →
      (∀ a ∈ l, (0 ≤ (cell a).1 ∧ (cell a).1 < e.cellCols) ∧
        (0 ≤ (cell a).2 ∧ (cell a).2 < e.cellRows)) →
      l.foldlM (fun s a => s.draw (cell a).1 (cell a).2 (glyph a) fg bg) e = some e' →
      ∀ a ∈ l, e'.cellAt (cell a).2 (cell a).1 =
        (e.cellAt (cell a).2 (cell a).1).map (fun c => c.paint (glyph a) fg bg) := by
  induction l with
  | nil => intro e e' _ _ _ a ha; cases ha
  | cons p l ih =>
    intro e e' hnd hl h a ha
    simp only [List.foldlM_cons, Option.bind_eq_bind, Option.bind_eq_some] at h
    obtain ⟨s, hs, hrest⟩ := h
    rw [List.map_cons, List.nodup_cons] at hnd
    obtain ⟨hr1, hc1, hf1⟩ := e.draw_frame s (cell p).1 (cell p).2 (glyph p) fg bg hs
    have hp := hl p (List.mem_cons_self _ _)
    rw [e.draw_eq_modifyCell _ _ _ _ _ hp.1 hp.2] at hs
    by_cases hcell : cell a = cell p
    · -- the cell of `a` is the first one drawn; no later call names it
      have hlater : ∀ b ∈ l, cell b ≠ ((cell a).1, (cell a).2) := by
        intro b hb hbc
        apply hnd.1
        rw [← hcell]
        exact List.mem_map.mpr ⟨b, hb, hbc⟩
      rw [(RCEngine.draws_frame cell glyph fg bg l s e' hrest).2.2 _ _ hlater,
        e.cellAt_modifyCell s _ _ _ hs, hcell, if_pos ⟨rfl, rfl⟩]
      rcases List.mem_cons.mp ha with rfl | hal
      · rfl
      · exfalso
        apply hnd.1
        rw [← hcell]
        exact List.mem_map.mpr ⟨a, hal, rfl⟩
    · have hal : a ∈ l := by
        rcases List.mem_cons.mp ha with rfl | hal
        · exact absurd rfl hcell
        · exact hal
      have hl' : ∀ b ∈ l, (0 ≤ (cell b).1 ∧ (cell b).1 < s.cellCols) ∧
          (0 ≤ (cell b).2 ∧ (cell b).2 < s.cellRows) := by
        intro b hb
        rw [hr1, hc1]
        exact hl b (List.mem_cons_of_mem _ hb)
      rw [ih s e' hnd.2 hl' hrest a hal, hf1]
      intro hh
      apply hcell
      exact Prod.ext hh.2 hh.1

/-- One cycle from a state in which `hold` equals the previous raw sample. -/
theorem KeyChannel.cycle_spec (c : KeyChannel) (down : Bool)
    (h : c.keyState.hold = c.prevKeyInput) :
    (c.cycle down).keyState =
        ⟨down && !c.prevKeyInput, !down && c.prevKeyInput, down⟩ ∧
      (c.cycle down).prevKeyInput = down ∧
      (c.cycle down).keyState.hold = (c.cycle down).prevKeyInput := by
  obtain ⟨ki, prev, ⟨p, r, hold⟩⟩ := c
  simp only at h
  subst h
  cases down <;> cases hold <;> simp [KeyChannel.cycle, KeyChannel.update]

theorem KeyChannel.run_length (samples : List Bool) :
    ∀ c : KeyChannel, (c.run samples).length = samples.length := by
  induction samples with
  | nil => intro c; rfl
  | cons d rest ih => intro c; simp [KeyChannel.run, ih]

theorem KeyChannel.run_spec (samples : List Bool) :
    ∀ (c : KeyChannel), c.keyState.hold = c.prevKeyInput →
      ∀ k, k < samples.length →
        (c.run samples)[k]? = some
          ⟨samples.getD k false &&
              !(if k = 0 then c.prevKeyInput else samples.getD (k - 1) false),
            !samples.getD k false &&
              (if k = 0 then c.prevKeyInput else samples.getD (k - 1) false),
            samples.getD k false⟩ := by
  induction samples with
  | nil => intro c _ k hk; cases hk
  | cons d rest ih =>
    intro c hc k hk
    obtain ⟨hst, hprev, hinv⟩ := c.cycle_spec d hc
    cases k with
    | zero =>
      simp only [KeyChannel.run, List.getElem?_cons_zero, hst]
      simp
    | succ k =>
      have hk' : k < rest.length := by simpa using hk
      simp only [KeyChannel.run, List.getElem?_cons_succ]
      rw [ih (c.cycle d) hinv k hk', hprev]
      cases k with
      | zero => simp
      | succ k => simp

/-- C8. From the initial state (all `false`), for every sequence of raw samples of one key and
every cycle `k`: `pressed` holds iff the sample is down and the previous sample was up,
`released` holds iff the sample is up and the previous sample was down, and `hold` holds iff
the sample is down.  The samples `[F,T,T,F]` give `pressed = [F,T,F,F]`, `hold = [F,T,T,F]`,
`released = [F,F,F,T]`. -/
theorem key_edge_detection :
    (∀ (samples : List Bool),
      (KeyChannel.init.run samples).length = samples.length ∧
      ∀ k, k < samples.length → ∃ st, (KeyChannel.init.run samples)[k]? = some st ∧
        (st.pressed = true ↔ samples.getD k false = true ∧ prevSample samples k = false) ∧
        (st.released = true ↔ samples.getD k false = false ∧ prevSample samples k = true) ∧
        (st.hold = true ↔ samples.getD k false = true)) ∧
    (KeyChannel.init.run [false, true, true, false]).map KeyState.pressed =
      [false, true, false, false] ∧
    (KeyChannel.init.run [false, true, true, false]).map KeyState.hold =
      [false, true, true, false] ∧
    (KeyChannel.init.run [false, true, true, false]).map KeyState.released =
      [false, false, false, true] := by
  refine ⟨?_, by decide, by decide, by decide⟩
  intro samples
  refine ⟨KeyChannel.run_length samples _, ?_⟩
  intro k hk
  refine ⟨_, KeyChannel.run_spec samples KeyChannel.init rfl k hk, ?_⟩
  have hprev : (if k = 0 then KeyChannel.init.prevKeyInput else samples.getD (k - 1) false) =
      prevSample samples k := rfl
  rw [hprev]
  cases samples.getD k false <;> cases prevSample samples k <;> simp

/-! ### drawLine: the Bresenham loop -/

theorem bresenhamPlots_stop (x2 y2 dx dy sx sy : Int) (fuel : Nat) (err : Int) :
    bresenhamPlots x2 y2 dx dy sx sy (fuel + 1) x2 y2 err = some [(x2, y2)] := by
  simp [bresenhamPlots]

theorem bresenhamPlots_step (x2 y2 dx dy sx sy : Int) (fuel : Nat) (x y err : Int)
    (h : ¬ (x = x2 ∧ y = y2)) :
    bresenhamPlots x2 y2 dx dy sx sy (fuel + 1) x y err =
      (bresenhamPlots x2 y2 dx dy sx sy fuel
        (if 2 * err ≥ dy then x + sx else x)
        (if 2 * err ≤ dx then y + sy else y)
        (if 2 * err ≤ dx then (if 2 * err ≥ dy then err + dy else err) + dx
          else (if 2 * err ≥ dy then err + dy else err))).map (fun l => (x, y) :: l) := by
  rw [bresenhamPlots, if_neg h]
  dsimp only
  by_cases h1 : 2 * err ≥ dy <;> by_cases h2 : 2 * err ≤ dx <;> simp only [h1, h2, if_true, if_false]

/-- What one more plotted cell in front adds to the properties of a plotted path. -/
theorem path_cons (x y x' y' x2 y2 : Int) (l : List (Int × Int)) (n : ℕ)
    (hlen : l.length = n + 1) (hhead : l.head? = some (x', y'))
    (hlast : l.getLast? = some (x2, y2))
    (hnd : l.Nodup) (hch : l.Chain' (fun p q => |q.1 - p.1| ≤ 1 ∧ |q.2 - p.2| ≤ 1))
    (hnotin : (x, y) ∉ l) (hstep : |x' - x| ≤ 1 ∧ |y' - y| ≤ 1) :
    ((x, y) :: l).length = (n + 1) + 1 ∧ ((x, y) :: l).head? = some (x, y) ∧
      ((x, y) :: l).getLast? = some (x2, y2) ∧ ((x, y) :: l).Nodup ∧
      ((x, y) :: l).Chain' (fun p q => |q.1 - p.1| ≤ 1 ∧ |q.2 - p.2| ≤ 1) := by
  refine ⟨by simp [hlen], rfl, ?_, List.nodup_cons.mpr ⟨hnotin, hnd⟩, ?_⟩
  · cases l with
    | nil => simp at hlen
    | cons q l => rw [List.getLast?_cons_cons]; exact hlast
  · rw [List.chain'_cons']
    refine ⟨?_, hch⟩
    intro q hq
    rw [hhead] at hq
    simp only [Option.mem_def, Option.some.injEq] at hq
    subst hq
    exact hstep

theorem abs_step_le_one (s : Int) (hs : s = 1 ∨ s = -1) (x : Int) : |x + s - x| ≤ 1 := by
  rcases hs with rfl | rfl <;> simp

/-- The loop of `drawLine` when the line is at least as wide as high (`D ≤ dx`): from a state
`n` columns away from the end it plots `n + 1` cells, one in each column. -/
theorem bresenhamPlots_xmajor (x2 y2 dx D sx sy : Int) (hsx : sx = 1 ∨ sx = -1)
    (hsy : sy = 1 ∨ sy = -1) (hD : 0 < D) (hdx : D ≤ dx) :
    ∀ (n fuel : ℕ) (x y err : Int), n < fuel → sx * (x2 - x) = n →
      err = dx - D + n * D - (sy * (y2 - y)) * dx → -D ≤ 2 * err → 2 * err ≤ 3 * dx - 2 * D →
      ∃ l, bresenhamPlots x2 y2 dx (-D) sx sy fuel x y err = some l ∧
        (∀ p ∈ l, sx * (x2 - p.1) ≤ n) ∧
        l.length = n + 1 ∧ l.head? = some (x, y) ∧ l.getLast? = some (x2, y2) ∧ l.Nodup ∧
        l.Chain' (fun p q => |q.1 - p.1| ≤ 1 ∧ |q.2 - p.2| ≤ 1) := by
  have hsx2 : sx * sx = 1 := by rcases hsx with rfl | rfl <;> rfl
  have hsy2 : sy * sy = 1 := by rcases hsy with rfl | rfl <;> rfl
  intro n
  induction n with
  | zero =>
    intro fuel x y err hfuel hx herr hlo hhi
    obtain ⟨f, rfl⟩ : ∃ f, fuel = f + 1 := ⟨fuel - 1, by omega⟩
    have hxe : x = x2 := by
      rcases hsx with rfl | rfl <;> simp at hx <;> omega
    have hb : sy * (y2 - y) = 0 := by
      simp only [Nat.cast_zero, zero_mul, add_zero] at herr
      rcases lt_trichotomy (sy * (y2 - y)) 0 with hneg | hz | hpos
      · exfalso
        have := mul_le_mul_of_nonneg_right (show sy * (y2 - y) ≤ -1 by omega)
          (show (0 : Int) ≤ dx by omega)
        linarith
      · exact hz
      · exfalso
        have := mul_le_mul_of_nonneg_right (show 1 ≤ sy * (y2 - y) by omega)
          (show (0 : Int) ≤ dx by omega)
        linarith
    have hye : y = y2 := by
      rcases hsy with rfl | rfl <;> simp at hb <;> omega
    subst hxe hye
    refine ⟨[(x, y)], bresenhamPlots_stop _ _ _ _ _ _ _ _, ?_, rfl, rfl, rfl, by simp, by simp⟩
    intro p hp
    simp only [List.mem_singleton] at hp
    subst hp
    simp
  | succ n ih =>
    intro fuel x y err hfuel hx herr hlo hhi
    obtain ⟨f, rfl⟩ : ∃ f, fuel = f + 1 := ⟨fuel - 1, by omega⟩
    have hne : ¬ (x = x2 ∧ y = y2) := by
      rintro ⟨rfl, -⟩
      simp at hx
      omega
    rw [bresenhamPlots_step _ _ _ _ _ _ _ _ _ _ hne]
    have h1 : 2 * err ≥ -D := hlo
    rw [if_pos h1, if_pos h1]
    have hx' : sx * (x2 - (x + sx)) = n := by
      push_cast at hx
      linear_combination hx - hsx2
    push_cast at herr
    by_cases h2 : 2 * err ≤ dx
    · rw [if_pos h2, if_pos h2]
      obtain ⟨l, hl, hmem, hlen, hhead, hlast, hnd, hch⟩ :=
        ih f (x + sx) (y + sy) (err + -D + dx) (by omega) hx'
          (by linear_combination herr - dx * hsy2) (by linarith) (by linarith)
      refine ⟨(x, y) :: l, by rw [hl]; rfl, ?_, ?_⟩
      · intro p hp
        rcases List.mem_cons.mp hp with rfl | hp
        · simp only; omega
        · have := hmem p hp
          omega
      · refine path_cons x y (x + sx) (y + sy) x2 y2 l n hlen hhead hlast hnd hch ?_
          ⟨abs_step_le_one sx hsx x, abs_step_le_one sy hsy y⟩
        intro hin
        have := hmem _ hin
        simp only at this
        omega
    · rw [if_neg h2, if_neg h2]
      obtain ⟨l, hl, hmem, hlen, hhead, hlast, hnd, hch⟩ :=
        ih f (x + sx) y (err + -D) (by omega) hx'
          (by linear_combination herr) (by linarith) (by linarith)
      refine ⟨(x, y) :: l, by rw [hl]; rfl, ?_, ?_⟩
      · intro p hp
        rcases List.mem_cons.mp hp with rfl | hp
        · simp only; omega
        · have := hmem p hp
          omega
      · refine path_cons x y (x + sx) y x2 y2 l n hlen hhead hlast hnd hch ?_
          ⟨abs_step_le_one sx hsx x, by simp⟩
        intro hin
        have := hmem _ hin
        simp only at this
        omega

/-- The loop of `drawLine` when the line is at least as high as wide (`dx ≤ D`): from a state
`n` rows away from the end it plots `n + 1` cells, one in each row. -/
theorem bresenhamPlots_ymajor (x2 y2 dx D sx sy : Int) (hsx : sx = 1 ∨ sx = -1)
    (hsy : sy = 1 ∨ sy = -1) (hdx : 0 < dx) (hD : dx ≤ D) :
    ∀ (n fuel : ℕ) (x y err : Int), n < fuel → sy * (y2 - y) = n →
      err = dx - D + (sx * (x2 - x)) * D - n * dx → 2 * err ≤ dx → 2 * dx - 3 * D ≤ 2 * err →
      ∃ l, bresenhamPlots x2 y2 dx (-D) sx sy fuel x y err = some l ∧
        (∀ p ∈ l, sy * (y2 - p.2) ≤ n) ∧
        l.length = n + 1 ∧ l.head? = some (x, y) ∧ l.getLast? = some (x2, y2) ∧ l.Nodup ∧
        l.Chain' (fun p q => |q.1 - p.1| ≤ 1 ∧ |q.2 - p.2| ≤ 1) := by
  have hsx2 : sx * sx = 1 := by rcases hsx with rfl | rfl <;> rfl
  have hsy2 : sy * sy = 1 := by rcases hsy with rfl | rfl <;> rfl
  intro n
  induction n with
  | zero =>
    intro fuel x y err hfuel hy herr hhi hlo
    obtain ⟨f, rfl⟩ : ∃ f, fuel = f + 1 := ⟨fuel - 1, by omega⟩
    have hye : y = y2 := by
      rcases hsy with rfl | rfl <;> simp at hy <;> omega
    have ha : sx * (x2 - x) = 0 := by
      simp only [Nat.cast_zero, zero_mul, sub_zero] at herr
      rcases lt_trichotomy (sx * (x2 - x)) 0 with hneg | hz | hpos
      · exfalso
        have := mul_le_mul_of_nonneg_right (show sx * (x2 - x) ≤ -1 by omega)
          (show (0 : Int) ≤ D by omega)
        linarith
      · exact hz
      · exfalso
        have := mul_le_mul_of_nonneg_right (show 1 ≤ sx * (x2 - x) by omega)
          (show (0 : Int) ≤ D by omega)
        linarith
    have hxe : x = x2 := by
      rcases hsx with rfl | rfl <;> simp at ha <;> omega
    subst hxe hye
    refine ⟨[(x, y)], bresenhamPlots_stop _ _ _ _ _ _ _ _, ?_, rfl, rfl, rfl, by simp, by simp⟩
    intro p hp
    simp only [List.mem_singleton] at hp
    subst hp
    simp
  | succ n ih =>
    intro fuel x y err hfuel hy herr hhi hlo
    obtain ⟨f, rfl⟩ : ∃ f, fuel = f + 1 := ⟨fuel - 1, by omega⟩
    have hne : ¬ (x = x2 ∧ y = y2) := by
      rintro ⟨-, rfl⟩
      simp at hy
      omega
    rw [bresenhamPlots_step _ _ _ _ _ _ _ _ _ _ hne]
    have h2 : 2 * err ≤ dx := hhi
    rw [if_pos h2, if_pos h2]
    have hy' : sy * (y2 - (y + sy)) = n := by
      push_cast at hy
      linear_combination hy - hsy2
    push_cast at herr
    by_cases h1 : 2 * err ≥ -D
    · rw [if_pos h1, if_pos h1]
      obtain ⟨l, hl, hmem, hlen, hhead, hlast, hnd, hch⟩ :=
        ih f (x + sx) (y + sy) (err + -D + dx) (by omega) hy'
          (by linear_combination herr + D * hsx2) (by linarith) (by linarith)
      refine ⟨(x, y) :: l, by rw [hl]; rfl, ?_, ?_⟩
      · intro p hp
        rcases List.mem_cons.mp hp with rfl | hp
        · simp only; omega
        · have := hmem p hp
          omega
      · refine path_cons x y (x + sx) (y + sy) x2 y2 l n hlen hhead hlast hnd hch ?_
          ⟨abs_step_le_one sx hsx x, abs_step_le_one sy hsy y⟩
        intro hin
        have := hmem _ hin
        simp only at this
        omega
    · rw [if_neg h1, if_neg h1]
      obtain ⟨l, hl, hmem, hlen, hhead, hlast, hnd, hch⟩ :=
        ih f x (y + sy) (err + dx) (by omega) hy'
          (by linear_combination herr) (by linarith) (by linarith)
      refine ⟨(x, y) :: l, by rw [hl]; rfl, ?_, ?_⟩
      · intro p hp
        rcases List.mem_cons.mp hp with rfl | hp
        · simp only; omega
        · have := hmem p hp
          omega
      · refine path_cons x y x (y + sy) x2 y2 l n hlen hhead hlast hnd hch ?_
          ⟨by simp, abs_step_le_one sy hsy y⟩
        intro hin
        have := hmem _ hin
        simp only at this
        omega

/-- The general branch of `drawLinePlots`. -/
theorem drawLinePlots_general (fuel : Nat) (x1 y1 x2 y2 : Int) (hx : x1 ≠ x2) (hy : y1 ≠ y2) :
    drawLinePlots fuel x1 y1 x2 y2 =
      bresenhamPlots x2 y2 |x2 - x1| (-|y2 - y1|)
        (if x1 < x2 then 1 else -1) (if y1 < y2 then 1 else -1) fuel x1 y1
        (|x2 - x1| + -|y2 - y1|) := by
  unfold drawLinePlots
  dsimp only
  have hdx : ¬ |x2 - x1| = 0 := by
    rw [abs_eq_zero]; omega
  have hdy : ¬ -|y2 - y1| = 0 := by
    rw [neg_eq_zero, abs_eq_zero]; omega
  rw [if_neg hdx, if_neg hdy]

theorem RCEngine.bresenham_step (ch : Uint8) (fg bg : SDL_Color)
    (x2 y2 dx dy sx sy : Int) (fuel : Nat) (e : RCEngine) (x y err : Int) :
    RCEngine.bresenham ch fg bg x2 y2 dx dy sx sy (fuel + 1) e x y err =
      (e.draw x y ch fg bg).bind (fun s =>
        if x = x2 ∧ y = y2 then some s
        else RCEngine.bresenham ch fg bg x2 y2 dx dy sx sy fuel s
          (if 2 * err ≥ dy then x + sx else x)
          (if 2 * err ≤ dx then y + sy else y)
          (if 2 * err ≤ dx then (if 2 * err ≥ dy then err + dy else err) + dx
            else (if 2 * err ≥ dy then err + dy else err))) := by
  rw [RCEngine.bresenham]
  by_cases h1 : 2 * err ≥ dy <;> by_cases h2 : 2 * err ≤ dx <;>
    simp only [h1, h2, if_true, if_false]

/-- The loop of `drawLine` is `draw` applied along the plotted cells. -/
theorem RCEngine.bresenham_eq_plots (ch : Uint8) (fg bg : SDL_Color)
    (x2 y2 dx dy sx sy : Int) (fuel : Nat) :
    ∀ (e : RCEngine) (x1 y1 err : Int),
      RCEngine.bresenham ch fg bg x2 y2 dx dy sx sy fuel e x1 y1 err =
        (bresenhamPlots x2 y2 dx dy sx sy fuel x1 y1 err).bind
          (fun cells => cells.foldlM (fun s p => s.draw p.1 p.2 ch fg bg) e) := by
  induction fuel with
  | zero => intro e x1 y1 err; rfl
  | succ fuel ih =>
    intro e x1 y1 err
    rw [RCEngine.bresenham_step]
    by_cases hend : x1 = x2 ∧ y1 = y2
    · obtain ⟨rfl, rfl⟩ := hend
      rw [bresenhamPlots_stop]
      simp only [and_self, if_true, Option.some_bind, List.foldlM_cons, List.foldlM_nil,
        Option.bind_eq_bind, Option.pure_def]
    · rw [bresenhamPlots_step _ _ _ _ _ _ _ _ _ _ hend]
      simp only [if_neg hend, ih]
      generalize (if 2 * err ≥ dy then x1 + sx else x1) = X
      generalize (if 2 * err ≤ dx then y1 + sy else y1) = Y
      generalize (if 2 * err ≤ dx then (if 2 * err ≥ dy then err + dy else err) + dx
            else (if 2 * err ≥ dy then err + dy else err)) = E
      cases bresenhamPlots x2 y2 dx dy sx sy fuel X Y E with
      | none =>
        simp only [Option.map_none', Option.none_bind]
        cases e.draw x1 y1 ch fg bg <;> rfl
      | some l =>
        simp only [Option.map_some', Option.some_bind, List.foldlM_cons, Option.bind_eq_bind]

/-! ### drawLine: the plotted cells -/

theorem drawLinePlots_vertical (fuel : Nat) (x1 y1 x2 y2 : Int) (hx : x1 = x2) :
    drawLinePlots fuel x1 y1 x2 y2 =
      some ((loopRange (min y1 y2) (max y1 y2 + 1)).map (fun y => (x1, y))) := by
  unfold drawLinePlots
  dsimp only
  have hdx : |x2 - x1| = 0 := by rw [hx]; simp
  rw [if_pos hdx]
  by_cases hy : y1 > y2
  · rw [if_pos hy, if_pos hy, min_eq_right (le_of_lt hy), max_eq_left (le_of_lt hy)]
  · rw [if_neg hy, if_neg hy, min_eq_left (not_lt.mp hy), max_eq_right (not_lt.mp hy)]

theorem drawLinePlots_horizontal (fuel : Nat) (x1 y1 x2 y2 : Int) (hx : x1 ≠ x2)
    (hy : y1 = y2) :
    drawLinePlots fuel x1 y1 x2 y2 =
      some ((loopRange (min x1 x2) (max x1 x2 + 1)).map (fun x => (x, y1))) := by
  unfold drawLinePlots
  dsimp only
  have hdx : ¬ |x2 - x1| = 0 := by
    rw [abs_eq_zero]; omega
  have hdy : -|y2 - y1| = 0 := by rw [hy]; simp
  rw [if_neg hdx, if_pos hdy]
  by_cases hlt : x1 > x2
  · rw [if_pos hlt, if_pos hlt, min_eq_right (le_of_lt hlt), max_eq_left (le_of_lt hlt)]
  · rw [if_neg hlt, if_neg hlt, min_eq_left (not_lt.mp hlt), max_eq_right (not_lt.mp hlt)]

/-- With both endpoints in range, `drawLine` is `draw` applied along `drawLinePlots`. -/
theorem RCEngine.drawLine_eq_plots (fuel : Nat) (e : RCEngine) (x1 y1 x2 y2 : Int)
    (ch : Uint8) (fg bg : SDL_Color)
    (hg : 0 ≤ x1 ∧ x1 < e.cellCols ∧ 0 ≤ y1 ∧ y1 < e.cellRows
      ∧ 0 ≤ x2 ∧ x2 < e.cellCols ∧ 0 ≤ y2 ∧ y2 < e.cellRows) :
    RCEngine.drawLine fuel e x1 y1 x2 y2 ch fg bg =
      (drawLinePlots fuel x1 y1 x2 y2).bind
        (fun cells => cells.foldlM (fun s p => s.draw p.1 p.2 ch fg bg) e) := by
  by_cases hx : x1 = x2
  · rw [RCEngine.drawLine_vertical fuel e x1 y1 x2 y2 ch fg bg hg hx,
      drawLinePlots_vertical fuel x1 y1 x2 y2 hx, Option.some_bind, foldlM_map_option]
  · by_cases hy : y1 = y2
    · rw [RCEngine.drawLine_horizontal fuel e x1 y1 x2 y2 ch fg bg hg hx hy,
        drawLinePlots_horizontal fuel x1 y1 x2 y2 hx hy, Option.some_bind, foldlM_map_option]
    · rw [RCEngine.drawLine_general fuel e x1 y1 x2 y2 ch fg bg hg hx hy,
        drawLinePlots_general fuel x1 y1 x2 y2 hx hy, RCEngine.bresenham_eq_plots]

/-- A sequence of `draw` calls on pairwise different in-range cells of a well-formed engine
succeeds, paints each of the cells once and keeps all the others. -/
theorem RCEngine.draws_cells (e : RCEngine) (hwf : e.wf) (ch : Uint8) (fg bg : SDL_Color)
    (cells : List (Int × Int)) (hnd : cells.Nodup)
    (hin : ∀ p ∈ cells, (0 ≤ p.1 ∧ p.1 < e.cellCols) ∧ (0 ≤ p.2 ∧ p.2 < e.cellRows)) :
    ∃ e', cells.foldlM (fun s p => s.draw p.1 p.2 ch fg bg) e = some e' ∧
      (∀ p ∈ cells, e'.cellAt p.2 p.1 = (e.cellAt p.2 p.1).map (fun c => c.paint ch fg bg)) ∧
      (∀ cx cy, (cx, cy) ∉ cells → e'.cellAt cy cx = e.cellAt cy cx) := by
  obtain ⟨e', he', -⟩ := RCEngine.draws_some (fun p : Int × Int => p) (fun _ => ch) fg bg
    e hwf cells hin
  refine ⟨e', he', ?_, ?_⟩
  · exact RCEngine.draws_at (fun p : Int × Int => p) (fun _ => ch) fg bg cells e e'
      (by simpa using hnd) hin he'
  · intro cx cy hnot
    refine (RCEngine.draws_frame (fun p : Int × Int => p) (fun _ => ch) fg bg _ e e' he').2.2
      cy cx ?_
    intro a ha hcell
    exact hnot (hcell ▸ ha)

/-- C9. For in-range endpoints of a well-formed grid that share a column (`x1 = x2`) or a row
(`y1 = y2`), in either order and for every iteration budget: the cells `drawLine` passes to
`draw` are, once each, exactly the cells of the inclusive segment between the endpoints;
`drawLine` succeeds, equals `draw` applied to these cells, paints each of them once and leaves
every other cell as it was. -/
theorem drawLine_straight (fuel : Nat) (e : RCEngine) (hwf : e.wf) (x1 y1 x2 y2 : Int)
    (h1 : (0 ≤ x1 ∧ x1 < e.cellCols) ∧ (0 ≤ y1 ∧ y1 < e.cellRows))
    (h2 : (0 ≤ x2 ∧ x2 < e.cellCols) ∧ (0 ≤ y2 ∧ y2 < e.cellRows))
    (hs : x1 = x2 ∨ y1 = y2) (ch : Uint8) (fg bg : SDL_Color) :
    ∃ cells, drawLinePlots fuel x1 y1 x2 y2 = some cells ∧ cells.Nodup ∧
      (∀ cx cy, (cx, cy) ∈ cells ↔
        (min x1 x2 ≤ cx ∧ cx ≤ max x1 x2) ∧ (min y1 y2 ≤ cy ∧ cy ≤ max y1 y2)) ∧
      RCEngine.drawLine fuel e x1 y1 x2 y2 ch fg bg =
        cells.foldlM (fun s p => s.draw p.1 p.2 ch fg bg) e ∧
      ∃ e', RCEngine.drawLine fuel e x1 y1 x2 y2 ch fg bg = some e' ∧
        (∀ p ∈ cells, e'.cellAt p.2 p.1 =
          (e.cellAt p.2 p.1).map (fun c => c.paint ch fg bg)) ∧
        (∀ cx cy, (cx, cy) ∉ cells → e'.cellAt cy cx = e.cellAt cy cx) := by
  have hg : 0 ≤ x1 ∧ x1 < e.cellCols ∧ 0 ≤ y1 ∧ y1 < e.cellRows
      ∧ 0 ≤ x2 ∧ x2 < e.cellCols ∧ 0 ≤ y2 ∧ y2 < e.cellRows :=
    ⟨h1.1.1, h1.1.2, h1.2.1, h1.2.2, h2.1.1, h2.1.2, h2.2.1, h2.2.2⟩
  have hlink := RCEngine.drawLine_eq_plots fuel e x1 y1 x2 y2 ch fg bg hg
  obtain ⟨cells, hplots, hnd, hmem⟩ : ∃ cells, drawLinePlots fuel x1 y1 x2 y2 = some cells ∧
      cells.Nodup ∧ (∀ cx cy, (cx, cy) ∈ cells ↔
        (min x1 x2 ≤ cx ∧ cx ≤ max x1 x2) ∧ (min y1 y2 ≤ cy ∧ cy ≤ max y1 y2)) := by
    by_cases hx : x1 = x2
    · refine ⟨_, drawLinePlots_vertical fuel x1 y1 x2 y2 hx, ?_, ?_⟩
      · refine List.Nodup.map ?_ (loopRange_nodup _ _)
        intro a b hab
        simp only [Prod.mk.injEq] at hab
        exact hab.2
      · intro cx cy
        simp only [List.mem_map, mem_loopRange, Prod.mk.injEq]
        constructor
        · rintro ⟨y, hy, rfl, rfl⟩
          omega
        · intro h
          exact ⟨cy, by omega, by omega, rfl⟩
    · have hy : y1 = y2 := hs.resolve_left hx
      refine ⟨_, drawLinePlots_horizontal fuel x1 y1 x2 y2 hx hy, ?_, ?_⟩
      · refine List.Nodup.map ?_ (loopRange_nodup _ _)
        intro a b hab
        simp only [Prod.mk.injEq] at hab
        exact hab.1
      · intro cx cy
        simp only [List.mem_map, mem_loopRange, Prod.mk.injEq]
        constructor
        · rintro ⟨x, hx', rfl, rfl⟩
          omega
        · intro h
          exact ⟨cx, by omega, rfl, by omega⟩
  rw [hplots, Option.some_bind] at hlink
  have hin : ∀ p ∈ cells, (0 ≤ p.1 ∧ p.1 < e.cellCols) ∧ (0 ≤ p.2 ∧ p.2 < e.cellRows) := by
    rintro ⟨cx, cy⟩ hp
    rw [hmem] at hp
    simp only
    omega
  obtain ⟨e', he', hpaint, hframe⟩ := e.draws_cells hwf ch fg bg cells hnd hin
  exact ⟨cells, hplots, hnd, hmem, hlink, e', hlink.trans he', hpaint, hframe⟩

/-- C9 on the default 30 x 40 console: `drawLine(0,0,4,0)` draws exactly the five cells
`(0,0)..(4,0)`, and `drawLine(2,2,2,2)` exactly the cell `(2,2)`. -/
theorem drawLine_straight_witness :
    drawLinePlots 0 0 0 4 0 = some [(0, 0), (1, 0), (2, 0), (3, 0), (4, 0)] ∧
    drawLinePlots 0 2 2 2 2 = some [(2, 2)] ∧
    (∃ cells, drawLinePlots 0 0 0 4 0 = some cells ∧ cells.Nodup ∧
      (∀ cx cy, (cx, cy) ∈ cells ↔
        (min 0 4 ≤ cx ∧ cx ≤ max 0 4) ∧ (min 0 0 ≤ cy ∧ cy ≤ max 0 0)) ∧
      RCEngine.drawLine 0 console3040 0 0 4 0 88 ⟨255, 255, 255, 255⟩ ⟨0, 0, 0, 255⟩ =
        cells.foldlM (fun s p => s.draw p.1 p.2 88 ⟨255, 255, 255, 255⟩ ⟨0, 0, 0, 255⟩)
          console3040 ∧
      ∃ e', RCEngine.drawLine 0 console3040 0 0 4 0 88 ⟨255, 255, 255, 255⟩ ⟨0, 0, 0, 255⟩ =
          some e' ∧
        (∀ p ∈ cells, e'.cellAt p.2 p.1 = (console3040.cellAt p.2 p.1).map
          (fun c => c.paint 88 ⟨255, 255, 255, 255⟩ ⟨0, 0, 0, 255⟩)) ∧
        (∀ cx cy, (cx, cy) ∉ cells → e'.cellAt cy cx = console3040.cellAt cy cx)) :=
  ⟨by decide, by decide,
    drawLine_straight 0 console3040 (by decide) 0 0 4 0 (by decide) (by decide)
      (Or.inr rfl) 88 ⟨255, 255, 255, 255⟩ ⟨0, 0, 0, 255⟩⟩

/-- The cells of the general branch of `drawLine`, for any two endpoints that differ in both
coordinates, given more iterations than `max |x2 - x1| |y2 - y1|`. -/
theorem drawLinePlots_path (fuel : Nat) (x1 y1 x2 y2 : Int) (hx : x1 ≠ x2) (hy : y1 ≠ y2)
    (hfuel : max |x2 - x1| |y2 - y1| < fuel) :
    ∃ cells, drawLinePlots fuel x1 y1 x2 y2 = some cells ∧
      cells.head? = some (x1, y1) ∧ cells.getLast? = some (x2, y2) ∧
      (cells.length : Int) = max |x2 - x1| |y2 - y1| + 1 ∧ cells.Nodup ∧
      cells.Chain' (fun p q => |q.1 - p.1| ≤ 1 ∧ |q.2 - p.2| ≤ 1) := by
  rw [drawLinePlots_general fuel x1 y1 x2 y2 hx hy]
  have hdx : 0 < |x2 - x1| := abs_pos.mpr (by omega)
  have hdy : 0 < |y2 - y1| := abs_pos.mpr (by omega)
  have hsx : (if x1 < x2 then (1 : Int) else -1) = 1 ∨ (if x1 < x2 then (1 : Int) else -1) = -1 := by
    by_cases h : x1 < x2
    · rw [if_pos h]; exact Or.inl rfl
    · rw [if_neg h]; exact Or.inr rfl
  have hsy : (if y1 < y2 then (1 : Int) else -1) = 1 ∨ (if y1 < y2 then (1 : Int) else -1) = -1 := by
    by_cases h : y1 < y2
    · rw [if_pos h]; exact Or.inl rfl
    · rw [if_neg h]; exact Or.inr rfl
  have hax : (if x1 < x2 then (1 : Int) else -1) * (x2 - x1) = |x2 - x1| := by
    by_cases h : x1 < x2
    · rw [if_pos h, abs_of_pos (by omega)]; ring
    · rw [if_neg h, abs_of_neg (by omega)]; ring
  have hay : (if y1 < y2 then (1 : Int) else -1) * (y2 - y1) = |y2 - y1| := by
    by_cases h : y1 < y2
    · rw [if_pos h, abs_of_pos (by omega)]; ring
    · rw [if_neg h, abs_of_neg (by omega)]; ring
  generalize (if x1 < x2 then (1 : Int) else -1) = sx at hsx hax
  generalize (if y1 < y2 then (1 : Int) else -1) = sy at hsy hay
  generalize |x2 - x1| = dx at hdx hax hfuel
  generalize |y2 - y1| = D at hdy hay hfuel
  by_cases hmajor : D ≤ dx
  · have hmax : max dx D = dx := max_eq_left hmajor
    rw [hmax] at hfuel ⊢
    obtain ⟨l, hl, -, hlen, hhead, hlast, hnd, hch⟩ :=
      bresenhamPlots_xmajor x2 y2 dx D sx sy hsx hsy hdy hmajor dx.toNat fuel x1 y1 (dx + -D)
        (by omega) (by rw [hax]; omega)
        (by rw [hay, Int.toNat_of_nonneg hdx.le]; ring) (by omega) (by omega)
    refine ⟨l, hl, hhead, hlast, ?_, hnd, hch⟩
    rw [hlen]
    push_cast
    rw [Int.toNat_of_nonneg hdx.le]
  · have hmajor' : dx ≤ D := by omega
    have hmax : max dx D = D := max_eq_right hmajor'
    rw [hmax] at hfuel ⊢
    obtain ⟨l, hl, -, hlen, hhead, hlast, hnd, hch⟩ :=
      bresenhamPlots_ymajor x2 y2 dx D sx sy hsx hsy hdx hmajor' D.toNat fuel x1 y1 (dx + -D)
        (by omega) (by rw [hay]; omega)
        (by rw [hax, Int.toNat_of_nonneg hdy.le]; ring) (by omega) (by omega)
    refine ⟨l, hl, hhead, hlast, ?_, hnd, hch⟩
    rw [hlen]
    push_cast
    rw [Int.toNat_of_nonneg hdy.le]

/-- C10. For in-range endpoints with `x1 ≠ x2` and `y1 ≠ y2`, given more loop iterations than
`max |x2-x1| |y2-y1|`: the loop of `drawLine` returns, `drawLine` is `draw` applied along the
returned cells, and the sequence of cells starts at `(x1,y1)`, ends at `(x2,y2)`, has exactly
`max |x2-x1| |y2-y1| + 1` cells, holds no cell twice, and consecutive cells differ by at most
1 in `x` and at most 1 in `y`. -/
theorem drawLine_bresenham_path (fuel : Nat) (e : RCEngine) (x1 y1 x2 y2 : Int)
    (h1 : (0 ≤ x1 ∧ x1 < e.cellCols) ∧ (0 ≤ y1 ∧ y1 < e.cellRows))
    (h2 : (0 ≤ x2 ∧ x2 < e.cellCols) ∧ (0 ≤ y2 ∧ y2 < e.cellRows))
    (hx : x1 ≠ x2) (hy : y1 ≠ y2) (hfuel : max |x2 - x1| |y2 - y1| < fuel)
    (ch : Uint8) (fg bg : SDL_Color) :
    ∃ cells, drawLinePlots fuel x1 y1 x2 y2 = some cells ∧
      RCEngine.drawLine fuel e x1 y1 x2 y2 ch fg bg =
        cells.foldlM (fun s p => s.draw p.1 p.2 ch fg bg) e ∧
      cells.head? = some (x1, y1) ∧ cells.getLast? = some (x2, y2) ∧
      (cells.length : Int) = max |x2 - x1| |y2 - y1| + 1 ∧ cells.Nodup ∧
      cells.Chain' (fun p q => |q.1 - p.1| ≤ 1 ∧ |q.2 - p.2| ≤ 1) := by
  obtain ⟨cells, hplots, hhead, hlast, hlen, hnd, hch⟩ :=
    drawLinePlots_path fuel x1 y1 x2 y2 hx hy hfuel
  have hlink := RCEngine.drawLine_eq_plots fuel e x1 y1 x2 y2 ch fg bg
    ⟨h1.1.1, h1.1.2, h1.2.1, h1.2.2, h2.1.1, h2.1.2, h2.2.1, h2.2.2⟩
  rw [hplots, Option.some_bind] at hlink
  exact ⟨cells, hplots, hlink, hhead, hlast, hlen, hnd, hch⟩

/-- C10 on the default 30 x 40 console: `drawLine(0,0,3,3)` plots the four cells
`(0,0),(1,1),(2,2),(3,3)`. -/
theorem drawLine_bresenham_path_witness :
    drawLinePlots 4 0 0 3 3 = some [(0, 0), (1, 1), (2, 2), (3, 3)] ∧
    (∃ cells, drawLinePlots 4 0 0 3 3 = some cells ∧
      RCEngine.drawLine 4 console3040 0 0 3 3 88 ⟨255, 255, 255, 255⟩ ⟨0, 0, 0, 255⟩ =
        cells.foldlM (fun s p => s.draw p.1 p.2 88 ⟨255, 255, 255, 255⟩ ⟨0, 0, 0, 255⟩)
          console3040 ∧
      cells.head? = some (0, 0) ∧ cells.getLast? = some (3, 3) ∧
      (cells.length : Int) = max |(3 : Int) - 0| |(3 : Int) - 0| + 1 ∧ cells.Nodup ∧
      cells.Chain' (fun p q => |q.1 - p.1| ≤ 1 ∧ |q.2 - p.2| ≤ 1)) :=
  ⟨by decide,
    drawLine_bresenham_path 4 console3040 0 0 3 3 (by decide) (by decide) (by decide)
      (by decide) (by decide) 88 ⟨255, 255, 255, 255⟩ ⟨0, 0, 0, 255⟩⟩

/-! ### drawLine: exchanging the endpoints -/

/-- The loop of `drawLine` run toward the mirrored end cell with the opposite step signs plots
the mirror images `(c - x, d - y)` of the cells, in the same order. -/
theorem bresenhamPlots_reflect (c d x2 y2 dx dy sx sy : Int) (fuel : Nat) :
    ∀ (x y err : Int),
      bresenhamPlots (c - x2) (d - y2) dx dy (-sx) (-sy) fuel (c - x) (d - y) err =
        (bresenhamPlots x2 y2 dx dy sx sy fuel x y err).map
          (fun l => l.map (fun p => (c - p.1, d - p.2))) := by
  induction fuel with
  | zero => intro x y err; rfl
  | succ fuel ih =>
    intro x y err
    by_cases hend : x = x2 ∧ y = y2
    · obtain ⟨rfl, rfl⟩ := hend
      rw [bresenhamPlots_stop, bresenhamPlots_stop]
      rfl
    · have hend' : ¬ (c - x = c - x2 ∧ d - y = d - y2) := by
        rintro ⟨h1, h2⟩
        exact hend ⟨by omega, by omega⟩
      rw [bresenhamPlots_step _ _ _ _ _ _ _ _ _ _ hend,
        bresenhamPlots_step _ _ _ _ _ _ _ _ _ _ hend']
      have hx : (if 2 * err ≥ dy then c - x + -sx else c - x) =
          c - (if 2 * err ≥ dy then x + sx else x) := by
        split_ifs <;> ring
      have hy : (if 2 * err ≤ dx then d - y + -sy else d - y) =
          d - (if 2 * err ≤ dx then y + sy else y) := by
        split_ifs <;> ring
      rw [hx, hy, ih]
      cases bresenhamPlots x2 y2 dx dy sx sy fuel (if 2 * err ≥ dy then x + sx else x)
        (if 2 * err ≤ dx then y + sy else y)
        (if 2 * err ≤ dx then (if 2 * err ≥ dy then err + dy else err) + dx
          else (if 2 * err ≥ dy then err + dy else err)) with
      | none => rfl
      | some l => rfl

/-- In the general branch, the cells of the call with exchanged endpoints are the mirror
images of the cells of the original call through the midpoint of the endpoints. -/
theorem drawLinePlots_swap_general (fuel : Nat) (x1 y1 x2 y2 : Int) (hx : x1 ≠ x2)
    (hy : y1 ≠ y2) :
    drawLinePlots fuel x2 y2 x1 y1 =
      (drawLinePlots fuel x1 y1 x2 y2).map
        (fun l => l.map (fun p => (x1 + x2 - p.1, y1 + y2 - p.2))) := by
  rw [drawLinePlots_general fuel x1 y1 x2 y2 hx hy,
    drawLinePlots_general fuel x2 y2 x1 y1 (Ne.symm hx) (Ne.symm hy),
    ← bresenhamPlots_reflect]
  have h1 : x1 + x2 - x2 = x1 := by ring
  have h2 : y1 + y2 - y2 = y1 := by ring
  have h3 : x1 + x2 - x1 = x2 := by ring
  have h4 : y1 + y2 - y1 = y2 := by ring
  have hsx : (if x2 < x1 then (1 : Int) else -1) = -(if x1 < x2 then (1 : Int) else -1) := by
    split_ifs <;> omega
  have hsy : (if y2 < y1 then (1 : Int) else -1) = -(if y1 < y2 then (1 : Int) else -1) := by
    split_ifs <;> omega
  rw [h1, h2, h3, h4, hsx, hsy, abs_sub_comm x1 x2, abs_sub_comm y1 y2]

/-- In the straight branches the call with exchanged endpoints plots the same cells. -/
theorem drawLinePlots_swap_straight (fuel : Nat) (x1 y1 x2 y2 : Int)
    (hs : x1 = x2 ∨ y1 = y2) :
    drawLinePlots fuel x2 y2 x1 y1 = drawLinePlots fuel x1 y1 x2 y2 := by
  by_cases hx : x1 = x2
  · rw [drawLinePlots_vertical fuel x1 y1 x2 y2 hx,
      drawLinePlots_vertical fuel x2 y2 x1 y1 hx.symm, min_comm, max_comm, hx]
  · have hy : y1 = y2 := hs.resolve_left hx
    rw [drawLinePlots_horizontal fuel x1 y1 x2 y2 hx hy,
      drawLinePlots_horizontal fuel x2 y2 x1 y1 (Ne.symm hx) hy.symm, min_comm, max_comm, hy]

/-- The cells of a straight line are the cells of the inclusive segment. -/
theorem drawLinePlots_straight_mem (fuel : Nat) (x1 y1 x2 y2 : Int) (hs : x1 = x2 ∨ y1 = y2) :
    ∃ cells, drawLinePlots fuel x1 y1 x2 y2 = some cells ∧
      ∀ cx cy, (cx, cy) ∈ cells ↔
        (min x1 x2 ≤ cx ∧ cx ≤ max x1 x2) ∧ (min y1 y2 ≤ cy ∧ cy ≤ max y1 y2) := by
  by_cases hx : x1 = x2
  · refine ⟨_, drawLinePlots_vertical fuel x1 y1 x2 y2 hx, ?_⟩
    intro cx cy
    simp only [List.mem_map, mem_loopRange, Prod.mk.injEq]
    constructor
    · rintro ⟨y, hy, rfl, rfl⟩
      omega
    · intro h
      exact ⟨cy, by omega, by omega, rfl⟩
  · have hy : y1 = y2 := hs.resolve_left hx
    refine ⟨_, drawLinePlots_horizontal fuel x1 y1 x2 y2 hx hy, ?_⟩
    intro cx cy
    simp only [List.mem_map, mem_loopRange, Prod.mk.injEq]
    constructor
    · rintro ⟨x, hx', rfl, rfl⟩
      omega
    · intro h
      exact ⟨cx, by omega, rfl, by omega⟩

/-- C11 as stated fails: on the 2 x 3 console `drawLine(0,0,2,1)` plots `(0,0),(1,1),(2,1)`
and `drawLine(2,1,0,0)` plots `(2,1),(1,0),(0,0)`; the first call draws cell `(1,1)` and the
second leaves it with its glyph 0. -/
theorem drawLine_symmetry_counterexample :
    drawLinePlots 3 0 0 2 1 = some [(0, 0), (1, 1), (2, 1)] ∧
    drawLinePlots 3 2 1 0 0 = some [(2, 1), (1, 0), (0, 0)] ∧
    (RCEngine.drawLine 3 console23 0 0 2 1 88 ⟨255, 255, 255, 255⟩ ⟨0, 0, 0, 255⟩).bind
      (fun s => s.getCh 1 1) = some 88 ∧
    (RCEngine.drawLine 3 console23 2 1 0 0 88 ⟨255, 255, 255, 255⟩ ⟨0, 0, 0, 255⟩).bind
      (fun s => s.getCh 1 1) = some 0 := by
  decide

/-- C11 (as amended). For in-range endpoints and more loop iterations than
`max |x2-x1| |y2-y1|`, both `drawLine(x1,y1,x2,y2)` and `drawLine(x2,y2,x1,y1)` return and are
`draw` applied along their cells; the cells of the second call are the images of the cells of
the first under the point reflection `(cx, cy) ↦ (x1 + x2 - cx, y1 + y2 - cy)`; when the
endpoints share a column or a row the two calls plot the same set of cells. -/
theorem drawLine_swap_reflects (fuel : Nat) (e : RCEngine) (x1 y1 x2 y2 : Int)
    (h1 : (0 ≤ x1 ∧ x1 < e.cellCols) ∧ (0 ≤ y1 ∧ y1 < e.cellRows))
    (h2 : (0 ≤ x2 ∧ x2 < e.cellCols) ∧ (0 ≤ y2 ∧ y2 < e.cellRows))
    (hfuel : max |x2 - x1| |y2 - y1| < fuel) (ch : Uint8) (fg bg : SDL_Color) :
    ∃ cells cells', drawLinePlots fuel x1 y1 x2 y2 = some cells ∧
      drawLinePlots fuel x2 y2 x1 y1 = some cells' ∧
      RCEngine.drawLine fuel e x1 y1 x2 y2 ch fg bg =
        cells.foldlM (fun s p => s.draw p.1 p.2 ch fg bg) e ∧
      RCEngine.drawLine fuel e x2 y2 x1 y1 ch fg bg =
        cells'.foldlM (fun s p => s.draw p.1 p.2 ch fg bg) e ∧
      (∀ cx cy, (cx, cy) ∈ cells' ↔ (x1 + x2 - cx, y1 + y2 - cy) ∈ cells) ∧
      ((x1 = x2 ∨ y1 = y2) → ∀ cx cy, (cx, cy) ∈ cells' ↔ (cx, cy) ∈ cells) := by
  have hl1 := RCEngine.drawLine_eq_plots fuel e x1 y1 x2 y2 ch fg bg
    ⟨h1.1.1, h1.1.2, h1.2.1, h1.2.2, h2.1.1, h2.1.2, h2.2.1, h2.2.2⟩
  have hl2 := RCEngine.drawLine_eq_plots fuel e x2 y2 x1 y1 ch fg bg
    ⟨h2.1.1, h2.1.2, h2.2.1, h2.2.2, h1.1.1, h1.1.2, h1.2.1, h1.2.2⟩
  by_cases hs : x1 = x2 ∨ y1 = y2
  · obtain ⟨cells, hplots, hmem⟩ := drawLinePlots_straight_mem fuel x1 y1 x2 y2 hs
    have hswap := drawLinePlots_swap_straight fuel x1 y1 x2 y2 hs
    rw [hplots] at hswap
    rw [hplots, Option.some_bind] at hl1
    rw [hswap, Option.some_bind] at hl2
    refine ⟨cells, cells, hplots, hswap, hl1, hl2, ?_, fun _ _ _ => Iff.rfl⟩
    intro cx cy
    rw [hmem, hmem]
    rcases hs with h | h <;> subst h <;> omega
  · have hx : x1 ≠ x2 := fun h => hs (Or.inl h)
    have hy : y1 ≠ y2 := fun h => hs (Or.inr h)
    obtain ⟨cells, hplots, -⟩ := drawLinePlots_path fuel x1 y1 x2 y2 hx hy hfuel
    have hswap := drawLinePlots_swap_general fuel x1 y1 x2 y2 hx hy
    rw [hplots, Option.map_some'] at hswap
    rw [hplots, Option.some_bind] at hl1
    rw [hswap, Option.some_bind] at hl2
    refine ⟨cells, _, hplots, hswap, hl1, hl2, ?_, fun h => absurd h hs⟩
    intro cx cy
    simp only [List.mem_map, Prod.mk.injEq]
    constructor
    · rintro ⟨⟨px, py⟩, hp, rfl, rfl⟩
      simp only
      have hpx : x1 + x2 - (x1 + x2 - px) = px := by ring
      have hpy : y1 + y2 - (y1 + y2 - py) = py := by ring
      rw [hpx, hpy]
      exact hp
    · intro h
      exact ⟨_, h, by simp, by simp⟩

/-- C11 (as amended) on the 2 x 3 console for the endpoints `(0,0)` and `(2,1)`. -/
theorem drawLine_swap_reflects_witness :
    drawLinePlots 3 0 0 2 1 = some [(0, 0), (1, 1), (2, 1)] ∧
    drawLinePlots 3 2 1 0 0 = some [(2, 1), (1, 0), (0, 0)] ∧
    ∃ cells cells', drawLinePlots 3 0 0 2 1 = some cells ∧
      drawLinePlots 3 2 1 0 0 = some cells' ∧
      RCEngine.drawLine 3 console23 0 0 2 1 88 ⟨255, 255, 255, 255⟩ ⟨0, 0, 0, 255⟩ =
        cells.foldlM (fun s p => s.draw p.1 p.2 88 ⟨255, 255, 255, 255⟩ ⟨0, 0, 0, 255⟩)
          console23 ∧
      RCEngine.drawLine 3 console23 2 1 0 0 88 ⟨255, 255, 255, 255⟩ ⟨0, 0, 0, 255⟩ =
        cells'.foldlM (fun s p => s.draw p.1 p.2 88 ⟨255, 255, 255, 255⟩ ⟨0, 0, 0, 255⟩)
          console23 ∧
      (∀ cx cy, (cx, cy) ∈ cells' ↔ (0 + 2 - cx, 0 + 1 - cy) ∈ cells) ∧
      (((0 : Int) = 2 ∨ (0 : Int) = 1) → ∀ cx cy, (cx, cy) ∈ cells' ↔ (cx, cy) ∈ cells) :=
  ⟨by decide, by decide,
    drawLine_swap_reflects 3 console23 0 0 2 1 (by decide) (by decide) (by decide) 88
      ⟨255, 255, 255, 255⟩ ⟨0, 0, 0, 255⟩⟩

/-! ### clear, and the calls that are out of range -/

/-- In a well-formed engine only in-range coordinates address a cell. -/
theorem RCEngine.inRange_of_cellAt (e : RCEngine) (hwf : e.wf) (i j : Int) (c : CellTexture)
    (h : e.cellAt i j = some c) :
    (0 ≤ j ∧ j < e.cellCols) ∧ (0 ≤ i ∧ i < e.cellRows) := by
  rw [RCEngine.cellAt_eq_some_iff] at h
  obtain ⟨hi, hj, row, hrow, hcell⟩ := h
  obtain ⟨hlen, hrows⟩ := hwf
  have hilt : i.toNat < e.buffer.length := (List.getElem?_eq_some_iff.mp hrow).1
  have hjlt : j.toNat < row.length := (List.getElem?_eq_some_iff.mp hcell).1
  rw [hrows row (List.getElem?_mem hrow)] at hjlt
  omega

/-- An update of an in-range cell of a well-formed engine succeeds. -/
theorem RCEngine.modifyCell_some (e : RCEngine) (hwf : e.wf) (i j : Int)
    (f : CellTexture → CellTexture)
    (hj : 0 ≤ j ∧ j < e.cellCols) (hi : 0 ≤ i ∧ i < e.cellRows) :
    ∃ e', e.modifyCell i j f = some e' ∧ e'.wf ∧ e'.cellRows = e.cellRows ∧
      e'.cellCols = e.cellCols := by
  obtain ⟨c, hc⟩ := e.cellAt_of_wf hwf j i hj hi
  obtain ⟨e', hm⟩ : ∃ e', e.modifyCell i j f = some e' := by
    refine ⟨_, (e.modifyCell_eq_some_iff _ i j f).mpr ⟨c, hc, rfl⟩⟩
  obtain ⟨hr, hcols, -⟩ := e.modifyCell_fields e' i j f hm
  exact ⟨e', hm, e.modifyCell_wf e' i j f hm hwf, hr, hcols⟩

/-- After a loop that updates cells by `f`, every cell the loop names holds a value of `f`. -/
theorem RCEngine.modifies_hit (f : CellTexture → CellTexture) (Q : CellTexture → Prop)
    (hQ : ∀ c, Q (f c)) (l : List (Int × Int)) :
    ∀ (e e' : RCEngine), l.foldlM (fun s p => s.modifyCell p.1 p.2 f) e = some e' →
      ∀ p ∈ l, ∃ c, e'.cellAt p.1 p.2 = some c ∧ Q c := by
  have hkeep : ∀ (i j : Int) (s s' : RCEngine) (q : Int × Int),
      (∃ c, s.cellAt i j = some c ∧ Q c) → s.modifyCell q.1 q.2 f = some s' →
      ∃ c, s'.cellAt i j = some c ∧ Q c := by
    intro i j s s' q hs hmod
    rw [s.cellAt_modifyCell s' q.1 q.2 f hmod i j]
    split_ifs with hij
    · obtain ⟨c0, hc0, -⟩ := (s.modifyCell_eq_some_iff s' q.1 q.2 f).mp hmod
      rw [hc0]
      exact ⟨f c0, rfl, hQ c0⟩
    · exact hs
  induction l with
  | nil => intro e e' _ p hp; cases hp
  | cons q l ih =>
    intro e e' h p hp
    simp only [List.foldlM_cons, Option.bind_eq_bind, Option.bind_eq_some] at h
    obtain ⟨s, hs, hrest⟩ := h
    rcases List.mem_cons.mp hp with rfl | hpl
    · have hnow : ∃ c, s.cellAt p.1 p.2 = some c ∧ Q c := by
        obtain ⟨c0, hc0, -⟩ := (e.modifyCell_eq_some_iff s p.1 p.2 f).mp hs
        rw [e.cellAt_modifyCell s p.1 p.2 f hs p.1 p.2, if_pos ⟨rfl, rfl⟩, hc0]
        exact ⟨f c0, rfl, hQ c0⟩
      exact foldlM_option_inv (fun t : RCEngine => ∃ c, t.cellAt p.1 p.2 = some c ∧ Q c) _ l
        (fun t q t' _ ht hmod => hkeep p.1 p.2 t t' q ht hmod) s e' hnow hrest
    · exact ih s e' hrest p hpl

/-- The two loops of `clear` as one loop over the cells of the grid. -/
theorem RCEngine.clear_eq_fold (e : RCEngine) :
    e.clear = ((loopRange 0 e.cellRows).flatMap (fun i =>
        (loopRange 0 e.cellCols).map (fun j => (i, j)))).foldlM
      (fun s p => s.modifyCell p.1 p.2 (fun c =>
        ((c.setCh 32).setForeColor ⟨255, 255, 255, 255⟩).setBackColor ⟨0, 0, 0, 255⟩)) e := by
  unfold RCEngine.clear
  rw [foldlM_flatMap_option]
  simp only [foldlM_map_option]

/-- What `clear` does to a well-formed engine. -/
theorem RCEngine.clear_spec (e : RCEngine) (hwf : e.wf) :
    ∃ e', e.clear = some e' ∧ e'.wf ∧ e'.cellRows = e.cellRows ∧ e'.cellCols = e.cellCols ∧
      ∀ i j, (0 ≤ j ∧ j < e.cellCols) → (0 ≤ i ∧ i < e.cellRows) →
        ∃ c, e'.cellAt i j = some c ∧ c.ch = 32 ∧ c.foreColor = ⟨255, 255, 255, 255⟩ ∧
          c.backColor = ⟨0, 0, 0, 255⟩ := by
  rw [e.clear_eq_fold]
  obtain ⟨e', he', hwf', hr, hc⟩ := foldlM_option_some
    (fun s : RCEngine => s.wf ∧ s.cellRows = e.cellRows ∧ s.cellCols = e.cellCols)
    (fun s p => s.modifyCell p.1 p.2 (fun c =>
        ((c.setCh 32).setForeColor ⟨255, 255, 255, 255⟩).setBackColor ⟨0, 0, 0, 255⟩))
    ((loopRange 0 e.cellRows).flatMap (fun i => (loopRange 0 e.cellCols).map (fun j => (i, j))))
    (by
      rintro s ⟨i, j⟩ hp ⟨hswf, hsr, hsc⟩
      simp only [List.mem_flatMap, List.mem_map, mem_loopRange, Prod.mk.injEq] at hp
      obtain ⟨i', hi', j', hj', rfl, rfl⟩ := hp
      obtain ⟨s', hm, hwf', hr', hc'⟩ := s.modifyCell_some hswf i' j' _
        (by rw [hsc]; omega) (by rw [hsr]; omega)
      exact ⟨s', hm, hwf', hr'.trans hsr, hc'.trans hsc⟩)
    e ⟨hwf, rfl, rfl⟩
  refine ⟨e', he', hwf', hr, hc, ?_⟩
  intro i j hj hi
  exact RCEngine.modifies_hit _
    (fun c => c.ch = 32 ∧ c.foreColor = ⟨255, 255, 255, 255⟩ ∧ c.backColor = ⟨0, 0, 0, 255⟩)
    (fun c => ⟨rfl, rfl, rfl⟩) _ e e' he' (i, j) (by
      simp only [List.mem_flatMap, List.mem_map, mem_loopRange, Prod.mk.injEq]
      exact ⟨i, by omega, j, by omega, rfl, rfl⟩)

/-- C12. For every well-formed grid, whatever the buffer holds, `clear()` succeeds and
afterwards every cell has glyph 32 (space), foreground colour `(255,255,255,255)` and
background colour `(0,0,0,255)`: so read every accessor at every in-range coordinate, and so
holds every cell of the buffer. -/
theorem clear_resets_every_cell (e : RCEngine) (hwf : e.wf) :
    ∃ e', e.clear = some e' ∧ e'.cellRows = e.cellRows ∧ e'.cellCols = e.cellCols ∧
      (∀ x y, (0 ≤ x ∧ x < e.cellCols) → (0 ≤ y ∧ y < e.cellRows) →
        e'.getCh x y = some 32 ∧ e'.getForeColor x y = some ⟨255, 255, 255, 255⟩ ∧
        e'.getBackColor x y = some ⟨0, 0, 0, 255⟩) ∧
      (∀ i j c, e'.cellAt i j = some c →
        c.ch = 32 ∧ c.foreColor = ⟨255, 255, 255, 255⟩ ∧ c.backColor = ⟨0, 0, 0, 255⟩) := by
  obtain ⟨e', he', hwf', hr, hc, hcells⟩ := e.clear_spec hwf
  refine ⟨e', he', hr, hc, ?_, ?_⟩
  · intro x y hx hy
    obtain ⟨c, hcell, h1, h2, h3⟩ := hcells y x hx hy
    have hx' : 0 ≤ x ∧ x < e'.cellCols := by rw [hc]; exact hx
    have hy' : 0 ≤ y ∧ y < e'.cellRows := by rw [hr]; exact hy
    rw [e'.getCh_inRange x y hx' hy', e'.getForeColor_inRange x y hx' hy',
      e'.getBackColor_inRange x y hx' hy', hcell]
    simp only [Option.map_some', CellTexture.getCh, CellTexture.getForeColor,
      CellTexture.getBackColor, h1, h2, h3, and_self]
  · intro i j c hcell
    obtain ⟨hj, hi⟩ := e'.inRange_of_cellAt hwf' i j c hcell
    obtain ⟨c', hcell', h⟩ := hcells i j (by rw [← hc]; exact hj) (by rw [← hr]; exact hi)
    rw [hcell] at hcell'
    cases hcell'
    exact h

/-- C12 on a 3 x 3 grid on which a cell was drawn before: after `clear()` every cell is a
space in opaque white on opaque black. -/
theorem clear_resets_every_cell_witness :
    ∃ e', console33drawn.clear = some e' ∧ e'.cellRows = console33drawn.cellRows ∧
      e'.cellCols = console33drawn.cellCols ∧
      (∀ x y, (0 ≤ x ∧ x < console33drawn.cellCols) → (0 ≤ y ∧ y < console33drawn.cellRows) →
        e'.getCh x y = some 32 ∧ e'.getForeColor x y = some ⟨255, 255, 255, 255⟩ ∧
        e'.getBackColor x y = some ⟨0, 0, 0, 255⟩) ∧
      (∀ i j c, e'.cellAt i j = some c →
        c.ch = 32 ∧ c.foreColor = ⟨255, 255, 255, 255⟩ ∧ c.backColor = ⟨0, 0, 0, 255⟩) :=
  clear_resets_every_cell console33drawn (by decide)

/-- C13. For every `(x,y)` that is out of range (`x < 0`, `x ≥ cols`, `y < 0` or `y ≥ rows`),
`draw(x,y,...)` returns the engine it was given: every cell (glyph, foreground, background) and
every other member is unchanged. -/
theorem draw_outOfRange_noop (e : RCEngine) (x y : Int)
    (hout : x < 0 ∨ e.cellCols ≤ x ∨ y < 0 ∨ e.cellRows ≤ y)
    (ch : Uint8) (fg bg : SDL_Color) :
    e.draw x y ch fg bg = some e ∧
      ∀ e', e.draw x y ch fg bg = some e' → ∀ i j, e'.cellAt i j = e.cellAt i j := by
  have hd : e.draw x y ch fg bg = some e := by
    unfold RCEngine.draw
    rw [if_neg (by omega)]
  refine ⟨hd, ?_⟩
  intro e' he' i j
  rw [hd] at he'
  cases he'
  rfl

/-- C13 on the 2 x 3 console at the column 3, one past the right edge. -/
theorem draw_outOfRange_noop_witness :
    console23.draw 3 1 88 ⟨255, 255, 255, 255⟩ ⟨0, 0, 0, 255⟩ = some console23 ∧
      ∀ e', console23.draw 3 1 88 ⟨255, 255, 255, 255⟩ ⟨0, 0, 0, 255⟩ = some e' →
        ∀ i j, e'.cellAt i j = console23.cellAt i j :=
  draw_outOfRange_noop console23 3 1 (by decide) 88 ⟨255, 255, 255, 255⟩ ⟨0, 0, 0, 255⟩

/-- C14. For every `(x,y)` out of range `getCh(x,y)` returns 0 and `getForeColor(x,y)`,
`getBackColor(x,y)` return `(0,0,0,0)`; for every in-range `(x,y)` of a well-formed grid the
cell `buffer[y][x]` exists and the three accessors return its glyph and its two colours. -/
theorem accessors_read_cell (e : RCEngine) (x y : Int) :
    ((x < 0 ∨ e.cellCols ≤ x ∨ y < 0 ∨ e.cellRows ≤ y) →
      e.getCh x y = some 0 ∧ e.getForeColor x y = some ⟨0, 0, 0, 0⟩ ∧
      e.getBackColor x y = some ⟨0, 0, 0, 0⟩) ∧
    (e.wf → (0 ≤ x ∧ x < e.cellCols) → (0 ≤ y ∧ y < e.cellRows) →
      ∃ c, e.cellAt y x = some c ∧ e.getCh x y = some c.ch ∧
        e.getForeColor x y = some c.foreColor ∧ e.getBackColor x y = some c.backColor) := by
  constructor
  · intro hout
    unfold RCEngine.getCh RCEngine.getForeColor RCEngine.getBackColor
    rw [if_neg (by omega), if_neg (by omega), if_neg (by omega)]
    exact ⟨rfl, rfl, rfl⟩
  · intro hwf hx hy
    obtain ⟨c, hc⟩ := e.cellAt_of_wf hwf x y hx hy
    refine ⟨c, hc, ?_, ?_, ?_⟩
    · rw [e.getCh_inRange x y hx hy, hc]; rfl
    · rw [e.getForeColor_inRange x y hx hy, hc]; rfl
    · rw [e.getBackColor_inRange x y hx hy, hc]; rfl

/-- C14 on the drawn 3 x 3 console: in range at the drawn cell `(1,1)` and out of range at
`(-1,0)`. -/
theorem accessors_read_cell_witness :
    (∃ c, console33drawn.cellAt 1 1 = some c ∧ console33drawn.getCh 1 1 = some c.ch ∧
      console33drawn.getForeColor 1 1 = some c.foreColor ∧
      console33drawn.getBackColor 1 1 = some c.backColor) ∧
    (console33drawn.getCh (-1) 0 = some 0 ∧
      console33drawn.getForeColor (-1) 0 = some ⟨0, 0, 0, 0⟩ ∧
      console33drawn.getBackColor (-1) 0 = some ⟨0, 0, 0, 0⟩) ∧
    console33drawn.getCh 1 1 = some 88 :=
  ⟨(accessors_read_cell console33drawn 1 1).2 (by decide) (by decide) (by decide),
    (accessors_read_cell console33drawn (-1) 0).1 (by decide), by decide⟩

/-- C15. For every call `drawLine(x1,y1,x2,y2,...)` in which at least one endpoint is out of
range, whatever the iteration budget, `drawLine` returns the engine it was given: no cell is
drawn, not even the part of the line inside the grid. -/
theorem drawLine_outOfRange_noop (fuel : Nat) (e : RCEngine) (x1 y1 x2 y2 : Int)
    (hout : (x1 < 0 ∨ e.cellCols ≤ x1 ∨ y1 < 0 ∨ e.cellRows ≤ y1) ∨
      (x2 < 0 ∨ e.cellCols ≤ x2 ∨ y2 < 0 ∨ e.cellRows ≤ y2))
    (ch : Uint8) (fg bg : SDL_Color) :
    RCEngine.drawLine fuel e x1 y1 x2 y2 ch fg bg = some e := by
  apply RCEngine.drawLine_outOfRange
  omega

/-- C15 on the 2 x 3 console: the line from `(0,0)` to `(5,0)` crosses the grid and ends
outside; nothing is drawn, the cell `(1,0)` on the line included. -/
theorem drawLine_outOfRange_noop_witness :
    RCEngine.drawLine 10 console23 0 0 5 0 88 ⟨255, 255, 255, 255⟩ ⟨0, 0, 0, 255⟩ =
      some console23 ∧ console23.getCh 1 0 = some 0 :=
  ⟨drawLine_outOfRange_noop 10 console23 0 0 5 0 (by decide) 88 ⟨255, 255, 255, 255⟩
    ⟨0, 0, 0, 255⟩, by decide⟩

/-! ### The frame driver -/

/-- C16. In the frame driver, from a running state (inner loop test, `loop = true`) in which a
frame receives a stop request (`update` returns `false` or a quit event arrives): the frame
stores `loop = false` and the next step reaches the call of `destroy`.  If `destroy` returns
`false`, `loop` is set back to `true`, no resource is released, and the following steps
re-enter the inner loop and call `update` again; if `destroy` returns `true`, the resources are
released and the driver returns.  In no step in which `destroy` answers `false` does
`released` change. -/
theorem driver_destroy_retry (s : FrameDriver) (hpc : s.pc = DriverPc.innerTest)
    (hloop : s.loop = true) (h : HookResults) (hstop : h.update = false ∨ h.quit = true) :
    (s.run [h, h]).pc = DriverPc.destroyCall ∧ (s.run [h, h]).loop = false ∧
    (s.run [h, h]).updateCalls = s.updateCalls + 1 ∧
    (∀ d a b : HookResults, d.destroy = false →
      (s.run [h, h, d]).loop = true ∧ (s.run [h, h, d]).pc = DriverPc.outerTest ∧
      (s.run [h, h, d]).released = s.released ∧
      (s.run [h, h, d, a]).pc = DriverPc.innerTest ∧
      (s.run [h, h, d, a, b]).updateCalls = s.updateCalls + 2 ∧
      (s.run [h, h, d, a, b]).released = s.released) ∧
    (∀ d a : HookResults, d.destroy = true →
      (s.run [h, h, d]).released = true ∧ (s.run [h, h, d]).loop = false ∧
      (s.run [h, h, d, a]).pc = DriverPc.returned ∧
      ∀ rest, (s.run ([h, h, d, a] ++ rest)).pc = DriverPc.returned ∧
        (s.run ([h, h, d, a] ++ rest)).updateCalls = s.updateCalls + 1) ∧
    (∀ (t : FrameDriver) (d : HookResults), d.destroy = false →
      (t.step d).released = t.released) := by
  obtain ⟨pc, loop, uc, dc, rel⟩ := s
  simp only at hpc hloop
  subst hpc hloop
  obtain ⟨q, u, dd⟩ := h
  simp only at hstop
  have key : (q = false ∧ u = false) ∨ (q = true ∧ u = false) ∨ (q = true ∧ u = true) := by
    cases q <;> cases u <;> simp_all
  have hret : ∀ (t : FrameDriver) (rest : List HookResults), t.pc = DriverPc.returned →
      t.run rest = t := by
    intro t rest ht
    induction rest with
    | nil => rfl
    | cons r rest ih =>
      show FrameDriver.run (t.step r) rest = t
      have : t.step r = t := by
        unfold FrameDriver.step
        rw [ht]
      rw [this]
      exact ih
  refine ⟨?_, ?_, ?_, ?_, ?_, ?_⟩
  · rcases key with ⟨rfl, rfl⟩ | ⟨rfl, rfl⟩ | ⟨rfl, rfl⟩ <;>
      simp [FrameDriver.run, FrameDriver.step]
  · rcases key with ⟨rfl, rfl⟩ | ⟨rfl, rfl⟩ | ⟨rfl, rfl⟩ <;>
      simp [FrameDriver.run, FrameDriver.step]
  · rcases key with ⟨rfl, rfl⟩ | ⟨rfl, rfl⟩ | ⟨rfl, rfl⟩ <;>
      simp [FrameDriver.run, FrameDriver.step]
  · rintro ⟨dq, du, ddd⟩ a ⟨bq, bu, bd⟩ hd
    simp only at hd
    subst hd
    rcases key with ⟨rfl, rfl⟩ | ⟨rfl, rfl⟩ | ⟨rfl, rfl⟩ <;>
      simp [FrameDriver.run, FrameDriver.step]
  · rintro ⟨dq, du, ddd⟩ a hd
    simp only at hd
    subst hd
    have h4 : (FrameDriver.run ⟨DriverPc.innerTest, true, uc, dc, rel⟩
        [⟨q, u, dd⟩, ⟨q, u, dd⟩, ⟨dq, du, true⟩, a]) =
        ⟨DriverPc.returned, false, uc + 1, dc + 1, true⟩ := by
      rcases key with ⟨rfl, rfl⟩ | ⟨rfl, rfl⟩ | ⟨rfl, rfl⟩ <;>
        simp [FrameDriver.run, FrameDriver.step]
    refine ⟨?_, ?_, ?_, ?_⟩
    · rcases key with ⟨rfl, rfl⟩ | ⟨rfl, rfl⟩ | ⟨rfl, rfl⟩ <;>
        simp [FrameDriver.run, FrameDriver.step]
    · rcases key with ⟨rfl, rfl⟩ | ⟨rfl, rfl⟩ | ⟨rfl, rfl⟩ <;>
        simp [FrameDriver.run, FrameDriver.step]
    · rw [h4]
    · intro rest
      have happ : FrameDriver.run ⟨DriverPc.innerTest, true, uc, dc, rel⟩
          ([⟨q, u, dd⟩, ⟨q, u, dd⟩, ⟨dq, du, true⟩, a] ++ rest) =
          FrameDriver.run (FrameDriver.run ⟨DriverPc.innerTest, true, uc, dc, rel⟩
            [⟨q, u, dd⟩, ⟨q, u, dd⟩, ⟨dq, du, true⟩, a]) rest := by
        unfold FrameDriver.run
        rw [List.foldl_append]
      rw [happ, h4, hret _ rest rfl]
      exact ⟨rfl, rfl⟩
  · rintro ⟨tpc, tl, tu, td, tr⟩ ⟨dq, du, ddd⟩ hd
    simp only at hd
    subst hd
    cases tpc <;> cases tl <;> simp [FrameDriver.step]

/-- C16 from the first frame of a started driver whose `update` returns `false`. -/
theorem driver_destroy_retry_witness :
    (((FrameDriver.enter true).step ⟨false, true, true⟩).run
        [⟨false, false, true⟩, ⟨false, false, true⟩]).pc = DriverPc.destroyCall ∧
    (((FrameDriver.enter true).step ⟨false, true, true⟩).run
        [⟨false, false, false⟩, ⟨false, false, false⟩, ⟨false, true, false⟩,
          ⟨false, true, true⟩, ⟨false, true, true⟩]) =
      ⟨DriverPc.innerTest, true, 2, 1, false⟩ ∧
    (((FrameDriver.enter true).step ⟨false, true, true⟩).run
        [⟨false, false, true⟩, ⟨false, false, true⟩, ⟨false, true, true⟩,
          ⟨false, true, true⟩]) =
      ⟨DriverPc.returned, false, 1, 1, true⟩ :=
  ⟨(driver_destroy_retry ((FrameDriver.enter true).step ⟨false, true, true⟩) rfl rfl
    ⟨false, false, true⟩ (Or.inl rfl)).1, by decide, by decide⟩

/-! ### drawLine: termination of the loop -/

/-- Every iteration of the loop takes one unit of the budget and plots one cell. -/
theorem bresenhamPlots_length_le (x2 y2 dx dy sx sy : Int) (fuel : Nat) :
    ∀ (x y err : Int) (l : List (Int × Int)),
      bresenhamPlots x2 y2 dx dy sx sy fuel x y err = some l → l.length ≤ fuel := by
  induction fuel with
  | zero => intro x y err l h; cases h
  | succ fuel ih =>
    intro x y err l h
    by_cases hend : x = x2 ∧ y = y2
    · obtain ⟨rfl, rfl⟩ := hend
      rw [bresenhamPlots_stop] at h
      cases h
      simp
    · rw [bresenhamPlots_step _ _ _ _ _ _ _ _ _ _ hend, Option.map_eq_some'] at h
      obtain ⟨l', hl', rfl⟩ := h
      have := ih _ _ _ l' hl'
      simp only [List.length_cons]
      omega

/-- A loop that returns within a budget returns the same cells within every larger one. -/
theorem bresenhamPlots_mono (x2 y2 dx dy sx sy : Int) (fuel : Nat) :
    ∀ (x y err : Int) (l : List (Int × Int)),
      bresenhamPlots x2 y2 dx dy sx sy fuel x y err = some l →
      ∀ fuel', fuel ≤ fuel' → bresenhamPlots x2 y2 dx dy sx sy fuel' x y err = some l := by
  induction fuel with
  | zero => intro x y err l h; cases h
  | succ fuel ih =>
    intro x y err l h fuel' hle
    obtain ⟨f, rfl⟩ : ∃ f, fuel' = f + 1 := ⟨fuel' - 1, by omega⟩
    by_cases hend : x = x2 ∧ y = y2
    · obtain ⟨rfl, rfl⟩ := hend
      rw [bresenhamPlots_stop] at h ⊢
      exact h
    · rw [bresenhamPlots_step _ _ _ _ _ _ _ _ _ _ hend, Option.map_eq_some'] at h
      obtain ⟨l', hl', rfl⟩ := h
      rw [bresenhamPlots_step _ _ _ _ _ _ _ _ _ _ hend, ih _ _ _ l' hl' f (by omega)]
      rfl

/-- On a well-formed engine `draw` always succeeds. -/
theorem RCEngine.draw_total (e : RCEngine) (hwf : e.wf) (x y : Int) (ch : Uint8)
    (fg bg : SDL_Color) : ∃ e', e.draw x y ch fg bg = some e' ∧ e'.wf := by
  by_cases hg : 0 ≤ x ∧ x < e.cellCols ∧ 0 ≤ y ∧ y < e.cellRows
  · obtain ⟨c, e', -, hd, hwf', -⟩ :=
      e.draw_inRange hwf x y ⟨hg.1, hg.2.1⟩ ⟨hg.2.2.1, hg.2.2.2⟩ ch fg bg
    exact ⟨e', hd, hwf'⟩
  · refine ⟨e, ?_, hwf⟩
    unfold RCEngine.draw
    rw [if_neg hg]

/-- On a well-formed engine every sequence of `draw` calls succeeds. -/
theorem RCEngine.draws_total (e : RCEngine) (hwf : e.wf) (ch : Uint8) (fg bg : SDL_Color)
    (cells : List (Int × Int)) :
    ∃ e', cells.foldlM (fun s p => s.draw p.1 p.2 ch fg bg) e = some e' ∧ e'.wf :=
  foldlM_option_some (fun s : RCEngine => s.wf) (fun s p => s.draw p.1 p.2 ch fg bg) cells
    (fun s p _ hs => s.draw_total hs p.1 p.2 ch fg bg) e hwf

/-- C17. For in-range endpoints with `x1 ≠ x2` and `y1 ≠ y2` on a well-formed grid, the loop
of `drawLine` ends after `max |x2-x1| |y2-y1| + 1` iterations: with any budget of at least that
many iterations it returns, always with the same plotted cells and the same resulting engine,
and with a smaller budget it does not return. -/
theorem bresenham_loop_terminates (e : RCEngine) (hwf : e.wf) (x1 y1 x2 y2 : Int)
    (h1 : (0 ≤ x1 ∧ x1 < e.cellCols) ∧ (0 ≤ y1 ∧ y1 < e.cellRows))
    (h2 : (0 ≤ x2 ∧ x2 < e.cellCols) ∧ (0 ≤ y2 ∧ y2 < e.cellRows))
    (hx : x1 ≠ x2) (hy : y1 ≠ y2) (ch : Uint8) (fg bg : SDL_Color) :
    ∃ (n : Nat) (cells : List (Int × Int)) (e' : RCEngine),
      (n : Int) = max |x2 - x1| |y2 - y1| + 1 ∧ cells.length = n ∧
      (∀ fuel, n ≤ fuel → drawLinePlots fuel x1 y1 x2 y2 = some cells ∧
        RCEngine.drawLine fuel e x1 y1 x2 y2 ch fg bg = some e') ∧
      (∀ fuel, fuel < n → drawLinePlots fuel x1 y1 x2 y2 = none ∧
        RCEngine.drawLine fuel e x1 y1 x2 y2 ch fg bg = none) := by
  have hmax : 0 ≤ max |x2 - x1| |y2 - y1| := le_max_of_le_left (abs_nonneg _)
  obtain ⟨n, hn⟩ : ∃ n : Nat, (n : Int) = max |x2 - x1| |y2 - y1| + 1 :=
    ⟨(max |x2 - x1| |y2 - y1| + 1).toNat, by omega⟩
  obtain ⟨cells, hplots, -, -, hlen, -, -⟩ :=
    drawLinePlots_path n x1 y1 x2 y2 hx hy (by omega)
  have hlen' : cells.length = n := by omega
  have hg : 0 ≤ x1 ∧ x1 < e.cellCols ∧ 0 ≤ y1 ∧ y1 < e.cellRows
      ∧ 0 ≤ x2 ∧ x2 < e.cellCols ∧ 0 ≤ y2 ∧ y2 < e.cellRows :=
    ⟨h1.1.1, h1.1.2, h1.2.1, h1.2.2, h2.1.1, h2.1.2, h2.2.1, h2.2.2⟩
  obtain ⟨e', he', -⟩ := e.draws_total hwf ch fg bg cells
  refine ⟨n, cells, e', hn, hlen', ?_, ?_⟩
  · intro fuel hfuel
    have hp : drawLinePlots fuel x1 y1 x2 y2 = some cells := by
      rw [drawLinePlots_general fuel x1 y1 x2 y2 hx hy]
      rw [drawLinePlots_general n x1 y1 x2 y2 hx hy] at hplots
      exact bresenhamPlots_mono _ _ _ _ _ _ n _ _ _ cells hplots fuel hfuel
    refine ⟨hp, ?_⟩
    rw [RCEngine.drawLine_eq_plots fuel e x1 y1 x2 y2 ch fg bg hg, hp, Option.some_bind]
    exact he'
  · intro fuel hfuel
    have hp : drawLinePlots fuel x1 y1 x2 y2 = none := by
      cases hq : drawLinePlots fuel x1 y1 x2 y2 with
      | none => rfl
      | some l =>
        exfalso
        rw [drawLinePlots_general fuel x1 y1 x2 y2 hx hy] at hq
        rw [drawLinePlots_general n x1 y1 x2 y2 hx hy] at hplots
        have hl := bresenhamPlots_length_le _ _ _ _ _ _ fuel _ _ _ l hq
        have hm := bresenhamPlots_mono _ _ _ _ _ _ fuel _ _ _ l hq n (by omega)
        rw [hplots] at hm
        cases hm
        omega
    refine ⟨hp, ?_⟩
    rw [RCEngine.drawLine_eq_plots fuel e x1 y1 x2 y2 ch fg bg hg, hp]
    rfl

/-- C17 on the default 30 x 40 console for the line from `(0,0)` to `(7,2)`: 8 iterations. -/
theorem bresenham_loop_terminates_witness :
    drawLinePlots 8 0 0 7 2 =
      some [(0, 0), (1, 0), (2, 1), (3, 1), (4, 1), (5, 1), (6, 2), (7, 2)] ∧
    drawLinePlots 7 0 0 7 2 = none ∧
    ∃ (n : Nat) (cells : List (Int × Int)) (e' : RCEngine),
      (n : Int) = max |(7 : Int) - 0| |(2 : Int) - 0| + 1 ∧ cells.length = n ∧
      (∀ fuel, n ≤ fuel → drawLinePlots fuel 0 0 7 2 = some cells ∧
        RCEngine.drawLine fuel console3040 0 0 7 2 88 ⟨255, 255, 255, 255⟩ ⟨0, 0, 0, 255⟩ =
          some e') ∧
      (∀ fuel, fuel < n → drawLinePlots fuel 0 0 7 2 = none ∧
        RCEngine.drawLine fuel console3040 0 0 7 2 88 ⟨255, 255, 255, 255⟩ ⟨0, 0, 0, 255⟩ =
          none) :=
  ⟨by decide, by decide,
    bresenham_loop_terminates console3040 (by decide) 0 0 7 2 (by decide) (by decide)
      (by decide) (by decide) 88 ⟨255, 255, 255, 255⟩ ⟨0, 0, 0, 255⟩⟩

/-! ### The destination rectangles -/

theorem loopRange_getElem? (lo hi : Int) (k : Nat) (hk : k < (hi - lo).toNat) :
    (loopRange lo hi)[k]? = some (lo + (k : Int)) := by
  unfold loopRange
  rw [List.getElem?_map, List.getElem?_range hk]
  rfl

/-- The cell that `createConsole` puts at row `i`, column `j`. -/
theorem RCEngine.createConsole_cellAt (rows cols fw fh tw th : Int) (e : RCEngine)
    (h : RCEngine.createConsole rows cols fw fh tw th = some e) (i j : Int)
    (hj : 0 ≤ j ∧ j < cols) (hi : 0 ≤ i ∧ i < rows) :
    e.cellAt i j =
      some ((CellTexture.new 16 16 tw th fw fh).setDestPosition (j * fw) (i * fh)) := by
  unfold RCEngine.createConsole at h
  split_ifs at h
  simp only [Option.some.injEq] at h
  subst h
  rw [RCEngine.cellAt_eq_some_iff]
  have h1 : (0 : Int) + ((j.toNat : Nat) : Int) = j := by omega
  have h2 : (0 : Int) + ((i.toNat : Nat) : Int) = i := by omega
  refine ⟨hi.1, hj.1, (loopRange 0 cols).map (fun j' =>
    (CellTexture.new 16 16 tw th fw fh).setDestPosition (j' * fw) (i * fh)), ?_, ?_⟩
  · show (List.map _ (loopRange 0 rows))[i.toNat]? = _
    rw [List.getElem?_map, loopRange_getElem? 0 rows i.toNat (by omega), Option.map_some', h2]
  · rw [List.getElem?_map, loopRange_getElem? 0 cols j.toNat (by omega), Option.map_some', h1]

/-- An update of a cell by a function that keeps the destination rectangle keeps the cell
size of the engine and the destination rectangle of every cell. -/
theorem RCEngine.modifyCell_destRect (e e' : RCEngine) (i j : Int)
    (f : CellTexture → CellTexture) (h : e.modifyCell i j f = some e')
    (hf : ∀ c, (f c).destRect = c.destRect) :
    (e'.cellWidth = e.cellWidth ∧ e'.cellHeight = e.cellHeight) ∧
      ∀ i' j', (e'.cellAt i' j').map CellTexture.destRect =
        (e.cellAt i' j').map CellTexture.destRect := by
  obtain ⟨-, -, hw, hh, -⟩ := e.modifyCell_fields e' i j f h
  refine ⟨⟨hw, hh⟩, ?_⟩
  intro i' j'
  rw [e.cellAt_modifyCell e' i j f h i' j']
  split_ifs with hij
  · obtain ⟨rfl, rfl⟩ := hij
    cases e.cellAt i' j' with
    | none => rfl
    | some c => simp only [Option.map_some', hf c]
  · rfl

/-- The relation "same cell size, same destination rectangles as `e`". -/
theorem RCEngine.destRect_trans (e s s' : RCEngine)
    (hs : (s.cellWidth = e.cellWidth ∧ s.cellHeight = e.cellHeight) ∧
      ∀ i j, (s.cellAt i j).map CellTexture.destRect = (e.cellAt i j).map CellTexture.destRect)
    (hs' : (s'.cellWidth = s.cellWidth ∧ s'.cellHeight = s.cellHeight) ∧
      ∀ i j, (s'.cellAt i j).map CellTexture.destRect =
        (s.cellAt i j).map CellTexture.destRect) :
    (s'.cellWidth = e.cellWidth ∧ s'.cellHeight = e.cellHeight) ∧
      ∀ i j, (s'.cellAt i j).map CellTexture.destRect =
        (e.cellAt i j).map CellTexture.destRect :=
  ⟨⟨hs'.1.1.trans hs.1.1, hs'.1.2.trans hs.1.2⟩, fun i j => (hs'.2 i j).trans (hs.2 i j)⟩

theorem RCEngine.draw_destRect (e e' : RCEngine) (x y : Int) (ch : Uint8) (fg bg : SDL_Color)
    (h : e.draw x y ch fg bg = some e') :
    (e'.cellWidth = e.cellWidth ∧ e'.cellHeight = e.cellHeight) ∧
      ∀ i j, (e'.cellAt i j).map CellTexture.destRect =
        (e.cellAt i j).map CellTexture.destRect := by
  unfold RCEngine.draw at h
  split_ifs at h
  · exact e.modifyCell_destRect e' y x _ h (fun c => rfl)
  · cases h
    exact ⟨⟨rfl, rfl⟩, fun _ _ => rfl⟩

/-- A loop whose steps keep the cell size and the destination rectangles keeps them. -/
theorem RCEngine.loop_destRect {α : Type} (f : RCEngine → α → Option RCEngine) (l : List α)
    (hf : ∀ s a s', f s a = some s' →
      (s'.cellWidth = s.cellWidth ∧ s'.cellHeight = s.cellHeight) ∧
        ∀ i j, (s'.cellAt i j).map CellTexture.destRect =
          (s.cellAt i j).map CellTexture.destRect)
    (e e' : RCEngine) (h : l.foldlM f e = some e') :
    (e'.cellWidth = e.cellWidth ∧ e'.cellHeight = e.cellHeight) ∧
      ∀ i j, (e'.cellAt i j).map CellTexture.destRect =
        (e.cellAt i j).map CellTexture.destRect :=
  foldlM_option_inv
    (fun s : RCEngine => (s.cellWidth = e.cellWidth ∧ s.cellHeight = e.cellHeight) ∧
      ∀ i j, (s.cellAt i j).map CellTexture.destRect = (e.cellAt i j).map CellTexture.destRect)
    f l (fun s a s' _ hs hstep => e.destRect_trans s s' hs (hf s a s' hstep))
    e e' ⟨⟨rfl, rfl⟩, fun _ _ => rfl⟩ h

theorem RCEngine.clear_destRect (e e' : RCEngine) (h : e.clear = some e') :
    (e'.cellWidth = e.cellWidth ∧ e'.cellHeight = e.cellHeight) ∧
      ∀ i j, (e'.cellAt i j).map CellTexture.destRect =
        (e.cellAt i j).map CellTexture.destRect := by
  unfold RCEngine.clear at h
  refine RCEngine.loop_destRect _ _ ?_ e e' h
  intro s i s' hstep
  refine RCEngine.loop_destRect _ _ ?_ s s' hstep
  intro t j t' hmod
  exact t.modifyCell_destRect t' i j _ hmod (fun c => rfl)

theorem RCEngine.write_destRect (e e' : RCEngine) (x y : Int) (content : List Uint8)
    (fg bg : SDL_Color) (h : e.write x y content fg bg = some e') :
    (e'.cellWidth = e.cellWidth ∧ e'.cellHeight = e.cellHeight) ∧
      ∀ i j, (e'.cellAt i j).map CellTexture.destRect =
        (e.cellAt i j).map CellTexture.destRect := by
  unfold RCEngine.write at h
  split_ifs at h
  · refine RCEngine.loop_destRect _ _ ?_ e e' h
    intro s i s' hstep
    split_ifs at hstep
    · cases hstep
      exact ⟨⟨rfl, rfl⟩, fun _ _ => rfl⟩
    · exact s.modifyCell_destRect s' y (x + i) _ hstep (fun c => rfl)
  · cases h
    exact ⟨⟨rfl, rfl⟩, fun _ _ => rfl⟩

theorem RCEngine.fill_destRect (e e' : RCEngine) (dest : SDL_Rect) (ch : Uint8)
    (fg bg : SDL_Color) (h : e.fill dest ch fg bg = some e') :
    (e'.cellWidth = e.cellWidth ∧ e'.cellHeight = e.cellHeight) ∧
      ∀ i j, (e'.cellAt i j).map CellTexture.destRect =
        (e.cellAt i j).map CellTexture.destRect := by
  unfold RCEngine.fill at h
  split_ifs at h
  · refine RCEngine.loop_destRect _ _ ?_ e e' h
    intro s i s' hstep
    refine RCEngine.loop_destRect _ _ ?_ s s' hstep
    intro t j t' hmod
    exact t.modifyCell_destRect t' i j _ hmod (fun c => rfl)
  · cases h
    exact ⟨⟨rfl, rfl⟩, fun _ _ => rfl⟩

theorem RCEngine.bresenham_destRect (ch : Uint8) (fg bg : SDL_Color)
    (x2 y2 dx dy sx sy : Int) (fuel : Nat) :
    ∀ (e e' : RCEngine) (x1 y1 err : Int),
      RCEngine.bresenham ch fg bg x2 y2 dx dy sx sy fuel e x1 y1 err = some e' →
      (e'.cellWidth = e.cellWidth ∧ e'.cellHeight = e.cellHeight) ∧
        ∀ i j, (e'.cellAt i j).map CellTexture.destRect =
          (e.cellAt i j).map CellTexture.destRect := by
  induction fuel with
  | zero => intro e e' x1 y1 err h; cases h
  | succ fuel ih =>
    intro e e' x1 y1 err h
    rw [RCEngine.bresenham_step, Option.bind_eq_some] at h
    obtain ⟨s, hdraw, hrest⟩ := h
    have hs := e.draw_destRect s x1 y1 ch fg bg hdraw
    by_cases hend : x1 = x2 ∧ y1 = y2
    · rw [if_pos hend] at hrest
      cases hrest
      exact hs
    · rw [if_neg hend] at hrest
      exact e.destRect_trans s e' hs (ih s e' _ _ _ hrest)

theorem RCEngine.drawLine_destRect (fuel : Nat) (e e' : RCEngine) (x1 y1 x2 y2 : Int)
    (ch : Uint8) (fg bg : SDL_Color)
    (h : RCEngine.drawLine fuel e x1 y1 x2 y2 ch fg bg = some e') :
    (e'.cellWidth = e.cellWidth ∧ e'.cellHeight = e.cellHeight) ∧
      ∀ i j, (e'.cellAt i j).map CellTexture.destRect =
        (e.cellAt i j).map CellTexture.destRect := by
  by_cases hg : 0 ≤ x1 ∧ x1 < e.cellCols ∧ 0 ≤ y1 ∧ y1 < e.cellRows
      ∧ 0 ≤ x2 ∧ x2 < e.cellCols ∧ 0 ≤ y2 ∧ y2 < e.cellRows
  · by_cases hx : x1 = x2
    · rw [RCEngine.drawLine_vertical fuel e x1 y1 x2 y2 ch fg bg hg hx] at h
      exact RCEngine.loop_destRect _ _
        (fun s y s' hstep => s.draw_destRect s' _ _ ch fg bg hstep) e e' h
    · by_cases hy : y1 = y2
      · rw [RCEngine.drawLine_horizontal fuel e x1 y1 x2 y2 ch fg bg hg hx hy] at h
        exact RCEngine.loop_destRect _ _
          (fun s y s' hstep => s.draw_destRect s' _ _ ch fg bg hstep) e e' h
      · rw [RCEngine.drawLine_general fuel e x1 y1 x2 y2 ch fg bg hg hx hy] at h
        exact RCEngine.bresenham_destRect ch fg bg _ _ _ _ _ _ fuel e e' _ _ _ h
  · rw [RCEngine.drawLine_outOfRange fuel e x1 y1 x2 y2 ch fg bg hg] at h
    cases h
    exact ⟨⟨rfl, rfl⟩, fun _ _ => rfl⟩

/-- In every reachable state each cell's destination rectangle is the one of its position. -/
theorem RCEngine.Reachable.destRect (e : RCEngine) (h : RCEngine.Reachable e) :
    ∀ i j c, e.cellAt i j = some c →
      c.destRect = ⟨j * e.cellWidth, i * e.cellHeight, e.cellWidth, e.cellHeight⟩ := by
  have hstep : ∀ (e s : RCEngine),
      (∀ i j c, e.cellAt i j = some c →
        c.destRect = ⟨j * e.cellWidth, i * e.cellHeight, e.cellWidth, e.cellHeight⟩) →
      ((s.cellWidth = e.cellWidth ∧ s.cellHeight = e.cellHeight) ∧
        ∀ i j, (s.cellAt i j).map CellTexture.destRect =
          (e.cellAt i j).map CellTexture.destRect) →
      ∀ i j c, s.cellAt i j = some c →
        c.destRect = ⟨j * s.cellWidth, i * s.cellHeight, s.cellWidth, s.cellHeight⟩ := by
    intro e s he hs i j c hc
    have hmap := hs.2 i j
    rw [hc] at hmap
    cases hcell : e.cellAt i j with
    | none => rw [hcell] at hmap; cases hmap
    | some c0 =>
      rw [hcell] at hmap
      simp only [Option.map_some', Option.some.injEq] at hmap
      rw [hmap, hs.1.1, hs.1.2]
      exact he i j c0 hcell
  induction h with
  | create rows cols fw fh tw th e h =>
    intro i j c hc
    obtain ⟨hwf, -⟩ := RCEngine.createConsole_inv _ _ _ _ _ _ e h
    obtain ⟨hj, hi⟩ := e.inRange_of_cellAt hwf i j c hc
    have hdims : e.cellRows = rows ∧ e.cellCols = cols ∧ e.cellWidth = fw ∧
        e.cellHeight = fh := by
      unfold RCEngine.createConsole at h
      split_ifs at h
      simp only [Option.some.injEq] at h
      subst h
      exact ⟨rfl, rfl, rfl, rfl⟩
    rw [RCEngine.createConsole_cellAt rows cols fw fh tw th e h i j
      (by rw [← hdims.2.1]; exact hj) (by rw [← hdims.1]; exact hi)] at hc
    cases hc
    rw [hdims.2.2.1, hdims.2.2.2]
    rfl
  | clear e s _ h ih => exact hstep e s ih (e.clear_destRect s h)
  | draw e s x y ch fg bg _ h ih => exact hstep e s ih (e.draw_destRect s x y ch fg bg h)
  | write e s x y content fg bg _ h ih =>
    exact hstep e s ih (e.write_destRect s x y content fg bg h)
  | fill e s dest ch fg bg _ h ih => exact hstep e s ih (e.fill_destRect s dest ch fg bg h)
  | drawLine fuel e s x1 y1 x2 y2 ch fg bg _ h ih =>
    exact hstep e s ih (RCEngine.drawLine_destRect fuel e s x1 y1 x2 y2 ch fg bg h)

/-- C19. In every buffer state reachable from `createConsole` by `clear`, `draw`, `write`,
`fill` and `drawLine` calls with arbitrary colours, every cell has foreground alpha 255 and
background alpha 255; at every in-range coordinate the two colour accessors return colours of
alpha 255. -/
theorem reachable_cells_opaque (e : RCEngine) (hreach : RCEngine.Reachable e) :
    (∀ i j c, e.cellAt i j = some c → c.foreColor.a = 255 ∧ c.backColor.a = 255) ∧
    (∀ x y, (0 ≤ x ∧ x < e.cellCols) → (0 ≤ y ∧ y < e.cellRows) →
      ∃ fg bg, e.getForeColor x y = some fg ∧ e.getBackColor x y = some bg ∧
        fg.a = 255 ∧ bg.a = 255) := by
  obtain ⟨hwf, hop⟩ := RCEngine.Reachable.inv e hreach
  refine ⟨hop, ?_⟩
  intro x y hx hy
  obtain ⟨c, hc⟩ := e.cellAt_of_wf hwf x y hx hy
  obtain ⟨h1, h2⟩ := hop y x c hc
  refine ⟨c.foreColor, c.backColor, ?_, ?_, h1, h2⟩
  · rw [e.getForeColor_inRange x y hx hy, hc]; rfl
  · rw [e.getBackColor_inRange x y hx hy, hc]; rfl

/-- C19 on the 2 x 3 console after a `draw` at `(0,0)` with the translucent colours
`(10,20,30,128)` and `(200,100,50,7)`. -/
theorem reachable_cells_opaque_witness :
    ∃ s, console23.draw 0 0 65 ⟨10, 20, 30, 128⟩ ⟨200, 100, 50, 7⟩ = some s ∧
      (∀ i j c, s.cellAt i j = some c → c.foreColor.a = 255 ∧ c.backColor.a = 255) ∧
      (∀ x y, (0 ≤ x ∧ x < s.cellCols) → (0 ≤ y ∧ y < s.cellRows) →
        ∃ fg bg, s.getForeColor x y = some fg ∧ s.getBackColor x y = some bg ∧
          fg.a = 255 ∧ bg.a = 255) := by
  obtain ⟨c, s, -, hs, -⟩ := console23.draw_inRange (by decide) 0 0 (by decide) (by decide) 65
    ⟨10, 20, 30, 128⟩ ⟨200, 100, 50, 7⟩
  exact ⟨s, hs, reachable_cells_opaque s
    (RCEngine.Reachable.draw console23 s 0 0 65 ⟨10, 20, 30, 128⟩ ⟨200, 100, 50, 7⟩
      (RCEngine.Reachable.create 2 3 20 20 8 8 console23 (by rfl)) hs)⟩

/-! ### Keys and pointer buttons -/

/-- From a state in which `hold` equals the previous raw sample, the key rule and the
pointer-button rule take the same step, and the step keeps that equality. -/
theorem KeyChannel.cycle_eq_cursorCycle (c : KeyChannel) (down : Bool)
    (h : c.keyState.hold = c.prevKeyInput) :
    c.cycle down = c.cursorCycle down ∧
      (c.cycle down).keyState.hold = (c.cycle down).prevKeyInput := by
  obtain ⟨ki, prev, ⟨p, r, hold⟩⟩ := c
  simp only at h
  subst h
  cases down <;> cases hold <;>
    simp [KeyChannel.cycle, KeyChannel.update, KeyChannel.cursorCycle, KeyChannel.cursorUpdate]

theorem KeyChannel.run_eq_cursorRun (samples : List Bool) :
    ∀ c : KeyChannel, c.keyState.hold = c.prevKeyInput → c.run samples = c.cursorRun samples := by
  induction samples with
  | nil => intro c _; rfl
  | cons d rest ih =>
    intro c hc
    obtain ⟨heq, hinv⟩ := c.cycle_eq_cursorCycle d hc
    simp only [KeyChannel.run, KeyChannel.cursorRun]
    rw [← heq, ih (c.cycle d) hinv]

theorem KeyChannel.after_hold (samples : List Bool) :
    ∀ c : KeyChannel, c.keyState.hold = c.prevKeyInput →
      (c.after samples).keyState.hold = (c.after samples).prevKeyInput := by
  induction samples with
  | nil => intro c hc; exact hc
  | cons d rest ih =>
    intro c hc
    exact ih (c.cycle d) (c.cycle_eq_cursorCycle d hc).2

/-- C20. From the initial state (all samples and flags `false`), for every sequence of raw
samples the key rule (`pressed = !hold` on a down transition) and the pointer-button rule
(`pressed = true` on a down transition) give the same `pressed`, `released` and `hold` in
every cycle; at the start of every cycle `hold` equals the previous raw sample, and from such
a state the two rules take the same step for either sample. -/
theorem key_rule_eq_cursor_rule (samples : List Bool) :
    KeyChannel.init.run samples = KeyChannel.init.cursorRun samples ∧
    (KeyChannel.init.after samples).keyState.hold =
      (KeyChannel.init.after samples).prevKeyInput ∧
    (∀ down, (KeyChannel.init.after samples).cycle down =
      (KeyChannel.init.after samples).cursorCycle down) := by
  refine ⟨KeyChannel.run_eq_cursorRun samples KeyChannel.init rfl,
    KeyChannel.after_hold samples KeyChannel.init rfl, ?_⟩
  intro down
  exact (KeyChannel.cycle_eq_cursorCycle _ down
    (KeyChannel.after_hold samples KeyChannel.init rfl)).1

/-- C20 on the samples `[F,T,T,F,T]`: both rules give the same five states. -/
theorem key_rule_eq_cursor_rule_witness :
    KeyChannel.init.run [false, true, true, false, true] =
        KeyChannel.init.cursorRun [false, true, true, false, true] ∧
      KeyChannel.init.cursorRun [false, true, true, false, true] =
        [⟨false, false, false⟩, ⟨true, false, true⟩, ⟨false, false, true⟩,
          ⟨false, true, false⟩, ⟨true, false, true⟩] :=
  ⟨(key_rule_eq_cursor_rule [false, true, true, false, true]).1, by decide⟩

/-! ### drawLine: the plotted cells stay between the endpoints -/

/-- In the loop of a wide line (`D ≤ dx`) the invariant on the error term keeps the remaining
vertical distance `b` between 0 and `D`. -/
theorem xmajor_minor_bounds (dx D n b err : Int) (hD : 0 < D) (hdx : D ≤ dx) (hn0 : 0 ≤ n)
    (hn : n ≤ dx) (herr : err = dx - D + n * D - b * dx) (hlo : -D ≤ 2 * err)
    (hhi : 2 * err ≤ 3 * dx - 2 * D) : 0 ≤ b ∧ b ≤ D := by
  have hnD0 : 0 ≤ n * D := mul_nonneg hn0 hD.le
  have hnD : n * D ≤ dx * D := mul_le_mul_of_nonneg_right hn hD.le
  constructor
  · by_contra hb
    have := mul_le_mul_of_nonneg_right (show b ≤ -1 by omega) (show (0 : Int) ≤ dx by omega)
    linarith
  · by_contra hb
    have := mul_le_mul_of_nonneg_right (show D + 1 ≤ b by omega) (show (0 : Int) ≤ dx by omega)
    linarith

/-- In the loop of a high line (`dx ≤ D`) the invariant on the error term keeps the remaining
horizontal distance `a` between 0 and `dx`. -/
theorem ymajor_minor_bounds (dx D n a err : Int) (hdx : 0 < dx) (hD : dx ≤ D) (hn0 : 0 ≤ n)
    (hn : n ≤ D) (herr : err = dx - D + a * D - n * dx) (hhi : 2 * err ≤ dx)
    (hlo : 2 * dx - 3 * D ≤ 2 * err) : 0 ≤ a ∧ a ≤ dx := by
  have hndx0 : 0 ≤ n * dx := mul_nonneg hn0 hdx.le
  have hndx : n * dx ≤ D * dx := mul_le_mul_of_nonneg_right hn hdx.le
  constructor
  · by_contra ha
    have := mul_le_mul_of_nonneg_right (show a ≤ -1 by omega) (show (0 : Int) ≤ D by omega)
    linarith
  · by_contra ha
    have := mul_le_mul_of_nonneg_right (show dx + 1 ≤ a by omega) (show (0 : Int) ≤ D by omega)
    linarith

/-- Every cell that the loop of a wide line plots lies between the current cell's column and
the end column, and between the rows of the endpoints. -/
theorem bresenhamPlots_xmajor_box (x2 y2 dx D sx sy : Int) (hsx : sx = 1 ∨ sx = -1)
    (hsy : sy = 1 ∨ sy = -1) (hD : 0 < D) (hdx : D ≤ dx) :
    ∀ (n fuel : ℕ) (x y err : Int) (l : List (Int × Int)), (n : Int) ≤ dx →
      sx * (x2 - x) = n → err = dx - D + n * D - (sy * (y2 - y)) * dx →
      -D ≤ 2 * err → 2 * err ≤ 3 * dx - 2 * D →
      bresenhamPlots x2 y2 dx (-D) sx sy fuel x y err = some l →
      ∀ p ∈ l, (0 ≤ sx * (x2 - p.1) ∧ sx * (x2 - p.1) ≤ dx) ∧
        (0 ≤ sy * (y2 - p.2) ∧ sy * (y2 - p.2) ≤ D) := by
  have hsx2 : sx * sx = 1 := by rcases hsx with rfl | rfl <;> rfl
  have hsy2 : sy * sy = 1 := by rcases hsy with rfl | rfl <;> rfl
  intro n
  induction n with
  | zero =>
    intro fuel x y err l hn hx herr hlo hhi hl p hp
    have hcur := xmajor_minor_bounds dx D 0 (sy * (y2 - y)) err hD hdx le_rfl (by omega)
      (by simpa using herr) hlo hhi
    cases fuel with
    | zero => cases hl
    | succ f =>
      have hxe : x = x2 := by
        rcases hsx with rfl | rfl <;> simp at hx <;> omega
      have hb : sy * (y2 - y) = 0 := by
        simp only [Nat.cast_zero, zero_mul, add_zero] at herr
        rcases lt_trichotomy (sy * (y2 - y)) 0 with hneg | hz | hpos
        · omega
        · exact hz
        · exfalso
          have := mul_le_mul_of_nonneg_right (show 1 ≤ sy * (y2 - y) by omega)
            (show (0 : Int) ≤ dx by omega)
          linarith
      have hye : y = y2 := by
        rcases hsy with rfl | rfl <;> simp at hb <;> omega
      subst hxe hye
      rw [bresenhamPlots_stop] at hl
      cases hl
      simp only [List.mem_singleton] at hp
      subst hp
      simp only [sub_self, mul_zero, le_refl, true_and]
      omega
  | succ n ih =>
    intro fuel x y err l hn hx herr hlo hhi hl p hp
    push_cast at hn hx herr
    have hcur := xmajor_minor_bounds dx D (n + 1) (sy * (y2 - y)) err hD hdx (by omega) hn
      herr hlo hhi
    cases fuel with
    | zero => cases hl
    | succ f =>
      have hne : ¬ (x = x2 ∧ y = y2) := by
        rintro ⟨rfl, -⟩
        simp at hx
        omega
      rw [bresenhamPlots_step _ _ _ _ _ _ _ _ _ _ hne, Option.map_eq_some'] at hl
      obtain ⟨l', hl', rfl⟩ := hl
      rcases List.mem_cons.mp hp with rfl | hp'
      · simp only
        exact ⟨⟨by omega, by omega⟩, hcur⟩
      · have h1 : 2 * err ≥ -D := hlo
        rw [if_pos h1, if_pos h1] at hl'
        have hx' : sx * (x2 - (x + sx)) = n := by
          linear_combination hx - hsx2
        by_cases h2 : 2 * err ≤ dx
        · rw [if_pos h2, if_pos h2] at hl'
          exact ih f (x + sx) (y + sy) (err + -D + dx) l' (by omega) hx'
            (by linear_combination herr - dx * hsy2) (by linarith) (by linarith) hl' p hp'
        · rw [if_neg h2, if_neg h2] at hl'
          exact ih f (x + sx) y (err + -D) l' (by omega) hx'
            (by linear_combination herr) (by linarith) (by linarith) hl' p hp'

/-- Every cell that the loop of a high line plots lies between the columns of the endpoints
and between the current cell's row and the end row. -/
theorem bresenhamPlots_ymajor_box (x2 y2 dx D sx sy : Int) (hsx : sx = 1 ∨ sx = -1)
    (hsy : sy = 1 ∨ sy = -1) (hdx : 0 < dx) (hD : dx ≤ D) :
    ∀ (n fuel : ℕ) (x y err : Int) (l : List (Int × Int)), (n : Int) ≤ D →
      sy * (y2 - y) = n → err = dx - D + (sx * (x2 - x)) * D - n * dx →
      2 * err ≤ dx → 2 * dx - 3 * D ≤ 2 * err →
      bresenhamPlots x2 y2 dx (-D) sx sy fuel x y err = some l →
      ∀ p ∈ l, (0 ≤ sx * (x2 - p.1) ∧ sx * (x2 - p.1) ≤ dx) ∧
        (0 ≤ sy * (y2 - p.2) ∧ sy * (y2 - p.2) ≤ D) := by
  have hsx2 : sx * sx = 1 := by rcases hsx with rfl | rfl <;> rfl
  have hsy2 : sy * sy = 1 := by rcases hsy with rfl | rfl <;> rfl
  intro n
  induction n with
  | zero =>
    intro fuel x y err l hn hy herr hhi hlo hl p hp
    cases fuel with
    | zero => cases hl
    | succ f =>
      have hye : y = y2 := by
        rcases hsy with rfl | rfl <;> simp at hy <;> omega
      have ha : sx * (x2 - x) = 0 := by
        simp only [Nat.cast_zero, zero_mul, sub_zero] at herr
        rcases lt_trichotomy (sx * (x2 - x)) 0 with hneg | hz | hpos
        · exfalso
          have := mul_le_mul_of_nonneg_right (show sx * (x2 - x) ≤ -1 by omega)
            (show (0 : Int) ≤ D by omega)
          linarith
        · exact hz
        · exfalso
          have := mul_le_mul_of_nonneg_right (show 1 ≤ sx * (x2 - x) by omega)
            (show (0 : Int) ≤ D by omega)
          linarith
      have hxe : x = x2 := by
        rcases hsx with rfl | rfl <;> simp at ha <;> omega
      subst hxe hye
      rw [bresenhamPlots_stop] at hl
      cases hl
      simp only [List.mem_singleton] at hp
      subst hp
      simp only [sub_self, mul_zero, le_refl, true_and]
      omega
  | succ n ih =>
    intro fuel x y err l hn hy herr hhi hlo hl p hp
    push_cast at hn hy herr
    have hcur := ymajor_minor_bounds dx D (n + 1) (sx * (x2 - x)) err hdx hD (by omega) hn
      herr hhi hlo
    cases fuel with
    | zero => cases hl
    | succ f =>
      have hne : ¬ (x = x2 ∧ y = y2) := by
        rintro ⟨-, rfl⟩
        simp at hy
        omega
      rw [bresenhamPlots_step _ _ _ _ _ _ _ _ _ _ hne, Option.map_eq_some'] at hl
      obtain ⟨l', hl', rfl⟩ := hl
      rcases List.mem_cons.mp hp with rfl | hp'
      · simp only
        exact ⟨hcur, ⟨by omega, by omega⟩⟩
      · have h2 : 2 * err ≤ dx := hhi
        rw [if_pos h2, if_pos h2] at hl'
        have hy' : sy * (y2 - (y + sy)) = n := by
          linear_combination hy - hsy2
        by_cases h1 : 2 * err ≥ -D
        · rw [if_pos h1, if_pos h1] at hl'
          exact ih f (x + sx) (y + sy) (err + -D + dx) l' (by omega) hy'
            (by linear_combination herr + D * hsx2) (by linarith) (by linarith) hl' p hp'
        · rw [if_neg h1, if_neg h1] at hl'
          exact ih f x (y + sy) (err + dx) l' (by omega) hy'
            (by linear_combination herr) (by linarith) (by linarith) hl' p hp'

/-- Every cell that `drawLine` passes to `draw` lies in the bounding box of the endpoints. -/
theorem drawLinePlots_box (fuel : Nat) (x1 y1 x2 y2 : Int) (l : List (Int × Int))
    (hl : drawLinePlots fuel x1 y1 x2 y2 = some l) :
    ∀ p ∈ l, (min x1 x2 ≤ p.1 ∧ p.1 ≤ max x1 x2) ∧ (min y1 y2 ≤ p.2 ∧ p.2 ≤ max y1 y2) := by
  by_cases hs : x1 = x2 ∨ y1 = y2
  · obtain ⟨cells, hplots, hmem⟩ := drawLinePlots_straight_mem fuel x1 y1 x2 y2 hs
    rw [hplots] at hl
    cases hl
    rintro ⟨cx, cy⟩ hp
    exact (hmem cx cy).mp hp
  · have hx : x1 ≠ x2 := fun h => hs (Or.inl h)
    have hy : y1 ≠ y2 := fun h => hs (Or.inr h)
    rw [drawLinePlots_general fuel x1 y1 x2 y2 hx hy] at hl
    have hdx : 0 < |x2 - x1| := abs_pos.mpr (by omega)
    have hdy : 0 < |y2 - y1| := abs_pos.mpr (by omega)
    have hsx : (if x1 < x2 then (1 : Int) else -1) = 1 ∨
        (if x1 < x2 then (1 : Int) else -1) = -1 := by
      by_cases h : x1 < x2
      · rw [if_pos h]; exact Or.inl rfl
      · rw [if_neg h]; exact Or.inr rfl
    have hsy : (if y1 < y2 then (1 : Int) else -1) = 1 ∨
        (if y1 < y2 then (1 : Int) else -1) = -1 := by
      by_cases h : y1 < y2
      · rw [if_pos h]; exact Or.inl rfl
      · rw [if_neg h]; exact Or.inr rfl
    have hax : (if x1 < x2 then (1 : Int) else -1) * (x2 - x1) = |x2 - x1| := by
      by_cases h : x1 < x2
      · rw [if_pos h, abs_of_pos (by omega)]; ring
      · rw [if_neg h, abs_of_neg (by omega)]; ring
    have hay : (if y1 < y2 then (1 : Int) else -1) * (y2 - y1) = |y2 - y1| := by
      by_cases h : y1 < y2
      · rw [if_pos h, abs_of_pos (by omega)]; ring
      · rw [if_neg h, abs_of_neg (by omega)]; ring
    have hbox : ∀ p ∈ l,
        (0 ≤ (if x1 < x2 then (1 : Int) else -1) * (x2 - p.1) ∧
          (if x1 < x2 then (1 : Int) else -1) * (x2 - p.1) ≤ |x2 - x1|) ∧
        (0 ≤ (if y1 < y2 then (1 : Int) else -1) * (y2 - p.2) ∧
          (if y1 < y2 then (1 : Int) else -1) * (y2 - p.2) ≤ |y2 - y1|) := by
      by_cases hmajor : |y2 - y1| ≤ |x2 - x1|
      · exact bresenhamPlots_xmajor_box x2 y2 |x2 - x1| |y2 - y1| _ _ hsx hsy hdy hmajor
          (|x2 - x1|).toNat fuel x1 y1 _ l (by omega) (by rw [hax]; omega)
          (by rw [hay, Int.toNat_of_nonneg hdx.le]; ring) (by omega) (by omega) hl
      · exact bresenhamPlots_ymajor_box x2 y2 |x2 - x1| |y2 - y1| _ _ hsx hsy hdx (by omega)
          (|y2 - y1|).toNat fuel x1 y1 _ l (by omega) (by rw [hay]; omega)
          (by rw [hax, Int.toNat_of_nonneg hdy.le]; ring) (by omega) (by omega) hl
    intro p hp
    obtain ⟨⟨hx0, hx1⟩, ⟨hy0, hy1⟩⟩ := hbox p hp
    constructor
    · by_cases h : x1 < x2
      · rw [if_pos h] at hx0 hx1
        rw [abs_of_pos (by omega)] at hx1
        omega
      · rw [if_neg h] at hx0 hx1
        rw [abs_of_neg (by omega)] at hx1
        omega
    · by_cases h : y1 < y2
      · rw [if_pos h] at hy0 hy1
        rw [abs_of_pos (by omega)] at hy1
        omega
      · rw [if_neg h] at hy0 hy1
        rw [abs_of_neg (by omega)] at hy1
        omega

/-- The cells of a straight line are plotted once each. -/
theorem drawLinePlots_straight_nodup (fuel : Nat) (x1 y1 x2 y2 : Int)
    (hs : x1 = x2 ∨ y1 = y2) (l : List (Int × Int))
    (hl : drawLinePlots fuel x1 y1 x2 y2 = some l) : l.Nodup := by
  by_cases hx : x1 = x2
  · rw [drawLinePlots_vertical fuel x1 y1 x2 y2 hx] at hl
    cases hl
    refine List.Nodup.map ?_ (loopRange_nodup _ _)
    intro a b hab
    simp only [Prod.mk.injEq] at hab
    exact hab.2
  · have hy : y1 = y2 := hs.resolve_left hx
    rw [drawLinePlots_horizontal fuel x1 y1 x2 y2 hx hy] at hl
    cases hl
    refine List.Nodup.map ?_ (loopRange_nodup _ _)
    intro a b hab
    simp only [Prod.mk.injEq] at hab
    exact hab.1

/-- C21. For in-range endpoints, every cell that `drawLine` plots (straight branches and
Bresenham loop alike, whatever the iteration budget) has `x` between `min x1 x2` and
`max x1 x2` and `y` between `min y1 y2` and `max y1 y2`, hence is in range; and with more
iterations than `max |x2-x1| |y2-y1|`, on a well-formed grid, `drawLine` returns and none of
its `draw` calls is dropped: every plotted cell then holds the painting of its prior content
and reads back the glyph drawn. -/
theorem drawLine_cells_in_box (fuel : Nat) (e : RCEngine) (hwf : e.wf) (x1 y1 x2 y2 : Int)
    (h1 : (0 ≤ x1 ∧ x1 < e.cellCols) ∧ (0 ≤ y1 ∧ y1 < e.cellRows))
    (h2 : (0 ≤ x2 ∧ x2 < e.cellCols) ∧ (0 ≤ y2 ∧ y2 < e.cellRows))
    (hfuel : max |x2 - x1| |y2 - y1| < fuel) (ch : Uint8) (fg bg : SDL_Color) :
    (∀ (f : Nat) (l : List (Int × Int)), drawLinePlots f x1 y1 x2 y2 = some l → ∀ p ∈ l,
      ((min x1 x2 ≤ p.1 ∧ p.1 ≤ max x1 x2) ∧ (min y1 y2 ≤ p.2 ∧ p.2 ≤ max y1 y2)) ∧
      ((0 ≤ p.1 ∧ p.1 < e.cellCols) ∧ (0 ≤ p.2 ∧ p.2 < e.cellRows))) ∧
    ∃ cells e', drawLinePlots fuel x1 y1 x2 y2 = some cells ∧
      RCEngine.drawLine fuel e x1 y1 x2 y2 ch fg bg = some e' ∧
      ∀ p ∈ cells, e'.cellAt p.2 p.1 = (e.cellAt p.2 p.1).map (fun c => c.paint ch fg bg) ∧
        e'.getCh p.1 p.2 = some ch := by
  have hboth : ∀ (f : Nat) (l : List (Int × Int)), drawLinePlots f x1 y1 x2 y2 = some l →
      ∀ p ∈ l,
      ((min x1 x2 ≤ p.1 ∧ p.1 ≤ max x1 x2) ∧ (min y1 y2 ≤ p.2 ∧ p.2 ≤ max y1 y2)) ∧
      ((0 ≤ p.1 ∧ p.1 < e.cellCols) ∧ (0 ≤ p.2 ∧ p.2 < e.cellRows)) := by
    intro f l hl p hp
    have hb := drawLinePlots_box f x1 y1 x2 y2 l hl p hp
    refine ⟨hb, ?_⟩
    omega
  refine ⟨hboth, ?_⟩
  obtain ⟨cells, hplots, hnd⟩ : ∃ cells, drawLinePlots fuel x1 y1 x2 y2 = some cells ∧
      cells.Nodup := by
    by_cases hs : x1 = x2 ∨ y1 = y2
    · obtain ⟨cells, hplots, -⟩ := drawLinePlots_straight_mem fuel x1 y1 x2 y2 hs
      exact ⟨cells, hplots, drawLinePlots_straight_nodup fuel x1 y1 x2 y2 hs cells hplots⟩
    · obtain ⟨cells, hplots, -, -, -, hnd, -⟩ := drawLinePlots_path fuel x1 y1 x2 y2
        (fun h => hs (Or.inl h)) (fun h => hs (Or.inr h)) hfuel
      exact ⟨cells, hplots, hnd⟩
  have hin : ∀ p ∈ cells, (0 ≤ p.1 ∧ p.1 < e.cellCols) ∧ (0 ≤ p.2 ∧ p.2 < e.cellRows) :=
    fun p hp => (hboth fuel cells hplots p hp).2
  have hlink := RCEngine.drawLine_eq_plots fuel e x1 y1 x2 y2 ch fg bg
    ⟨h1.1.1, h1.1.2, h1.2.1, h1.2.2, h2.1.1, h2.1.2, h2.2.1, h2.2.2⟩
  rw [hplots, Option.some_bind] at hlink
  obtain ⟨e', he', hpaint, -⟩ := e.draws_cells hwf ch fg bg cells hnd hin
  obtain ⟨hr, hc, -⟩ := RCEngine.draws_frame (fun p : Int × Int => p) (fun _ => ch) fg bg
    cells e e' he'
  refine ⟨cells, e', hplots, hlink.trans he', ?_⟩
  intro p hp
  have hcell := hpaint p hp
  refine ⟨hcell, ?_⟩
  obtain ⟨hpx, hpy⟩ := hin p hp
  obtain ⟨c, hc0⟩ := e.cellAt_of_wf hwf p.1 p.2 hpx hpy
  rw [e'.getCh_inRange p.1 p.2 (by rw [hc]; exact hpx) (by rw [hr]; exact hpy), hcell, hc0]
  rfl

/-- C21 on the default 30 x 40 console for the line from `(7,2)` to `(0,0)`. -/
theorem drawLine_cells_in_box_witness :
    drawLinePlots 8 7 2 0 0 =
      some [(7, 2), (6, 2), (5, 1), (4, 1), (3, 1), (2, 1), (1, 0), (0, 0)] ∧
    ∃ cells e', drawLinePlots 8 7 2 0 0 = some cells ∧
      RCEngine.drawLine 8 console3040 7 2 0 0 88 ⟨255, 255, 255, 255⟩ ⟨0, 0, 0, 128⟩ =
        some e' ∧
      ∀ p ∈ cells, e'.cellAt p.2 p.1 = (console3040.cellAt p.2 p.1).map
          (fun c => c.paint 88 ⟨255, 255, 255, 255⟩ ⟨0, 0, 0, 128⟩) ∧
        e'.getCh p.1 p.2 = some 88 :=
  ⟨by decide,
    (drawLine_cells_in_box 8 console3040 (by decide) 7 2 0 0 (by decide) (by decide)
      (by decide) 88 ⟨255, 255, 255, 255⟩ ⟨0, 0, 0, 128⟩).2⟩

/-! ### The narrowing in blendColor, and the frame of draw -/

/-- What `blendColor` rounds for a channel is an integer of 0..255, and the narrowing to 8 bits
returns that integer. -/
theorem blendChannel_narrowing (c1 a1 c2 a2 : Uint8) :
    0 ≤ Double.round (blendChannel c1 a1 c2 a2) ∧
      Double.round (blendChannel c1 a1 c2 a2) ≤ 255 ∧
      (∃ n : ℕ, Double.round (blendChannel c1 a1 c2 a2) = (n : ℚ)) ∧
      (((Double.toUint8 (Double.round (blendChannel c1 a1 c2 a2))).val : ℕ) : ℚ) =
        Double.round (blendChannel c1 a1 c2 a2) := by
  obtain ⟨n, hn, hround, hval, -⟩ := blendChannel_round c1 a1 c2 a2
  rw [hval, hround]
  refine ⟨Nat.cast_nonneg n, ?_, ⟨n, rfl⟩, rfl⟩
  exact_mod_cast hn

/-- C22. For all colours `c1`, `c2` (8-bit channels and alphas), the value that `blendColor`
computes for each of r, g, b before narrowing, the `round` of the weighted sum in doubles, is
an integer between 0 and 255, and so is the rounded alpha 255: the conversion to `Uint8`
returns each value unchanged, without wrapping or truncating. -/
theorem blendColor_narrowing_exact (c1 c2 : SDL_Color) :
    (0 ≤ Double.round (blendChannel c1.r c1.a c2.r c2.a) ∧
      Double.round (blendChannel c1.r c1.a c2.r c2.a) ≤ 255 ∧
      (∃ n : ℕ, Double.round (blendChannel c1.r c1.a c2.r c2.a) = (n : ℚ)) ∧
      ((blendColor c1 c2).r.val : ℚ) = Double.round (blendChannel c1.r c1.a c2.r c2.a)) ∧
    (0 ≤ Double.round (blendChannel c1.g c1.a c2.g c2.a) ∧
      Double.round (blendChannel c1.g c1.a c2.g c2.a) ≤ 255 ∧
      (∃ n : ℕ, Double.round (blendChannel c1.g c1.a c2.g c2.a) = (n : ℚ)) ∧
      ((blendColor c1 c2).g.val : ℚ) = Double.round (blendChannel c1.g c1.a c2.g c2.a)) ∧
    (0 ≤ Double.round (blendChannel c1.b c1.a c2.b c2.a) ∧
      Double.round (blendChannel c1.b c1.a c2.b c2.a) ≤ 255 ∧
      (∃ n : ℕ, Double.round (blendChannel c1.b c1.a c2.b c2.a) = (n : ℚ)) ∧
      ((blendColor c1 c2).b.val : ℚ) = Double.round (blendChannel c1.b c1.a c2.b c2.a)) ∧
    (Double.round 255 = 255 ∧ ((blendColor c1 c2).a.val : ℚ) = Double.round 255) := by
  have h255 : Double.round 255 = 255 := by
    have := Double.round_natCast 255
    simpa using this
  refine ⟨?_, ?_, ?_, h255, ?_⟩
  · rw [blendColor_r]; exact blendChannel_narrowing _ _ _ _
  · rw [blendColor_g]; exact blendChannel_narrowing _ _ _ _
  · rw [blendColor_b]; exact blendChannel_narrowing _ _ _ _
  · rw [blendColor_a, h255]
    rfl

/-- C23. In a well-formed grid, `draw(x,y,ch,fg,bg)` at an in-range `(x,y)` succeeds and
changes only the cell at row `y`, column `x`: the grid dimensions and the shape of the buffer
are unchanged, every other cell is the same before and after, and at every other coordinate
the three accessors return what they returned before. -/
theorem draw_changes_one_cell (e : RCEngine) (hwf : e.wf) (x y : Int)
    (hx : 0 ≤ x ∧ x < e.cellCols) (hy : 0 ≤ y ∧ y < e.cellRows)
    (ch : Uint8) (fg bg : SDL_Color) :
    ∃ e', e.draw x y ch fg bg = some e' ∧
      (e'.cellRows = e.cellRows ∧ e'.cellCols = e.cellCols ∧ e'.wf ∧
        e'.buffer.length = e.buffer.length) ∧
      (∀ i j, ¬ (i = y ∧ j = x) → e'.cellAt i j = e.cellAt i j) ∧
      (∀ x' y', ¬ (x' = x ∧ y' = y) →
        e'.getCh x' y' = e.getCh x' y' ∧ e'.getForeColor x' y' = e.getForeColor x' y' ∧
        e'.getBackColor x' y' = e.getBackColor x' y') := by
  obtain ⟨c, e', -, hd, hwf', hr, hc, hcell⟩ := e.draw_inRange hwf x y hx hy ch fg bg
  have hother : ∀ i j, ¬ (i = y ∧ j = x) → e'.cellAt i j = e.cellAt i j := by
    intro i j hij
    rw [hcell i j, if_neg hij]
  refine ⟨e', hd, ⟨hr, hc, hwf', ?_⟩, hother, ?_⟩
  · rw [hwf'.1, hwf.1, hr]
  · intro x' y' hxy
    have hat : e'.cellAt y' x' = e.cellAt y' x' :=
      hother y' x' (fun h => hxy ⟨h.2, h.1⟩)
    unfold RCEngine.getCh RCEngine.getForeColor RCEngine.getBackColor
    rw [hr, hc, hat]
    exact ⟨rfl, rfl, rfl⟩

/-- C23 on the drawn 3 x 3 console: a `draw` at `(0,2)` leaves the cell drawn before at
`(1,1)` with its glyph 88. -/
theorem draw_changes_one_cell_witness :
    (∃ e', console33drawn.draw 0 2 65 ⟨1, 2, 3, 77⟩ ⟨4, 5, 6, 200⟩ = some e' ∧
      (e'.cellRows = console33drawn.cellRows ∧ e'.cellCols = console33drawn.cellCols ∧
        e'.wf ∧ e'.buffer.length = console33drawn.buffer.length) ∧
      (∀ i j, ¬ (i = 2 ∧ j = 0) → e'.cellAt i j = console33drawn.cellAt i j) ∧
      (∀ x' y', ¬ (x' = 0 ∧ y' = 2) →
        e'.getCh x' y' = console33drawn.getCh x' y' ∧
        e'.getForeColor x' y' = console33drawn.getForeColor x' y' ∧
        e'.getBackColor x' y' = console33drawn.getBackColor x' y')) ∧
    (console33drawn.draw 0 2 65 ⟨1, 2, 3, 77⟩ ⟨4, 5, 6, 200⟩).bind
      (fun s => s.getCh 1 1) = some 88 ∧
    (console33drawn.draw 0 2 65 ⟨1, 2, 3, 77⟩ ⟨4, 5, 6, 200⟩).bind
      (fun s => s.getCh 0 2) = some 65 :=
  ⟨draw_changes_one_cell console33drawn (by decide) 0 2 (by decide) (by decide) 65
    ⟨1, 2, 3, 77⟩ ⟨4, 5, 6, 200⟩, by decide, by decide⟩
